import Mathlib

/-!
Verification development for the restaurant-pipeline ETL core.

The development shallowly embeds the two source modules
`pipelines/data_processing/nodes.py` and `pipelines/reporting/nodes.py`:
tables are ordered lists of rows over a `Value` type covering the pandas
cell values the pipeline manipulates (missing markers, booleans, numbers,
strings, timestamps, and nested JSON structures), and each pandas
operation the nodes use (`drop_duplicates`, `dropna`, `rename`,
`applymap`, `astype(str)`, `pd.to_datetime`, `pd.merge`,
`groupby(...).count()`, `mean`, `sum`) is modelled as an explicit
function, with `Except` for the exceptions pandas raises.  Fallible
library behaviour is modelled where the pipeline depends on it: row
deduplication raises on unhashable (nested) cells, `json.dumps` fails on
non-JSON-representable leaves such as timestamps (triggering the
`_safe_serialize` fallback to `str(x)`), and `pd.to_datetime` accepts
ISO dates, treats the empty string as the missing marker `NaT`, and
raises on anything else.

Numbers are modelled as rationals with a single constructor (pandas
compares `2` and `2.0` equal, so one numeric carrier matches the
deduplication semantics).  The canonical JSON emitter writes fractional
numbers in integer-mantissa scientific notation (`25e-2` instead of
`0.25`); this is byte-different from CPython's float formatting but
preserves every property in play (determinism, canonicity, and the JSON
round trip).  Non-ASCII characters are emitted directly rather than
`\u`-escaped; again only the concrete bytes differ, not the properties.
-/

/-- A pandas timestamp, to calendar-second precision, which is all the
pipeline's `ordered_at` parsing produces. -/
structure Timestamp where
  year : Nat
  month : Nat
  day : Nat
  hour : Nat
  minute : Nat
  second : Nat
deriving DecidableEq

/-- A pandas cell value: `null` is Python `None`, `nan` the float
not-a-number missing marker, `ts Option.none` is `NaT`, `obj` and `arr`
are the nested JSON structures found in the tickets source.  A single
`num` constructor carries both integers and floats as exact rationals. -/
inductive Value where
  | null : Value
  | nan : Value
  | bool : Bool → Value
  | num : Rat → Value
  | str : String → Value
  | ts : Option Timestamp → Value
  | obj : List (String × Value) → Value
  | arr : List Value → Value

mutual

/-- Structural boolean equality on values, the basis of `DecidableEq`. -/
def Value.beq : Value → Value → Bool
  | .null, .null => true
  | .nan, .nan => true
  | .bool a, .bool b => a == b
  | .num a, .num b => a == b
  | .str a, .str b => a == b
  | .ts a, .ts b => a == b
  | .obj fs, .obj gs => beqFields fs gs
  | .arr vs, .arr ws => beqElems vs ws
  | _, _ => false

/-- Pointwise boolean equality of object field lists. -/
def beqFields : List (String × Value) → List (String × Value) → Bool
  | [], [] => true
  | (k, v) :: fs, (k', v') :: gs => k == k' && Value.beq v v' && beqFields fs gs
  | _, _ => false

/-- Pointwise boolean equality of array element lists. -/
def beqElems : List Value → List Value → Bool
  | [], [] => true
  | v :: vs, w :: ws => Value.beq v w && beqElems vs ws
  | _, _ => false

end

/-- The opening curly brace character, kept out of string literals. -/
abbrev lbrace : Char := Char.ofNat 123

/-- The closing curly brace character. -/
abbrev rbrace : Char := Char.ofNat 125

/-- The single-quote character used by Python `repr` of strings. -/
abbrev squote : Char := Char.ofNat 39

/-- Code-point comparison of characters, the order `sort_keys` uses. -/
def charLe (a b : Char) : Bool := a.val.toNat ≤ b.val.toNat

/-- Lexicographic code-point comparison of character lists. -/
def charListLe : List Char → List Char → Bool
  | [], _ => true
  | _ :: _, [] => false
  | a :: as, b :: bs => if a = b then charListLe as bs else charLe a b

/-- Lexicographic string comparison (Python `<=` on `str`). -/
def strLe (a b : String) : Bool := charListLe a.data b.data

/-- Insert a field into a key-sorted field list, keeping it sorted. -/
def insertSorted (p : String × Value) : List (String × Value) → List (String × Value)
  | [] => [p]
  | q :: rest => if strLe p.1 q.1 then p :: q :: rest else q :: insertSorted p rest

/-- Sort object fields by key, modelling `json.dumps(..., sort_keys=True)`. -/
def sortFields (fs : List (String × Value)) : List (String × Value) :=
  fs.foldr insertSorted []

mutual

/-- Canonical form of a value: object fields sorted by key at every
nesting level.  `json.dumps(x, sort_keys=True)` serializes exactly the
canonical form of `x`. -/
def canon : Value → Value
  | .obj fs => .obj (sortFields (canonFields fs))
  | .arr vs => .arr (canonElems vs)
  | .null => .null
  | .nan => .nan
  | .bool b => .bool b
  | .num q => .num q
  | .str s => .str s
  | .ts t => .ts t

/-- Canonical form of each field value, keeping field order. -/
def canonFields : List (String × Value) → List (String × Value)
  | [] => []
  | (k, v) :: fs => (k, canon v) :: canonFields fs

/-- Canonical form of each array element. -/
def canonElems : List Value → List Value
  | [] => []
  | v :: vs => canon v :: canonElems vs

end

/-- First value bound to key `k` in an association list. -/
def lookupF (k : String) : List (String × Value) → Option Value
  | [] => Option.none
  | (k', v) :: fs => if k = k' then some v else lookupF k fs

/-- Every key of `fs` is bound in `gs`. -/
def keysSubB (fs gs : List (String × Value)) : Bool :=
  fs.all fun kv => (lookupF kv.1 gs).isSome

/-- Whether the keys of a field list are pairwise distinct. -/
def nodupKeysB : List (String × Value) → Bool
  | [] => true
  | (k, _) :: fs => !(fs.any fun kv => kv.1 == k) && nodupKeysB fs

mutual

/-- Python `==` on values: dictionaries compare as unordered key/value
maps, lists pointwise, scalars by value.  This is the "structural
equality" of the specification, under which two nested values that
differ only in key-insertion order are equal. -/
def pyEq : Value → Value → Bool
  | .obj fs, w =>
      match w with
      | .obj gs => pyEqFields fs gs && keysSubB gs fs
      | _ => false
  | .arr vs, w =>
      match w with
      | .arr ws => pyEqElems vs ws
      | _ => false
  | .null, w => w.beq .null
  | .nan, w => w.beq .nan
  | .bool b, w => w.beq (.bool b)
  | .num q, w => w.beq (.num q)
  | .str s, w => w.beq (.str s)
  | .ts t, w => w.beq (.ts t)

/-- Every field of `fs` is present in `gs` with a `pyEq`-equal value. -/
def pyEqFields : List (String × Value) → List (String × Value) → Bool
  | [], _ => true
  | (k, v) :: fs, gs =>
      (match lookupF k gs with
       | some w => pyEq v w
       | none => false) && pyEqFields fs gs

/-- Pointwise `pyEq` on array elements. -/
def pyEqElems : List Value → List Value → Bool
  | [], ws => ws.isEmpty
  | v :: vs, ws =>
      match ws with
      | [] => false
      | w :: ws' => pyEq v w && pyEqElems vs ws'

end

mutual

/-- Well-formed value: every object has pairwise-distinct keys, as
Python dictionaries always do. -/
def wfV : Value → Bool
  | .obj fs => nodupKeysB fs && wfFields fs
  | .arr vs => wfElems vs
  | _ => true

/-- Well-formedness of each field value. -/
def wfFields : List (String × Value) → Bool
  | [] => true
  | (_, v) :: fs => wfV v && wfFields fs

/-- Well-formedness of each array element. -/
def wfElems : List Value → Bool
  | [] => true
  | v :: vs => wfV v && wfElems vs

end

mutual

/-- Whether `json.dumps` succeeds on the value: every leaf is a JSON
type.  A timestamp leaf makes `json.dumps` raise `TypeError`, which is
what sends `_safe_serialize` to its `str(x)` fallback. -/
def serializableV : Value → Bool
  | .ts _ => false
  | .obj fs => serializableFields fs
  | .arr vs => serializableElems vs
  | _ => true

/-- Serializability of each field value. -/
def serializableFields : List (String × Value) → Bool
  | [] => true
  | (_, v) :: fs => serializableV v && serializableFields fs

/-- Serializability of each array element. -/
def serializableElems : List Value → Bool
  | [] => true
  | v :: vs => serializableV v && serializableElems vs

end

mutual

theorem Value.eq_of_beq : ∀ {a b : Value}, Value.beq a b = true → a = b
  | .null, .null, _ => rfl
  | .nan, .nan, _ => rfl
  | .bool a, .bool b, h => by simpa [Value.beq] using h
  | .num a, .num b, h => by simpa [Value.beq] using h
  | .str a, .str b, h => by simpa [Value.beq] using h
  | .ts a, .ts b, h => by simpa [Value.beq] using h
  | .obj fs, .obj gs, h =>
      congrArg Value.obj (eqFields_of_beq (by simpa [Value.beq] using h))
  | .arr vs, .arr ws, h =>
      congrArg Value.arr (eqElems_of_beq (by simpa [Value.beq] using h))

theorem eqFields_of_beq : ∀ {fs gs : List (String × Value)}, beqFields fs gs = true → fs = gs
  | [], [], _ => rfl
  | (k, v) :: fs, (k', v') :: gs, h => by
      simp only [beqFields, Bool.and_eq_true, beq_iff_eq] at h
      obtain ⟨⟨h1, h2⟩, h3⟩ := h
      rw [h1, Value.eq_of_beq h2, eqFields_of_beq h3]

theorem eqElems_of_beq : ∀ {vs ws : List Value}, beqElems vs ws = true → vs = ws
  | [], [], _ => rfl
  | v :: vs, w :: ws, h => by
      simp only [beqElems, Bool.and_eq_true] at h
      obtain ⟨h1, h2⟩ := h
      rw [Value.eq_of_beq h1, eqElems_of_beq h2]

end

mutual

theorem Value.beq_refl : ∀ (a : Value), Value.beq a a = true
  | .null => rfl
  | .nan => rfl
  | .bool a => by simp [Value.beq]
  | .num a => by simp [Value.beq]
  | .str a => by simp [Value.beq]
  | .ts a => by simp [Value.beq]
  | .obj fs => by simpa [Value.beq] using beqFields_refl fs
  | .arr vs => by simpa [Value.beq] using beqElems_refl vs

theorem beqFields_refl : ∀ (fs : List (String × Value)), beqFields fs fs = true
  | [] => rfl
  | (k, v) :: fs => by
      simp [beqFields, Value.beq_refl v, beqFields_refl fs]

theorem beqElems_refl : ∀ (vs : List Value), beqElems vs vs = true
  | [] => rfl
  | v :: vs => by
      simp [beqElems, Value.beq_refl v, beqElems_refl vs]

end

instance : DecidableEq Value := fun a b =>
  decidable_of_iff (Value.beq a b = true)
    ⟨Value.eq_of_beq, fun h => h ▸ Value.beq_refl a⟩

/-- Whether pandas `isna` holds of the value: Python `None`, float
`NaN`, and `NaT` are the missing markers `dropna` acts on. -/
def Value.isna : Value → Bool
  | .null => true
  | .nan => true
  | .ts Option.none => true
  | _ => false

/-- Whether the value is a nested structure (Python `dict` or `list`),
the unhashable case `_safe_serialize` exists for. -/
def Value.isNested : Value → Bool
  | .obj _ => true
  | .arr _ => true
  | _ => false

/-- Decimal digit character for `n < 10`. -/
def digitChar (n : Nat) : Char := Char.ofNat (48 + n)

/-- Decimal digits of `n`, most significant first, by fuel recursion so
that the kernel can evaluate it. -/
def natDigitsAux : Nat → Nat → List Char
  | 0, _ => []
  | fuel + 1, n => if n < 10 then [digitChar n] else natDigitsAux fuel (n / 10) ++ [digitChar (n % 10)]

/-- Decimal digits of a natural number, most significant first. -/
def natDigits (n : Nat) : List Char := natDigitsAux (n + 1) n

/-- Decimal rendering of an integer, with a leading minus sign when
negative. -/
def intDigits (i : Int) : List Char :=
  if i < 0 then '-' :: natDigits i.natAbs else natDigits i.natAbs

/-- JSON rendering of a rational: integers positionally, non-integral
values as an exact integer-mantissa scientific literal `Me-K` with
`M = q * 10^K`, `K = q.den`.  For the 10-smooth denominators that
Python floats have, `q.den` divides `10 ^ q.den`, so the literal is
exact. -/
def emitNum (q : Rat) : List Char :=
  if q.den = 1 then intDigits q.num
  else intDigits (q.num * ((10 ^ q.den) / q.den : Nat)) ++ 'e' :: '-' :: natDigits q.den

/-- Hexadecimal digit character for `n < 16`. -/
def hexChar (n : Nat) : Char := if n < 10 then Char.ofNat (48 + n) else Char.ofNat (87 + n)

/-- JSON string escape of one character, as `json.dumps` produces it:
quote, backslash and the named control characters get two-character
escapes, other control characters a `\u00XX` escape, everything else is
emitted verbatim. -/
def escChar (c : Char) : List Char :=
  if c = '"' then ['\\', '"']
  else if c = '\\' then ['\\', '\\']
  else if c = '\n' then ['\\', 'n']
  else if c = '\t' then ['\\', 't']
  else if c = '\r' then ['\\', 'r']
  else if c = Char.ofNat 8 then ['\\', 'b']
  else if c = Char.ofNat 12 then ['\\', 'f']
  else if c.val.toNat < 32 then
    ['\\', 'u', '0', '0', hexChar (c.val.toNat / 16), hexChar (c.val.toNat % 16)]
  else [c]

/-- JSON escape of a character list. -/
def escChars : List Char → List Char
  | [] => []
  | c :: cs => escChar c ++ escChars cs

/-- JSON rendering of a string literal, quotes included. -/
def emitStr (s : String) : List Char := '"' :: escChars s.data ++ ['"']

mutual

/-- Serialize a value to JSON text with the separators `json.dumps`
uses by default (`", "` and `": "`).  Field order is emitted as given;
`json.dumps(x, sort_keys=True)` corresponds to `emitV (canon x)`. -/
def emitV : Value → List Char
  | .null => ['n', 'u', 'l', 'l']
  | .nan => ['N', 'a', 'N']
  | .bool true => ['t', 'r', 'u', 'e']
  | .bool false => ['f', 'a', 'l', 's', 'e']
  | .num q => emitNum q
  | .str s => emitStr s
  | .ts _ => []
  | .obj fs => lbrace :: emitFields fs ++ [rbrace]
  | .arr vs => '[' :: emitElems vs ++ [']']

/-- Emit object fields separated by `", "`, each as `"key": value`. -/
def emitFields : List (String × Value) → List Char
  | [] => []
  | [(k, v)] => emitStr k ++ ':' :: ' ' :: emitV v
  | (k, v) :: fs => emitStr k ++ ':' :: ' ' :: emitV v ++ ',' :: ' ' :: emitFields fs

/-- Emit array elements separated by `", "`. -/
def emitElems : List Value → List Char
  | [] => []
  | [v] => emitV v
  | v :: vs => emitV v ++ ',' :: ' ' :: emitElems vs

end

/-- The model of `json.dumps(x, sort_keys=True)`: serialize the
canonical (key-sorted) form of the value.  Only called on serializable
values; the `.ts` arm of `emitV` is unreachable from them. -/
def jsonDumps (x : Value) : String := String.mk (emitV (canon x))

/-- Seconds field and friends of a timestamp rendered as two zero-padded
digits. -/
def pad2 (n : Nat) : List Char := if n < 10 then '0' :: natDigits n else natDigits n

/-- Four-digit zero-padded year. -/
def pad4 (n : Nat) : List Char :=
  if n < 10 then '0' :: '0' :: '0' :: natDigits n
  else if n < 100 then '0' :: '0' :: natDigits n
  else if n < 1000 then '0' :: natDigits n
  else natDigits n

/-- The `str()` of a pandas timestamp: `YYYY-MM-DD HH:MM:SS`. -/
def tsChars (t : Timestamp) : List Char :=
  pad4 t.year ++ '-' :: pad2 t.month ++ '-' :: pad2 t.day ++
    ' ' :: pad2 t.hour ++ ':' :: pad2 t.minute ++ ':' :: pad2 t.second

/-- Python `repr` of a rational number: integers plainly, other values
as an exact `num/den` rendering (a deterministic stand-in for CPython's
float `repr`; only its determinism matters to the pipeline). -/
def numPyChars (q : Rat) : List Char :=
  if q.den = 1 then intDigits q.num else intDigits q.num ++ '/' :: natDigits q.den

mutual

/-- Python `repr()` of a value, as it appears inside `str()` of a
container: strings in single quotes, `None` and booleans capitalized,
timestamps as `Timestamp('...')`, dictionaries and lists with `", "`
and `": "` separators and insertion order preserved.  This is the
non-canonical rendering the `_safe_serialize` fallback `str(x)`
produces for containers. -/
def pyRepr : Value → List Char
  | .null => ['N', 'o', 'n', 'e']
  | .nan => ['n', 'a', 'n']
  | .bool true => ['T', 'r', 'u', 'e']
  | .bool false => ['F', 'a', 'l', 's', 'e']
  | .num q => numPyChars q
  | .str s => squote :: s.data ++ [squote]
  | .ts Option.none => ['N', 'a', 'T']
  | .ts (some t) =>
      ['T', 'i', 'm', 'e', 's', 't', 'a', 'm', 'p', '('] ++
        squote :: tsChars t ++ [squote, ')']
  | .obj fs => lbrace :: pyReprFields fs ++ [rbrace]
  | .arr vs => '[' :: pyReprElems vs ++ [']']

/-- Fields of a dictionary `repr`, in insertion order. -/
def pyReprFields : List (String × Value) → List Char
  | [] => []
  | [(k, v)] => squote :: k.data ++ squote :: ':' :: ' ' :: pyRepr v
  | (k, v) :: fs =>
      squote :: k.data ++ squote :: ':' :: ' ' :: pyRepr v ++ ',' :: ' ' :: pyReprFields fs

/-- Elements of a list `repr`, in order. -/
def pyReprElems : List Value → List Char
  | [] => []
  | [v] => pyRepr v
  | v :: vs => pyRepr v ++ ',' :: ' ' :: pyReprElems vs

end

/-- Python `str()` of a value: like `repr` except that a top-level
string is returned bare (no quotes). -/
def pyStr : Value → String
  | .str s => s
  | v => String.mk (pyRepr v)

/-- The serializer of `nodes.py`:

    def _safe_serialize(x):
        if isinstance(x, (dict, list)):
            try:
                return json.dumps(x, sort_keys=True)
            except (TypeError, ValueError):
                return str(x)
        return x

Nested values become their canonical JSON text when `json.dumps`
succeeds, otherwise their `str(x)` rendering; scalars pass through. -/
def _safe_serialize (x : Value) : Value :=
  if x.isNested then
    if serializableV x then .str (jsonDumps x) else .str (pyStr x)
  else x

/-- Whether the character is JSON whitespace. -/
def isWs (c : Char) : Bool := c = ' ' || c = '\n' || c = '\t' || c = '\r'

/-- Skip leading JSON whitespace. -/
def skipWs : List Char → List Char
  | [] => []
  | c :: cs => if isWs c then skipWs cs else c :: cs

/-- Whether the character is a decimal digit. -/
def isDigitC (c : Char) : Bool := 48 ≤ c.val.toNat && c.val.toNat ≤ 57

/-- Numeric value of a decimal digit character. -/
def digitVal (c : Char) : Nat := c.val.toNat - 48

/-- Numeric value of a hexadecimal digit character, if it is one. -/
def hexVal (c : Char) : Option Nat :=
  let n := c.val.toNat
  if 48 ≤ n && n ≤ 57 then some (n - 48)
  else if 97 ≤ n && n ≤ 102 then some (n - 87)
  else if 65 ≤ n && n ≤ 70 then some (n - 55)
  else Option.none

/-- Consume a maximal run of decimal digits, accumulating their value;
fails when no digit is present. -/
def parseDigits (acc : Nat) : List Char → Nat × List Char
  | [] => (acc, [])
  | c :: cs => if isDigitC c then parseDigits (acc * 10 + digitVal c) cs else (acc, c :: cs)

/-- The two-character escapes `json.loads` understands. -/
def escTable (e : Char) : Option Char :=
  if e = '"' then some '"'
  else if e = '\\' then some '\\'
  else if e = '/' then some '/'
  else if e = 'n' then some '\n'
  else if e = 't' then some '\t'
  else if e = 'r' then some '\r'
  else if e = 'b' then some (Char.ofNat 8)
  else if e = 'f' then some (Char.ofNat 12)
  else Option.none

/-- Read the body of a JSON string literal up to the closing quote,
undoing the escapes `escChar` produces. -/
def parseStrBody : List Char → Option (List Char × List Char)
  | [] => Option.none
  | c :: cs =>
      if c = '"' then some ([], cs)
      else if c = '\\' then
        match cs with
        | [] => Option.none
        | e :: cs' =>
            if e = 'u' then
              match cs' with
              | h1 :: h2 :: h3 :: h4 :: cs'' =>
                  match hexVal h1, hexVal h2, hexVal h3, hexVal h4 with
                  | some a, some b, some c3, some d =>
                      (parseStrBody cs'').map fun p =>
                        (Char.ofNat (((a * 16 + b) * 16 + c3) * 16 + d) :: p.1, p.2)
                  | _, _, _, _ => Option.none
              | _ => Option.none
            else
              match escTable e with
              | some d => (parseStrBody cs').map fun p => (d :: p.1, p.2)
              | Option.none => Option.none
      else (parseStrBody cs).map fun p => (c :: p.1, p.2)

/-- Parse an unsigned JSON number: a digit run, optionally followed by
the `e-K` exponent suffix `emitNum` emits. -/
def parseNumCore : List Char → Option (Rat × List Char)
  | [] => Option.none
  | d :: ds =>
      if isDigitC d then
        match parseDigits (digitVal d) ds with
        | (m, 'e' :: '-' :: e1 :: es) =>
            if isDigitC e1 then
              match parseDigits (digitVal e1) es with
              | (k, rest) => some ((m : Rat) / ((10 : Rat) ^ k), rest)
            else Option.none
        | (m, rest) => some ((m : Rat), rest)
      else Option.none

/-- Parse a JSON number starting at a digit or minus sign. -/
def parseNumber : List Char → Option (Rat × List Char)
  | [] => Option.none
  | c :: cs =>
      if c = '-' then (parseNumCore cs).map fun p => (-p.1, p.2)
      else parseNumCore (c :: cs)

/-- Match an expected literal continuation, returning the remainder. -/
def expectLit : List Char → List Char → Option (List Char)
  | [], cs => some cs
  | _ :: _, [] => Option.none
  | l :: ls, c :: cs => if c = l then expectLit ls cs else Option.none

mutual

/-- Fueled JSON value parser, the model of `json.loads` restricted to
the grammar the pipeline can meet: literals, strings, numbers as
`parseNumber` reads them, arrays, and objects with string keys. -/
def parseV : Nat → List Char → Option (Value × List Char)
  | 0, _ => Option.none
  | fuel + 1, cs =>
      match skipWs cs with
      | [] => Option.none
      | c :: cs' =>
          if c = 'n' then (expectLit ['u', 'l', 'l'] cs').map fun r => (.null, r)
          else if c = 'N' then (expectLit ['a', 'N'] cs').map fun r => (.nan, r)
          else if c = 't' then (expectLit ['r', 'u', 'e'] cs').map fun r => (.bool true, r)
          else if c = 'f' then (expectLit ['a', 'l', 's', 'e'] cs').map fun r => (.bool false, r)
          else if c = '"' then (parseStrBody cs').map fun p => (.str (String.mk p.1), p.2)
          else if c = lbrace then
            match skipWs cs' with
            | [] => Option.none
            | c2 :: cs2 =>
                if c2 = rbrace then some (.obj [], cs2)
                else parseFieldsV fuel (c2 :: cs2)
          else if c = '[' then
            match skipWs cs' with
            | [] => Option.none
            | c2 :: cs2 =>
                if c2 = ']' then some (.arr [], cs2)
                else (parseElemsV fuel (c2 :: cs2)).map fun p => (.arr p.1, p.2)
          else if isDigitC c || c = '-' then
            (parseNumber (c :: cs')).map fun p => (.num p.1, p.2)
          else Option.none

/-- Parse one or more `"key": value` fields followed by the closing
brace, returning the object. -/
def parseFieldsV : Nat → List Char → Option (Value × List Char)
  | 0, _ => Option.none
  | fuel + 1, cs =>
      match skipWs cs with
      | [] => Option.none
      | c :: cs' =>
          if c = '"' then
            match parseStrBody cs' with
            | Option.none => Option.none
            | some (kcs, rest1) =>
                match skipWs rest1 with
                | [] => Option.none
                | c2 :: rest2 =>
                    if c2 = ':' then
                      match parseV fuel rest2 with
                      | Option.none => Option.none
                      | some (v, rest3) =>
                          match skipWs rest3 with
                          | [] => Option.none
                          | c3 :: rest4 =>
                              if c3 = ',' then
                                match parseFieldsV fuel rest4 with
                                | some (.obj fs, rest5) =>
                                    some (.obj ((String.mk kcs, v) :: fs), rest5)
                                | _ => Option.none
                              else if c3 = rbrace then
                                some (.obj [(String.mk kcs, v)], rest4)
                              else Option.none
                    else Option.none
          else Option.none

/-- Parse one or more array elements followed by `]`. -/
def parseElemsV : Nat → List Char → Option (List Value × List Char)
  | 0, _ => Option.none
  | fuel + 1, cs =>
      match parseV fuel cs with
      | Option.none => Option.none
      | some (v, rest) =>
          match skipWs rest with
          | [] => Option.none
          | c :: rest' =>
              if c = ',' then (parseElemsV fuel rest').map fun p => (v :: p.1, p.2)
              else if c = ']' then some ([v], rest')
              else Option.none

end

/-- The model of `json.loads`: parse one JSON value and require only
whitespace after it.  The fuel `2 * length + 2` is a modeling artifact of
the terminating recursion; it strictly dominates the recursion depth the
parser can reach on an input of this length. -/
def jsonLoads (s : String) : Option Value :=
  match parseV (2 * s.data.length + 2) s.data with
  | some (v, rest) => if (skipWs rest).isEmpty then some v else Option.none
  | Option.none => Option.none

/-- A pandas DataFrame: named columns and rows of cell values, row `i`
holding the value of column `j` at position `j`. -/
structure Table where
  cols : List String
  rows : List (List Value)
deriving DecidableEq

/-- Keep the first occurrence of each element, dropping the ones that
already occurred in `seen` or earlier in the list. -/
def dedupAux {α : Type} [DecidableEq α] (seen : List α) : List α → List α
  | [] => []
  | a :: l => if a ∈ seen then dedupAux seen l else a :: dedupAux (a :: seen) l

/-- `drop_duplicates(keep="first")` on a list: first occurrences, in
order. -/
def dedupKeepFirst {α : Type} [DecidableEq α] (l : List α) : List α := dedupAux [] l

/-- `df.drop_duplicates()`: raises `TypeError` when any cell holds an
unhashable nested value (pandas hashes every column to find duplicate
rows), otherwise keeps the first occurrence of each full row. -/
def drop_duplicatesT (t : Table) : Except String Table :=
  if t.rows.any fun r => r.any Value.isNested then
    .error "TypeError: unhashable type"
  else .ok ⟨t.cols, dedupKeepFirst t.rows⟩

/-- `df.dropna()`: remove every row containing a missing value. -/
def dropnaT (t : Table) : Table :=
  ⟨t.cols, t.rows.filter fun r => !r.any Value.isna⟩

/-- Position of a column name, leftmost match first. -/
def colIdx (c : String) : List String → Option Nat
  | [] => Option.none
  | c' :: cs => if c = c' then some 0 else (colIdx c cs).map (· + 1)

/-- Cell of a row at a column position. -/
def getCell (r : List Value) (i : Nat) : Value := r.getD i .null

/-- `df.rename(columns={old: new})`: renames matching column labels,
leaving the data untouched. -/
def renameColT (t : Table) (old new : String) : Table :=
  ⟨t.cols.map fun c => if c = old then new else c, t.rows⟩

/-- `df.applymap(f)`: apply `f` to every cell. -/
def applymapT (f : Value → Value) (t : Table) : Table :=
  ⟨t.cols, t.rows.map fun r => r.map f⟩

/-- `df[c].astype(str)` assigned back to column `c`: force every cell
of the column to its Python `str()` rendering. -/
def astypeStrColT (t : Table) (c : String) : Table :=
  match colIdx c t.cols with
  | some i => ⟨t.cols, t.rows.map fun r => r.set i (.str (pyStr (getCell r i)))⟩
  | Option.none => t

/-- Strict parse of `YYYY-MM-DD`, optionally followed by
`{T or space}HH:MM:SS`, the ISO forms `pd.to_datetime` recognizes that
this model covers. -/
def parseDate (cs : List Char) : Except String Timestamp :=
  match cs with
  | y1 :: y2 :: y3 :: y4 :: '-' :: m1 :: m2 :: '-' :: d1 :: d2 :: rest =>
      if isDigitC y1 && isDigitC y2 && isDigitC y3 && isDigitC y4 &&
          isDigitC m1 && isDigitC m2 && isDigitC d1 && isDigitC d2 then
        let y := ((digitVal y1 * 10 + digitVal y2) * 10 + digitVal y3) * 10 + digitVal y4
        let mo := digitVal m1 * 10 + digitVal m2
        let d := digitVal d1 * 10 + digitVal d2
        if 1 ≤ mo && mo ≤ 12 && 1 ≤ d && d ≤ 31 then
          match rest with
          | [] => .ok ⟨y, mo, d, 0, 0, 0⟩
          | sep :: h1 :: h2 :: ':' :: n1 :: n2 :: ':' :: s1 :: s2 :: [] =>
              if (sep = 'T' || sep = ' ') && isDigitC h1 && isDigitC h2 &&
                  isDigitC n1 && isDigitC n2 && isDigitC s1 && isDigitC s2 then
                let hh := digitVal h1 * 10 + digitVal h2
                let nn := digitVal n1 * 10 + digitVal n2
                let ss := digitVal s1 * 10 + digitVal s2
                if hh ≤ 23 && nn ≤ 59 && ss ≤ 59 then .ok ⟨y, mo, d, hh, nn, ss⟩
                else .error "to_datetime: time out of range"
              else .error "to_datetime: unparseable"
          | _ => .error "to_datetime: unparseable"
        else .error "to_datetime: date out of range"
      else .error "to_datetime: unparseable"
  | _ => .error "to_datetime: unparseable"

/-- `pd.to_datetime` on one cell (default `errors="raise"`): missing
markers and the empty string become `NaT`; an ISO date or date-time
string parses to a timestamp, with the date-only and midnight forms
yielding the same timestamp; an already-datetime value passes through;
anything else raises.  (Numeric epoch interpretation is outside the
modelled scope; the pipeline's `ordered_at` is a string column.) -/
def to_datetimeVal : Value → Except String Value
  | .str s => if s.data.isEmpty then .ok (.ts Option.none)
      else (parseDate s.data).map fun t => .ts (some t)
  | .ts t => .ok (.ts t)
  | .null => .ok (.ts Option.none)
  | .nan => .ok (.ts Option.none)
  | _ => .error "to_datetime: unparseable"

/-- Apply a fallible cell function to every row, failing on the first
error. -/
def mapRowsE (f : List Value → Except String (List Value)) :
    List (List Value) → Except String (List (List Value))
  | [] => .ok []
  | r :: rs =>
      match f r with
      | .error e => .error e
      | .ok r' =>
          match mapRowsE f rs with
          | .error e => .error e
          | .ok rs' => .ok (r' :: rs')

/-- `df[c] = pd.to_datetime(df[c])`: parse the whole column, raising
for the whole table if any cell fails, `KeyError` if the column is
missing. -/
def to_datetimeColT (t : Table) (c : String) : Except String Table :=
  match colIdx c t.cols with
  | Option.none => .error "KeyError"
  | some i =>
      match mapRowsE (fun r => (to_datetimeVal (getCell r i)).map fun v => r.set i v) t.rows with
      | .error e => .error e
      | .ok rs => .ok ⟨t.cols, rs⟩

/-- Overlap suffixing of `pd.merge`: a non-key column name present on
both sides gets `_x` on the left and `_y` on the right. -/
def suffixCols (own other : List String) (key suf : String) : List String :=
  own.map fun c => if c ≠ key && other.contains c then c ++ suf else c

/-- `pd.merge(left, right, on=key)`: inner join.  The key column
appears once; matching is by cell equality (pandas matches missing
keys to missing keys, as structural equality here does); result rows
follow left order, then right order within a left row. -/
def mergeT (left right : Table) (key : String) : Except String Table :=
  match colIdx key left.cols, colIdx key right.cols with
  | some il, some ir =>
      .ok ⟨suffixCols left.cols (right.cols.eraseIdx ir) key "_x" ++
             suffixCols (right.cols.eraseIdx ir) left.cols key "_y",
           left.rows.flatMap fun rl =>
             (right.rows.filter fun rr => getCell rr ir == getCell rl il).map
               fun rr => rl ++ rr.eraseIdx ir⟩
  | _, _ => .error "KeyError"

/-- Arbitrary rank used to sort group keys; only its determinism
matters to any stated property. -/
def valueRank : Value → Nat
  | .null => 0
  | .nan => 1
  | .bool _ => 2
  | .num _ => 3
  | .str _ => 4
  | .ts _ => 5
  | .obj _ => 6
  | .arr _ => 7

/-- Total boolean comparison of cell values, modelling the key sort of
`groupby`; for the string keys the pipeline groups on it is
lexicographic order. -/
def valueLe (a b : Value) : Bool :=
  if valueRank a ≠ valueRank b then valueRank a ≤ valueRank b
  else
    match a, b with
    | .bool x, .bool y => !x || y
    | .num x, .num y => decide (x ≤ y)
    | .str x, .str y => strLe x y
    | .ts Option.none, .ts _ => true
    | .ts (some _), .ts Option.none => false
    | .ts (some x), .ts (some y) =>
        charListLe (tsChars x) (tsChars y)
    | _, _ => true

/-- Insert into a `valueLe`-sorted list. -/
def insertSortedV (a : Value) : List Value → List Value
  | [] => [a]
  | b :: l => if valueLe a b then a :: b :: l else b :: insertSortedV a l

/-- Sort cell values by `valueLe`. -/
def sortValues (l : List Value) : List Value := l.foldr insertSortedV []

/-- `df.groupby(key)[cnt].count().reset_index()`: one row per distinct
non-missing key (groupby drops missing keys and sorts the remaining
ones), counting the non-missing `cnt` cells of the group.  Raises
`KeyError` when either column is absent. -/
def groupbyCountT (t : Table) (key cnt : String) : Except String Table :=
  match colIdx key t.cols, colIdx cnt t.cols with
  | some ik, some ic =>
      .ok ⟨[key, cnt],
           (sortValues (dedupKeepFirst
               ((t.rows.map fun r => getCell r ik).filter fun v => !v.isna))).map
             fun k =>
               [k, .num ((t.rows.filter fun r =>
                   getCell r ik == k && !(getCell r ic).isna).length : Nat)]⟩
  | _, _ => .error "KeyError"

/-- Sum of the non-missing cells of a numeric series; pandas raises on
non-numeric cells (string concatenation is outside the modelled
scope). -/
def sumNums : List Value → Except String Rat
  | [] => .ok 0
  | v :: vs =>
      match v with
      | .num q => (sumNums vs).map fun s => q + s
      | _ => .error "TypeError"

/-- The values of column `c`, raising `KeyError` when absent. -/
def colValues (t : Table) (c : String) : Except String (List Value) :=
  match colIdx c t.cols with
  | some i => .ok (t.rows.map fun r => getCell r i)
  | Option.none => .error "KeyError"

/-- `series.mean()`: skip missing values; the mean of nothing is the
not-a-number marker. -/
def meanSeries (vs : List Value) : Except String Value :=
  let ws := vs.filter fun v => !v.isna
  if ws.isEmpty then .ok .nan
  else
    match sumNums ws with
    | .error e => .error e
    | .ok s => .ok (.num (s / (ws.length : Rat)))

/-- `series.sum()`: skip missing values; the sum of nothing is `0`. -/
def sumSeries (vs : List Value) : Except String Value :=
  match sumNums (vs.filter fun v => !v.isna) with
  | .error e => .error e
  | .ok s => .ok (.num s)

/-- `clean_customers` of `data_processing/nodes.py`:

    customers.drop_duplicates(inplace=True)
    customers.dropna(inplace=True)
    return customers

Value-level result (the aliasing of `inplace=True` is modelled
separately by `clean_customersProg`). -/
def clean_customers (customers : Table) : Except String Table :=
  match drop_duplicatesT customers with
  | .error e => .error e
  | .ok c => .ok (dropnaT c)

/-- `clean_orders` of `data_processing/nodes.py`: rename `id` to
`order_id` when present, drop duplicate rows, drop rows with missing
values, then parse `ordered_at` with `pd.to_datetime`. -/
def clean_orders (orders : Table) : Except String Table :=
  let orders := if "id" ∈ orders.cols then renameColT orders "id" "order_id" else orders
  match drop_duplicatesT orders with
  | .error e => .error e
  | .ok o => to_datetimeColT (dropnaT o) "ordered_at"

/-- `clean_tickets` of `data_processing/nodes.py`: serialize every cell
with `_safe_serialize`, force the `tags` column to `str`, drop
duplicate rows, drop rows with missing values. -/
def clean_tickets (tickets : Table) : Except String Table :=
  let tickets := applymapT _safe_serialize tickets
  let tickets := if "tags" ∈ tickets.cols then astypeStrColT tickets "tags" else tickets
  match drop_duplicatesT tickets with
  | .error e => .error e
  | .ok t => .ok (dropnaT t)

/-- `create_average_order_value` of `reporting/nodes.py`: the mean of
the `subtotal` column as a one-row, one-column table. -/
def create_average_order_value (orders : Table) : Except String Table :=
  match colValues orders "subtotal" with
  | .error e => .error e
  | .ok vs =>
      match meanSeries vs with
      | .error e => .error e
      | .ok avg => .ok ⟨["average_order_value"], [[avg]]⟩

/-- `create_tickets_per_order` of `reporting/nodes.py`: inner-join
orders and tickets on `order_id`, group by `order_id`, count
`ticket_id` per group, and rename the count column. -/
def create_tickets_per_order (orders tickets : Table) : Except String Table :=
  match mergeT orders tickets "order_id" with
  | .error e => .error e
  | .ok order_tickets =>
      match groupbyCountT order_tickets "order_id" "ticket_id" with
      | .error e => .error e
      | .ok tpo => .ok (renameColT tpo "ticket_id" "number_of_tickets")

/-- `create_total_revenue` of `reporting/nodes.py`: the sum of the
`subtotal` column as a one-row, one-column table. -/
def create_total_revenue (orders : Table) : Except String Table :=
  match colValues orders "subtotal" with
  | .error e => .error e
  | .ok vs =>
      match sumSeries vs with
      | .error e => .error e
      | .ok tot => .ok ⟨["total_revenue"], [[tot]]⟩

/-- A heap of DataFrame objects; references are indices.  Each
transform is also given as a program over this store so that the
`inplace=True` aliasing of the Python source is observable: mutating
operations write back through the caller's reference, while
`tickets = tickets.applymap(...)`, `pd.merge`, `groupby` and the
`pd.DataFrame(...)` constructors allocate fresh objects. -/
abbrev Store := List Table

/-- The table a reference currently points to. -/
def readRef (s : Store) (r : Nat) : Table := s.getD r ⟨[], []⟩

/-- Overwrite the table behind a reference (an `inplace=True` step). -/
def writeRef (s : Store) (r : Nat) (t : Table) : Store := s.set r t

/-- Allocate a fresh object and return its reference. -/
def allocRef (s : Store) (t : Table) : Nat × Store := (s.length, s ++ [t])

/-- `clean_customers` over the store: `drop_duplicates(inplace=True)`
and `dropna(inplace=True)` mutate the caller's object, which is then
returned. -/
def clean_customersProg (r : Nat) (s : Store) : Except String (Nat × Store) :=
  match drop_duplicatesT (readRef s r) with
  | .error e => .error e
  | .ok t =>
      let s := writeRef s r t
      let s := writeRef s r (dropnaT (readRef s r))
      .ok (r, s)

/-- `clean_orders` over the store: `rename`, `drop_duplicates` and
`dropna` with `inplace=True`, and the `orders["ordered_at"] = ...`
column assignment, all mutate the caller's object. -/
def clean_ordersProg (r : Nat) (s : Store) : Except String (Nat × Store) :=
  let s := if "id" ∈ (readRef s r).cols
    then writeRef s r (renameColT (readRef s r) "id" "order_id") else s
  match drop_duplicatesT (readRef s r) with
  | .error e => .error e
  | .ok t =>
      let s := writeRef s r t
      let s := writeRef s r (dropnaT (readRef s r))
      match to_datetimeColT (readRef s r) "ordered_at" with
      | .error e => .error e
      | .ok t' => .ok (r, writeRef s r t')

/-- `clean_tickets` over the store: `tickets = tickets.applymap(...)`
rebinds the local name to a fresh object, so the later in-place steps
mutate the copy and the caller's object is untouched. -/
def clean_ticketsProg (r : Nat) (s : Store) : Except String (Nat × Store) :=
  let p := allocRef s (applymapT _safe_serialize (readRef s r))
  let r2 := p.1
  let s := p.2
  let s := if "tags" ∈ (readRef s r2).cols
    then writeRef s r2 (astypeStrColT (readRef s r2) "tags") else s
  match drop_duplicatesT (readRef s r2) with
  | .error e => .error e
  | .ok t =>
      let s := writeRef s r2 t
      let s := writeRef s r2 (dropnaT (readRef s r2))
      .ok (r2, s)

/-- `create_average_order_value` over the store: reads the input and
allocates the fresh result frame. -/
def create_average_order_valueProg (r : Nat) (s : Store) : Except String (Nat × Store) :=
  match create_average_order_value (readRef s r) with
  | .error e => .error e
  | .ok t => .ok (allocRef s t)

/-- `create_tickets_per_order` over the store: `pd.merge` and
`groupby().count().reset_index()` allocate fresh frames; the
`rename(inplace=True)` mutates only the freshly allocated result. -/
def create_tickets_per_orderProg (ro rt : Nat) (s : Store) : Except String (Nat × Store) :=
  match mergeT (readRef s ro) (readRef s rt) "order_id" with
  | .error e => .error e
  | .ok ot =>
      let p := allocRef s ot
      let s := p.2
      match groupbyCountT (readRef s p.1) "order_id" "ticket_id" with
      | .error e => .error e
      | .ok g =>
          let p2 := allocRef s g
          let s := p2.2
          let s := writeRef s p2.1 (renameColT (readRef s p2.1) "ticket_id" "number_of_tickets")
          .ok (p2.1, s)

/-- `create_total_revenue` over the store: reads the input and
allocates the fresh result frame. -/
def create_total_revenueProg (r : Nat) (s : Store) : Except String (Nat × Store) :=
  match create_total_revenue (readRef s r) with
  | .error e => .error e
  | .ok t => .ok (allocRef s t)

/-- Invariant: no two rows of the table are exactly equal. -/
def noDupRowsP (t : Table) : Prop := t.rows.Pairwise (· ≠ ·)

/-- Invariant: no row contains a missing value in any column. -/
def noNullsB (t : Table) : Bool := t.rows.all fun r => !r.any Value.isna

/-- Invariant: no cell holds a nested structure. -/
def allScalarB (t : Table) : Bool := t.rows.all fun r => !r.any Value.isNested

/-- Shape well-formedness: every row has one cell per column. -/
def wfTableB (t : Table) : Bool := t.rows.all fun r => r.length == t.cols.length

/-- Whether a rational has a 10-smooth denominator, so that it is an
exact finite decimal; every Python float satisfies this. -/
def smoothB (q : Rat) : Bool := (10 ^ q.den) % q.den == 0

mutual

/-- Whether every numeric leaf of the value is an exact finite decimal,
as the floats of a Python object always are. -/
def decRepV : Value → Bool
  | .num q => smoothB q
  | .obj fs => decRepFields fs
  | .arr vs => decRepElems vs
  | _ => true

/-- Finite-decimal condition on each field value. -/
def decRepFields : List (String × Value) → Bool
  | [] => true
  | (_, v) :: fs => decRepV v && decRepFields fs

/-- Finite-decimal condition on each array element. -/
def decRepElems : List Value → Bool
  | [] => true
  | v :: vs => decRepV v && decRepElems vs

end

mutual

/-- Structural size of a value, a fuel bound for the JSON parser. -/
def sizeV : Value → Nat
  | .obj fs => sizeF fs + 1
  | .arr vs => sizeE vs + 1
  | _ => 1

/-- Structural size of a field list. -/
def sizeF : List (String × Value) → Nat
  | [] => 1
  | (_, v) :: fs => sizeV v + sizeF fs + 1

/-- Structural size of an element list. -/
def sizeE : List Value → Nat
  | [] => 1
  | v :: vs => sizeV v + sizeE vs + 1

end

/-- The rename step of `clean_orders`, applied when a column `id`
exists. -/
def ordersStage1 (t : Table) : Table :=
  if "id" ∈ t.cols then renameColT t "id" "order_id" else t

/-- `clean_orders` up to but excluding the `pd.to_datetime` step:
rename, deduplicate, drop missing rows. -/
def ordersPreParse (t : Table) : Except String Table :=
  match drop_duplicatesT (ordersStage1 t) with
  | .error e => .error e
  | .ok o => .ok (dropnaT o)

/-- `clean_tickets` up to but excluding the dedup and null-drop steps:
serialize every cell, then force the `tags` column to `str` when
present. -/
def ticketsStage (t : Table) : Table :=
  let t1 := applymapT _safe_serialize t
  if "tags" ∈ t1.cols then astypeStrColT t1 "tags" else t1

/-- The image of one row under `ticketsStage`: serialization of every
cell, then the string coercion of the `tags` cell when that column
exists. -/
def stageRow (cols : List String) (r : List Value) : List Value :=
  match colIdx "tags" cols with
  | some i =>
      (r.map _safe_serialize).set i
        (.str (pyStr (getCell (r.map _safe_serialize) i)))
  | Option.none => r.map _safe_serialize

/-- The image of one raw tickets row under the serialization and
`tags`-astype steps of `clean_tickets`, `it` being the position of the
`tags` column. -/
def ticketsRowImage (it : Nat) (r : List Value) : List Value :=
  (r.map _safe_serialize).set it (.str (pyStr (getCell (r.map _safe_serialize) it)))

/-- The cells of the column at position `i`. -/
def keyCells (t : Table) (i : Nat) : List Value := t.rows.map fun r => getCell r i

/-- Number of rows of `t` whose cell at position `i` equals `k` — for
the tickets table, the number of tickets of order `k`. -/
def matchCount (t : Table) (i : Nat) (k : Value) : Nat :=
  (t.rows.filter fun r => getCell r i == k).length

/-- Orders input on which distinct `ordered_at` strings denote the same
instant: the date-only and explicit-midnight ISO forms. -/
def c1OrdersIn : Table :=
  ⟨["id", "ordered_at"],
   [[.str "ORD-001", .str "2024-01-01"],
    [.str "ORD-001", .str "2024-01-01T00:00:00"]]⟩

/-- What `clean_orders` returns on `c1OrdersIn`: the two rows have
become exactly equal. -/
def c1OrdersOut : Table :=
  ⟨["order_id", "ordered_at"],
   [[.str "ORD-001", .ts (some ⟨2024, 1, 1, 0, 0, 0⟩)],
    [.str "ORD-001", .ts (some ⟨2024, 1, 1, 0, 0, 0⟩)]]⟩

/-- A nested value whose timestamp leaf makes `json.dumps` raise, in
one key order. -/
def c2Fallback1 : Value :=
  .obj [("x", .ts (some ⟨2024, 1, 1, 0, 0, 0⟩)), ("y", .num 1)]

/-- The same mapping with the keys inserted in the other order. -/
def c2Fallback2 : Value :=
  .obj [("y", .num 1), ("x", .ts (some ⟨2024, 1, 1, 0, 0, 0⟩))]

/-- Tickets table whose two rows agree everywhere except that the
`tags` mappings contain a timestamp leaf and differ in key order. -/
def c3TicketsIn : Table :=
  ⟨["ticket_id", "tags"],
   [[.str "TCK-001", c2Fallback1],
    [.str "TCK-001", c2Fallback2]]⟩

/-- A serializable variant of the same two-row scenario: the `tags`
mappings are structurally equal, in different key orders, with only
JSON leaves. -/
def c3TicketsW : Table :=
  ⟨["ticket_id", "tags"],
   [[.str "TCK-001", .obj [("a", .num 1), ("b", .arr [.str "x"])]],
    [.str "TCK-001", .obj [("b", .arr [.str "x"]), ("a", .num 1)]]]⟩

/-- Customers table with an exact duplicate, used to exhibit the
in-place mutation of `clean_customers`. -/
def c5CustomersIn : Table :=
  ⟨["id", "name"],
   [[.num 1, .str "Alice"], [.num 1, .str "Alice"], [.num 2, .null]]⟩

/-- Orders table whose `ordered_at` holds the empty string, which
`pd.to_datetime` coerces to `NaT` instead of raising. -/
def c6OrdersIn : Table :=
  ⟨["id", "ordered_at"], [[.str "ORD-001", .str ""]]⟩

/-- Orders table with neither an `id` nor an `order_id` column. -/
def c7OrdersIn : Table :=
  ⟨["ordered_at"], [[.str "2024-01-01"]]⟩

/-- Orders table in which two different rows share one `order_id`. -/
def c8OrdersIn : Table :=
  ⟨["order_id", "customer"], [[.str "O1", .str "a"], [.str "O1", .str "b"]]⟩

/-- Tickets table with a single ticket for that order. -/
def c8TicketsIn : Table :=
  ⟨["order_id", "ticket_id"], [[.str "O1", .str "t1"]]⟩

/-- Tickets row whose only missing value sits in `tags`. -/
def c10TicketsIn : Table :=
  ⟨["ticket_id", "tags"], [[.str "TCK-001", .nan]]⟩

/-- One step of decimal accumulation, as `parseDigits` performs it. -/
def digStep (a : Nat) (c : Char) : Nat := a * 10 + digitVal c

/-- The characters that may legally follow an emitted JSON value: the
end of input, a separating comma, or a closing bracket or brace. -/
def goodRestB : List Char → Bool
  | [] => true
  | c :: _ => c = ',' || c = rbrace || c = ']'

theorem mem_of_mem_dedupAux {α : Type} [DecidableEq α] {seen l : List α} {a : α} :
    a ∈ dedupAux seen l → a ∈ l ∧ a ∉ seen := by
  induction l generalizing seen with
  | nil => simp [dedupAux]
  | cons b l ih =>
      intro h
      simp only [dedupAux] at h
      by_cases hb : b ∈ seen
      · simp only [if_pos hb] at h
        rcases ih h with ⟨h1, h2⟩
        exact ⟨List.mem_cons_of_mem _ h1, h2⟩
      · simp only [if_neg hb] at h
        rcases List.mem_cons.1 h with rfl | h
        · exact ⟨List.mem_cons_self _ _, hb⟩
        · rcases ih h with ⟨h1, h2⟩
          simp only [List.mem_cons, not_or] at h2
          exact ⟨List.mem_cons_of_mem _ h1, h2.2⟩

theorem mem_dedupAux_of_mem {α : Type} [DecidableEq α] {seen l : List α} {a : α} :
    a ∈ l → a ∉ seen → a ∈ dedupAux seen l := by
  induction l generalizing seen with
  | nil => simp
  | cons b l ih =>
      intro hl hs
      simp only [dedupAux]
      by_cases hb : b ∈ seen
      · rcases List.mem_cons.1 hl with rfl | hl
        · exact absurd hb hs
        · simpa [if_pos hb] using ih hl hs
      · rw [if_neg hb]
        by_cases hab : a = b
        · exact hab ▸ List.mem_cons_self _ _
        · rcases List.mem_cons.1 hl with rfl | hl
          · exact absurd rfl hab
          · refine List.mem_cons_of_mem _ (ih hl ?_)
            simp only [List.mem_cons, not_or]
            exact ⟨hab, hs⟩

theorem pairwise_dedupAux {α : Type} [DecidableEq α] (seen l : List α) :
    (dedupAux seen l).Pairwise (· ≠ ·) := by
  induction l generalizing seen with
  | nil => simp [dedupAux]
  | cons b l ih =>
      simp only [dedupAux]
      by_cases hb : b ∈ seen
      · simpa [if_pos hb] using ih seen
      · rw [if_neg hb]
        refine List.Pairwise.cons ?_ (ih (b :: seen))
        intro c hc
        have := (mem_of_mem_dedupAux hc).2
        simp only [List.mem_cons, not_or] at this
        exact fun hbc => this.1 hbc.symm

theorem nodup_dedupKeepFirst {α : Type} [DecidableEq α] (l : List α) :
    (dedupKeepFirst l).Nodup := pairwise_dedupAux [] l

theorem mem_dedupKeepFirst {α : Type} [DecidableEq α] {l : List α} {a : α} :
    a ∈ dedupKeepFirst l ↔ a ∈ l := by
  constructor
  · exact fun h => (mem_of_mem_dedupAux h).1
  · exact fun h => mem_dedupAux_of_mem h (List.not_mem_nil a)

theorem colIdx_lt_length {c : String} : ∀ {cols : List String} {i : Nat},
    colIdx c cols = some i → i < cols.length := by
  intro cols
  induction cols with
  | nil => intro i h; simp [colIdx] at h
  | cons c' cs ih =>
      intro i h
      simp only [colIdx] at h
      by_cases hc : c = c'
      · rw [if_pos hc] at h
        injection h with h
        subst h
        exact Nat.succ_pos _
      · simp only [if_neg hc, Option.map_eq_some'] at h
        rcases h with ⟨j, hj, rfl⟩
        have := ih hj
        simp only [List.length_cons]
        omega

theorem colIdx_get {c : String} : ∀ {cols : List String} {i : Nat},
    colIdx c cols = some i → cols.getD i "" = c := by
  intro cols
  induction cols with
  | nil => intro i h; simp [colIdx] at h
  | cons c' cs ih =>
      intro i h
      simp only [colIdx] at h
      by_cases hc : c = c'
      · simp only [if_pos hc, Option.some.injEq] at h
        subst h
        simpa using hc.symm
      · simp only [if_neg hc, Option.map_eq_some'] at h
        rcases h with ⟨j, hj, rfl⟩
        simpa using ih hj

theorem colIdx_isSome_of_mem {c : String} : ∀ {cols : List String},
    c ∈ cols → (colIdx c cols).isSome := by
  intro cols
  induction cols with
  | nil => simp
  | cons c' cs ih =>
      intro h
      simp only [colIdx]
      by_cases hc : c = c'
      · simp [if_pos hc]
      · rcases List.mem_cons.1 h with rfl | h
        · exact absurd rfl hc
        · rw [if_neg hc]
          rcases Option.isSome_iff_exists.1 (ih h) with ⟨j, hj⟩
          simp [hj]

theorem colIdx_none_of_not_mem {c : String} : ∀ {cols : List String},
    c ∉ cols → colIdx c cols = Option.none := by
  intro cols
  induction cols with
  | nil => simp [colIdx]
  | cons c' cs ih =>
      intro h
      simp only [List.mem_cons, not_or] at h
      simp [colIdx, if_neg h.1, ih h.2]

theorem colIdx_append_left {c : String} {xs ys : List String} {i : Nat} :
    colIdx c xs = some i → colIdx c (xs ++ ys) = some i := by
  induction xs generalizing i with
  | nil => intro h; simp [colIdx] at h
  | cons x xs ih =>
      intro h
      simp only [colIdx] at h ⊢
      by_cases hc : c = x
      · simpa [if_pos hc] using h
      · simp only [if_neg hc, Option.map_eq_some'] at h
        rcases h with ⟨j, hj, rfl⟩
        simp [if_neg hc, ih hj]

theorem colIdx_append_right {c : String} {xs ys : List String} :
    c ∉ xs → colIdx c (xs ++ ys) = (colIdx c ys).map (· + xs.length) := by
  induction xs with
  | nil => intro _; simp
  | cons x xs ih =>
      intro h
      simp only [List.mem_cons, not_or] at h
      have hstep : colIdx c ((x :: xs) ++ ys) = (colIdx c (xs ++ ys)).map (· + 1) := by
        simp [colIdx, if_neg h.1]
      rw [hstep, ih h.2, Option.map_map]
      cases hys : colIdx c ys with
      | none => simp
      | some j =>
          simp only [Option.map_some', Function.comp, List.length_cons]
          exact congrArg some (by omega)

theorem charLe_total (a b : Char) : charLe a b = true ∨ charLe b a = true := by
  simp only [charLe, decide_eq_true_eq]
  omega

theorem charLe_antisymm {a b : Char} : charLe a b = true → charLe b a = true → a = b := by
  simp only [charLe, decide_eq_true_eq]
  intro h1 h2
  have hv : a.val.toNat = b.val.toNat := Nat.le_antisymm h1 h2
  exact Char.ext (UInt32.ext hv)

theorem charListLe_total : ∀ (a b : List Char), charListLe a b = true ∨ charListLe b a = true
  | [], _ => Or.inl rfl
  | _ :: _, [] => Or.inr rfl
  | a :: as, b :: bs => by
      simp only [charListLe]
      by_cases hab : a = b
      · subst hab
        simpa [if_pos rfl] using charListLe_total as bs
      · have hba : ¬b = a := fun h => hab h.symm
        rw [if_neg hab, if_neg hba]
        exact charLe_total a b

theorem charListLe_antisymm : ∀ {a b : List Char},
    charListLe a b = true → charListLe b a = true → a = b
  | [], [], _, _ => rfl
  | [], _ :: _, _, h2 => by simp [charListLe] at h2
  | _ :: _, [], h1, _ => by simp [charListLe] at h1
  | a :: as, b :: bs, h1, h2 => by
      by_cases hab : a = b
      · subst hab
        simp only [charListLe, if_pos rfl] at h1 h2
        rw [charListLe_antisymm h1 h2]
      · have hba : ¬b = a := fun h => hab h.symm
        simp only [charListLe, if_neg hab, if_neg hba] at h1 h2
        exact absurd (charLe_antisymm h1 h2) hab

theorem charListLe_trans : ∀ {a b c : List Char},
    charListLe a b = true → charListLe b c = true → charListLe a c = true
  | [], _, _, _, _ => rfl
  | _ :: _, [], _, h1, _ => by simp [charListLe] at h1
  | _ :: _, _ :: _, [], _, h2 => by simp [charListLe] at h2
  | a :: as, b :: bs, c :: cs, h1, h2 => by
      simp only [charListLe] at h1 h2 ⊢
      by_cases hab : a = b
      · subst hab
        by_cases hac : a = c
        · subst hac
          rw [if_pos rfl] at h1 h2 ⊢
          exact charListLe_trans h1 h2
        · rw [if_pos rfl] at h1
          rw [if_neg hac] at h2 ⊢
          exact h2
      · by_cases hbc : b = c
        · subst hbc
          rw [if_neg hab] at h1 ⊢
          exact h1
        · rw [if_neg hab] at h1
          rw [if_neg hbc] at h2
          by_cases hac : a = c
          · subst hac
            exact absurd (charLe_antisymm h1 h2) hab
          · rw [if_neg hac]
            simp only [charLe, decide_eq_true_eq] at h1 h2 ⊢
            omega

theorem strLe_total (a b : String) : strLe a b = true ∨ strLe b a = true :=
  charListLe_total a.data b.data

theorem strLe_antisymm {a b : String} : strLe a b = true → strLe b a = true → a = b := by
  intro h1 h2
  cases a; cases b
  exact congrArg String.mk (charListLe_antisymm h1 h2)

theorem strLe_trans {a b c : String} : strLe a b = true → strLe b c = true → strLe a c = true :=
  charListLe_trans

theorem insertSorted_perm (p : String × Value) :
    ∀ (l : List (String × Value)), (insertSorted p l).Perm (p :: l)
  | [] => List.Perm.refl _
  | q :: rest => by
      simp only [insertSorted]
      by_cases h : strLe p.1 q.1 = true
      · rw [if_pos h]
      · rw [if_neg h]
        exact ((insertSorted_perm p rest).cons q).trans (List.Perm.swap p q rest)

theorem sortFields_perm (fs : List (String × Value)) : (sortFields fs).Perm fs := by
  induction fs with
  | nil => exact List.Perm.refl _
  | cons p fs ih =>
      simp only [sortFields, List.foldr_cons]
      exact (insertSorted_perm p _).trans (ih.cons p)

theorem insertSorted_sorted {p : String × Value} {l : List (String × Value)} :
    l.Pairwise (fun a b => strLe a.1 b.1 = true) →
    (insertSorted p l).Pairwise (fun a b => strLe a.1 b.1 = true) := by
  induction l with
  | nil => intro _; simp [insertSorted]
  | cons q rest ih =>
      intro hs
      rcases List.pairwise_cons.1 hs with ⟨hq, hrest⟩
      simp only [insertSorted]
      by_cases h : strLe p.1 q.1 = true
      · rw [if_pos h]
        refine List.pairwise_cons.2 ⟨?_, hs⟩
        intro b hb
        rcases List.mem_cons.1 hb with rfl | hb
        · exact h
        · exact strLe_trans h (hq b hb)
      · rw [if_neg h]
        refine List.pairwise_cons.2 ⟨?_, ih hrest⟩
        intro b hb
        have hb' := (insertSorted_perm p rest).mem_iff.1 hb
        rcases List.mem_cons.1 hb' with rfl | hb'
        · rcases strLe_total b.1 q.1 with h1 | h1
          · exact absurd h1 h
          · exact h1
        · exact hq b hb'

theorem sortFields_sorted (fs : List (String × Value)) :
    (sortFields fs).Pairwise (fun a b => strLe a.1 b.1 = true) := by
  induction fs with
  | nil => simp [sortFields]
  | cons p fs ih => exact insertSorted_sorted ih

theorem nodupKeysB_iff {fs : List (String × Value)} :
    nodupKeysB fs = true ↔ (fs.map Prod.fst).Nodup := by
  induction fs with
  | nil => simp [nodupKeysB]
  | cons p fs ih =>
      obtain ⟨k, v⟩ := p
      simp only [nodupKeysB, Bool.and_eq_true, Bool.not_eq_true', List.map_cons,
        List.nodup_cons, ih, List.any_eq_false]
      constructor
      · rintro ⟨h1, h2⟩
        refine ⟨?_, h2⟩
        intro hmem
        rcases List.mem_map.1 hmem with ⟨q, hq, hqk⟩
        exact h1 q hq (beq_iff_eq.2 hqk)
      · rintro ⟨h1, h2⟩
        refine ⟨?_, h2⟩
        intro q hq
        cases hk : (q.1 == k) with
        | false => simp
        | true =>
            exact absurd (List.mem_map.2 ⟨q, hq, beq_iff_eq.1 hk⟩) h1

theorem lookupF_mem : ∀ {fs : List (String × Value)} {k : String} {v : Value},
    lookupF k fs = some v → (k, v) ∈ fs := by
  intro fs
  induction fs with
  | nil => intro k v h; simp [lookupF] at h
  | cons q fs ih =>
      intro k v h
      obtain ⟨k', v'⟩ := q
      simp only [lookupF] at h
      by_cases hk : k = k'
      · rw [if_pos hk] at h
        injection h with h
        subst hk; subst h
        exact List.mem_cons_self _ _
      · rw [if_neg hk] at h
        exact List.mem_cons_of_mem _ (ih h)

theorem lookupF_none_iff {k : String} : ∀ {fs : List (String × Value)},
    lookupF k fs = Option.none ↔ k ∉ fs.map Prod.fst := by
  intro fs
  induction fs with
  | nil => simp [lookupF]
  | cons q fs ih =>
      obtain ⟨k', v'⟩ := q
      simp only [lookupF, List.map_cons, List.mem_cons, not_or]
      by_cases hk : k = k'
      · simp [if_pos hk, hk]
      · simp [if_neg hk, hk, ih]

theorem lookupF_eq_some_of_mem : ∀ {fs : List (String × Value)} {k : String} {v : Value},
    nodupKeysB fs = true → (k, v) ∈ fs → lookupF k fs = some v := by
  intro fs
  induction fs with
  | nil => intro k v _ h; simp at h
  | cons q fs ih =>
      intro k v hnd h
      obtain ⟨k', v'⟩ := q
      simp only [nodupKeysB, Bool.and_eq_true, Bool.not_eq_true', List.any_eq_false] at hnd
      rcases List.mem_cons.1 h with heq | h2
      · injection heq with h1 hv2
        subst h1; subst hv2
        simp [lookupF]
      · simp only [lookupF]
        by_cases hk : k = k'
        · subst hk
          have := hnd.1 (k, v) h2
          simp at this
        · rw [if_neg hk]
          exact ih hnd.2 h2

theorem lookupF_isSome_of_mem_keys {k : String} {fs : List (String × Value)} :
    k ∈ fs.map Prod.fst → (lookupF k fs).isSome := by
  intro h
  cases hl : lookupF k fs with
  | none => exact absurd h (lookupF_none_iff.1 hl)
  | some v => rfl

theorem lookupF_perm {fs gs : List (String × Value)} (hperm : fs.Perm gs)
    (hnd : nodupKeysB fs = true) (k : String) : lookupF k fs = lookupF k gs := by
  have hndg : nodupKeysB gs = true :=
    nodupKeysB_iff.2 ((nodupKeysB_iff.1 hnd).perm (hperm.map Prod.fst))
  cases hl : lookupF k fs with
  | none =>
      cases hg : lookupF k gs with
      | none => rfl
      | some w =>
          have := lookupF_mem hg
          have hk : k ∈ fs.map Prod.fst :=
            List.mem_map.2 ⟨(k, w), hperm.symm.subset this, rfl⟩
          exact absurd hk (lookupF_none_iff.1 hl)
  | some v =>
      have := lookupF_mem hl
      exact (lookupF_eq_some_of_mem hndg (hperm.subset this)).symm

theorem keys_canonFields : ∀ (fs : List (String × Value)),
    (canonFields fs).map Prod.fst = fs.map Prod.fst
  | [] => rfl
  | (k, v) :: fs => by simp [canonFields, keys_canonFields fs]

theorem lookupF_canonFields (k : String) : ∀ (fs : List (String × Value)),
    lookupF k (canonFields fs) = (lookupF k fs).map canon
  | [] => rfl
  | (k', v) :: fs => by
      simp only [canonFields, lookupF]
      by_cases hk : k = k'
      · simp [if_pos hk]
      · simp [if_neg hk, lookupF_canonFields k fs]

theorem mem_canonFields : ∀ {fs : List (String × Value)} {p : String × Value},
    p ∈ canonFields fs → ∃ v, (p.1, v) ∈ fs ∧ p.2 = canon v := by
  intro fs
  induction fs with
  | nil => intro p h; simp [canonFields] at h
  | cons q fs ih =>
      intro p h
      obtain ⟨k', v'⟩ := q
      simp only [canonFields, List.mem_cons] at h
      rcases h with rfl | h
      · exact ⟨v', List.mem_cons_self _ _, rfl⟩
      · rcases ih h with ⟨v, hv, hp⟩
        exact ⟨v, List.mem_cons_of_mem _ hv, hp⟩

theorem nodupKeysB_canonFields {fs : List (String × Value)} (h : nodupKeysB fs = true) :
    nodupKeysB (canonFields fs) = true := by
  rw [nodupKeysB_iff, keys_canonFields]
  exact nodupKeysB_iff.1 h

theorem wfFields_of_mem : ∀ {fs : List (String × Value)} {k : String} {v : Value},
    wfFields fs = true → (k, v) ∈ fs → wfV v = true := by
  intro fs
  induction fs with
  | nil => intro k v _ h; simp at h
  | cons q fs ih =>
      intro k v hwf h
      obtain ⟨k', v'⟩ := q
      simp only [wfFields, Bool.and_eq_true] at hwf
      rcases List.mem_cons.1 h with heq | h2
      · injection heq with h1 hv2
        subst hv2
        exact hwf.1
      · exact ih hwf.2 h2

theorem wfElems_of_mem : ∀ {vs : List Value} {v : Value},
    wfElems vs = true → v ∈ vs → wfV v = true := by
  intro vs
  induction vs with
  | nil => intro v _ h; simp at h
  | cons w vs ih =>
      intro v hwf h
      simp only [wfElems, Bool.and_eq_true] at hwf
      rcases List.mem_cons.1 h with rfl | h2
      · exact hwf.1
      · exact ih hwf.2 h2

theorem sorted_assoc_ext : ∀ {fs gs : List (String × Value)},
    fs.Pairwise (fun a b => strLe a.1 b.1 = true ∧ a.1 ≠ b.1) →
    gs.Pairwise (fun a b => strLe a.1 b.1 = true ∧ a.1 ≠ b.1) →
    (∀ k, lookupF k fs = lookupF k gs) → fs = gs
  | [], [], _, _, _ => rfl
  | [], (k2, v2) :: gs, _, _, hl => by
      have h2 : lookupF k2 ((k2, v2) :: gs) = some v2 := by simp [lookupF]
      have h1 : lookupF k2 ([] : List (String × Value)) = Option.none := rfl
      rw [hl k2, h2] at h1
      exact absurd h1 (by simp)
  | (k1, v1) :: fs, [], _, _, hl => by
      have h1 : lookupF k1 ((k1, v1) :: fs) = some v1 := by simp [lookupF]
      have h2 : lookupF k1 ([] : List (String × Value)) = Option.none := rfl
      rw [← hl k1, h1] at h2
      exact absurd h2 (by simp)
  | (k1, v1) :: fs, (k2, v2) :: gs, hf, hg, hl => by
      rcases List.pairwise_cons.1 hf with ⟨hf1, hf2⟩
      rcases List.pairwise_cons.1 hg with ⟨hg1, hg2⟩
      have hk : k1 = k2 := by
        by_contra hk
        have e1 : lookupF k1 ((k2, v2) :: gs) = some v1 := by
          rw [← hl k1]; simp [lookupF]
        rw [show lookupF k1 ((k2, v2) :: gs) = lookupF k1 gs by simp [lookupF, if_neg hk]] at e1
        have m1 : (k1, v1) ∈ gs := lookupF_mem e1
        have e2 : lookupF k2 ((k1, v1) :: fs) = some v2 := by
          rw [hl k2]; simp [lookupF]
        have hk' : ¬k2 = k1 := fun h => hk h.symm
        rw [show lookupF k2 ((k1, v1) :: fs) = lookupF k2 fs by simp [lookupF, if_neg hk']] at e2
        have m2 : (k2, v2) ∈ fs := lookupF_mem e2
        have o1 := hg1 _ m1
        have o2 := hf1 _ m2
        exact hk (strLe_antisymm o2.1 o1.1)
      subst hk
      have hv : v1 = v2 := by
        have e1 : lookupF k1 ((k1, v1) :: fs) = some v1 := by simp [lookupF]
        have e2 : lookupF k1 ((k1, v2) :: gs) = some v2 := by simp [lookupF]
        rw [hl k1, e2] at e1
        injection e1 with e1
        exact e1.symm
      subst hv
      have htail : ∀ k, lookupF k fs = lookupF k gs := by
        intro k
        by_cases hk : k = k1
        · subst hk
          have n1 : lookupF k fs = Option.none := by
            rw [lookupF_none_iff]
            intro hmem
            rcases List.mem_map.1 hmem with ⟨q, hq, hqk⟩
            exact (hf1 q hq).2 hqk.symm
          have n2 : lookupF k gs = Option.none := by
            rw [lookupF_none_iff]
            intro hmem
            rcases List.mem_map.1 hmem with ⟨q, hq, hqk⟩
            exact (hg1 q hq).2 hqk.symm
          rw [n1, n2]
        · have := hl k
          simpa [lookupF, if_neg hk] using this
      rw [sorted_assoc_ext hf2 hg2 htail]

theorem strict_sorted_of_sorted_nodup {fs : List (String × Value)}
    (hs : fs.Pairwise fun a b => strLe a.1 b.1 = true)
    (hnd : (fs.map Prod.fst).Nodup) :
    fs.Pairwise (fun a b => strLe a.1 b.1 = true ∧ a.1 ≠ b.1) :=
  hs.and (List.pairwise_map.1 hnd)

theorem sortFields_strict {fs : List (String × Value)} (hnd : nodupKeysB fs = true) :
    (sortFields fs).Pairwise (fun a b => strLe a.1 b.1 = true ∧ a.1 ≠ b.1) := by
  refine strict_sorted_of_sorted_nodup (sortFields_sorted fs) ?_
  exact (nodupKeysB_iff.1 hnd).perm ((sortFields_perm fs).map Prod.fst).symm

theorem lookupF_sortFields {fs : List (String × Value)} (hnd : nodupKeysB fs = true)
    (k : String) : lookupF k (sortFields fs) = lookupF k fs := by
  have hnd' : nodupKeysB (sortFields fs) = true :=
    nodupKeysB_iff.2 ((nodupKeysB_iff.1 hnd).perm ((sortFields_perm fs).map Prod.fst).symm)
  exact lookupF_perm (sortFields_perm fs) hnd' k

mutual

theorem canon_eq_of_pyEq : ∀ {v w : Value}, wfV v = true → wfV w = true →
    pyEq v w = true → canon v = canon w
  | .null, w, _, _, h => by
      have hw : w = .null := Value.eq_of_beq (by simpa [pyEq] using h)
      rw [hw]
  | .nan, w, _, _, h => by
      have hw : w = .nan := Value.eq_of_beq (by simpa [pyEq] using h)
      rw [hw]
  | .bool b, w, _, _, h => by
      have hw : w = .bool b := Value.eq_of_beq (by simpa [pyEq] using h)
      rw [hw]
  | .num q, w, _, _, h => by
      have hw : w = .num q := Value.eq_of_beq (by simpa [pyEq] using h)
      rw [hw]
  | .str s, w, _, _, h => by
      have hw : w = .str s := Value.eq_of_beq (by simpa [pyEq] using h)
      rw [hw]
  | .ts t, w, _, _, h => by
      have hw : w = .ts t := Value.eq_of_beq (by simpa [pyEq] using h)
      rw [hw]
  | .obj fs, .obj gs, hv, hw, h => by
      simp only [pyEq, Bool.and_eq_true] at h
      simp only [wfV, Bool.and_eq_true] at hv hw
      simp only [canon]
      congr 1
      apply sorted_assoc_ext (sortFields_strict (nodupKeysB_canonFields hv.1))
        (sortFields_strict (nodupKeysB_canonFields hw.1))
      intro k
      rw [lookupF_sortFields (nodupKeysB_canonFields hv.1) k,
        lookupF_sortFields (nodupKeysB_canonFields hw.1) k,
        lookupF_canonFields k fs, lookupF_canonFields k gs]
      cases hlf : lookupF k fs with
      | some v0 =>
          rcases pyEqFields_lookup hv.2 hw.2 h.1 k v0 (lookupF_mem hlf) with ⟨w0, hg, hc⟩
          rw [hg]
          simp [hc]
      | none =>
          cases hlg : lookupF k gs with
          | none => rfl
          | some w0 =>
              have hmem := lookupF_mem hlg
              have hsub := h.2
              rw [keysSubB, List.all_eq_true] at hsub
              have := hsub (k, w0) hmem
              rw [hlf] at this
              exact absurd this (by simp)
  | .obj fs, .null, _, _, h => by simp [pyEq] at h
  | .obj fs, .nan, _, _, h => by simp [pyEq] at h
  | .obj fs, .bool _, _, _, h => by simp [pyEq] at h
  | .obj fs, .num _, _, _, h => by simp [pyEq] at h
  | .obj fs, .str _, _, _, h => by simp [pyEq] at h
  | .obj fs, .ts _, _, _, h => by simp [pyEq] at h
  | .obj fs, .arr _, _, _, h => by simp [pyEq] at h
  | .arr vs, .arr ws, hv, hw, h => by
      simp only [pyEq] at h
      simp only [wfV] at hv hw
      simp only [canon]
      rw [pyEqElems_canonElems hv hw h]
  | .arr vs, .null, _, _, h => by simp [pyEq] at h
  | .arr vs, .nan, _, _, h => by simp [pyEq] at h
  | .arr vs, .bool _, _, _, h => by simp [pyEq] at h
  | .arr vs, .num _, _, _, h => by simp [pyEq] at h
  | .arr vs, .str _, _, _, h => by simp [pyEq] at h
  | .arr vs, .ts _, _, _, h => by simp [pyEq] at h
  | .arr vs, .obj _, _, _, h => by simp [pyEq] at h

theorem pyEqFields_lookup : ∀ {fs gs : List (String × Value)},
    wfFields fs = true → wfFields gs = true → pyEqFields fs gs = true →
    ∀ (k : String) (v : Value), (k, v) ∈ fs →
      ∃ w, lookupF k gs = some w ∧ canon v = canon w
  | [], _, _, _, _, _, _, hmem => absurd hmem (List.not_mem_nil _)
  | (k', v') :: fs, gs, hf, hg, h, k, v, hmem => by
      simp only [pyEqFields, Bool.and_eq_true] at h
      simp only [wfFields, Bool.and_eq_true] at hf
      rcases List.mem_cons.1 hmem with heq | h2
      · injection heq with h1 h2'
        subst h1; subst h2'
        cases hl : lookupF k gs with
        | none =>
            rw [hl] at h
            exact absurd h.1 (by simp)
        | some w =>
            rw [hl] at h
            exact ⟨w, rfl,
              canon_eq_of_pyEq hf.1 (wfFields_of_mem hg (lookupF_mem hl)) h.1⟩
      · exact pyEqFields_lookup hf.2 hg h.2 k v h2

theorem pyEqElems_canonElems : ∀ {vs ws : List Value}, wfElems vs = true →
    wfElems ws = true → pyEqElems vs ws = true → canonElems vs = canonElems ws
  | [], ws, _, _, h => by
      have hws : ws = [] := List.isEmpty_iff.1 (by simpa [pyEqElems] using h)
      rw [hws]
  | v :: vs, [], _, _, h => by simp [pyEqElems] at h
  | v :: vs, w :: ws, hv, hw, h => by
      simp only [pyEqElems, Bool.and_eq_true] at h
      simp only [wfElems, Bool.and_eq_true] at hv hw
      simp only [canonElems]
      rw [canon_eq_of_pyEq hv.1 hw.1 h.1, pyEqElems_canonElems hv.2 hw.2 h.2]

end

theorem wfFields_iff_forall {fs : List (String × Value)} :
    wfFields fs = true ↔ ∀ p ∈ fs, wfV p.2 = true := by
  induction fs with
  | nil => simp [wfFields]
  | cons q fs ih =>
      obtain ⟨k, v⟩ := q
      simp only [wfFields, Bool.and_eq_true, ih, List.mem_cons]
      constructor
      · rintro ⟨h1, h2⟩ p hp
        rcases hp with rfl | hp
        · exact h1
        · exact h2 p hp
      · intro h
        exact ⟨h (k, v) (Or.inl rfl), fun p hp => h p (Or.inr hp)⟩

theorem wfElems_iff_forall {vs : List Value} :
    wfElems vs = true ↔ ∀ v ∈ vs, wfV v = true := by
  induction vs with
  | nil => simp [wfElems]
  | cons v vs ih =>
      simp only [wfElems, Bool.and_eq_true, ih, List.mem_cons]
      constructor
      · rintro ⟨h1, h2⟩ w hw
        rcases hw with rfl | hw
        · exact h1
        · exact h2 w hw
      · intro h
        exact ⟨h v (Or.inl rfl), fun w hw => h w (Or.inr hw)⟩

theorem serializableFields_iff_forall {fs : List (String × Value)} :
    serializableFields fs = true ↔ ∀ p ∈ fs, serializableV p.2 = true := by
  induction fs with
  | nil => simp [serializableFields]
  | cons q fs ih =>
      obtain ⟨k, v⟩ := q
      simp only [serializableFields, Bool.and_eq_true, ih, List.mem_cons]
      constructor
      · rintro ⟨h1, h2⟩ p hp
        rcases hp with rfl | hp
        · exact h1
        · exact h2 p hp
      · intro h
        exact ⟨h (k, v) (Or.inl rfl), fun p hp => h p (Or.inr hp)⟩

theorem serializableElems_iff_forall {vs : List Value} :
    serializableElems vs = true ↔ ∀ v ∈ vs, serializableV v = true := by
  induction vs with
  | nil => simp [serializableElems]
  | cons v vs ih =>
      simp only [serializableElems, Bool.and_eq_true, ih, List.mem_cons]
      constructor
      · rintro ⟨h1, h2⟩ w hw
        rcases hw with rfl | hw
        · exact h1
        · exact h2 w hw
      · intro h
        exact ⟨h v (Or.inl rfl), fun w hw => h w (Or.inr hw)⟩

theorem decRepFields_iff_forall {fs : List (String × Value)} :
    decRepFields fs = true ↔ ∀ p ∈ fs, decRepV p.2 = true := by
  induction fs with
  | nil => simp [decRepFields]
  | cons q fs ih =>
      obtain ⟨k, v⟩ := q
      simp only [decRepFields, Bool.and_eq_true, ih, List.mem_cons]
      constructor
      · rintro ⟨h1, h2⟩ p hp
        rcases hp with rfl | hp
        · exact h1
        · exact h2 p hp
      · intro h
        exact ⟨h (k, v) (Or.inl rfl), fun p hp => h p (Or.inr hp)⟩

theorem decRepElems_iff_forall {vs : List Value} :
    decRepElems vs = true ↔ ∀ v ∈ vs, decRepV v = true := by
  induction vs with
  | nil => simp [decRepElems]
  | cons v vs ih =>
      simp only [decRepElems, Bool.and_eq_true, ih, List.mem_cons]
      constructor
      · rintro ⟨h1, h2⟩ w hw
        rcases hw with rfl | hw
        · exact h1
        · exact h2 w hw
      · intro h
        exact ⟨h v (Or.inl rfl), fun w hw => h w (Or.inr hw)⟩

theorem pyEqFields_of_forall : ∀ {hs gs : List (String × Value)},
    (∀ p ∈ hs, ∃ w, lookupF p.1 gs = some w ∧ pyEq p.2 w = true) →
    pyEqFields hs gs = true
  | [], _, _ => rfl
  | (k, v) :: hs, gs, h => by
      simp only [pyEqFields, Bool.and_eq_true]
      rcases h (k, v) (List.mem_cons_self _ _) with ⟨w, hw, hpe⟩
      constructor
      · rw [hw]
        exact hpe
      · exact pyEqFields_of_forall fun p hp => h p (List.mem_cons_of_mem _ hp)

mutual

theorem pyEq_canon_self : ∀ {v : Value}, wfV v = true → pyEq (canon v) v = true
  | .null, _ => rfl
  | .nan, _ => rfl
  | .bool b, _ => by simp [canon, pyEq, Value.beq]
  | .num q, _ => by simp [canon, pyEq, Value.beq]
  | .str s, _ => by simp [canon, pyEq, Value.beq]
  | .ts t, _ => by simp [canon, pyEq, Value.beq]
  | .obj fs, hv => by
      simp only [wfV, Bool.and_eq_true] at hv
      simp only [canon, pyEq, Bool.and_eq_true]
      constructor
      · apply pyEqFields_of_forall
        intro p hp
        have hp' := (sortFields_perm (canonFields fs)).subset hp
        rcases mem_canonFields hp' with ⟨v0, hv0, hpv⟩
        refine ⟨v0, lookupF_eq_some_of_mem hv.1 hv0, ?_⟩
        rw [hpv]
        exact pyEqFields_canon_self hv.2 _ hv0
      · rw [keysSubB, List.all_eq_true]
        intro kv hkv
        apply lookupF_isSome_of_mem_keys
        rw [((sortFields_perm (canonFields fs)).map Prod.fst).mem_iff, keys_canonFields]
        exact List.mem_map.2 ⟨kv, hkv, rfl⟩
  | .arr vs, hv => by
      simp only [wfV] at hv
      simpa [canon, pyEq] using pyEqElems_canon_self hv

theorem pyEqFields_canon_self : ∀ {fs : List (String × Value)}, wfFields fs = true →
    ∀ (p : String × Value), p ∈ fs → pyEq (canon p.2) p.2 = true
  | [], _, _, hp => absurd hp (List.not_mem_nil _)
  | (k, v) :: fs, hf, p, hp => by
      simp only [wfFields, Bool.and_eq_true] at hf
      rcases List.mem_cons.1 hp with rfl | hp2
      · exact pyEq_canon_self hf.1
      · exact pyEqFields_canon_self hf.2 p hp2

theorem pyEqElems_canon_self : ∀ {vs : List Value}, wfElems vs = true →
    pyEqElems (canonElems vs) vs = true
  | [], _ => rfl
  | v :: vs, hv => by
      simp only [wfElems, Bool.and_eq_true] at hv
      simp only [canonElems, pyEqElems, Bool.and_eq_true]
      exact ⟨pyEq_canon_self hv.1, pyEqElems_canon_self hv.2⟩

end

theorem mem_canonElems : ∀ {vs : List Value} {w : Value},
    w ∈ canonElems vs → ∃ v, v ∈ vs ∧ w = canon v := by
  intro vs
  induction vs with
  | nil => intro w h; simp [canonElems] at h
  | cons v vs ih =>
      intro w h
      simp only [canonElems, List.mem_cons] at h
      rcases h with rfl | h
      · exact ⟨v, List.mem_cons_self _ _, rfl⟩
      · rcases ih h with ⟨v0, hv0, rfl⟩
        exact ⟨v0, List.mem_cons_of_mem _ hv0, rfl⟩

mutual

theorem wfV_canon : ∀ {v : Value}, wfV v = true → wfV (canon v) = true
  | .null, _ => rfl
  | .nan, _ => rfl
  | .bool _, h => h
  | .num _, h => h
  | .str _, h => h
  | .ts _, h => h
  | .obj fs, hv => by
      simp only [wfV, Bool.and_eq_true] at hv
      simp only [canon, wfV, Bool.and_eq_true]
      constructor
      · exact nodupKeysB_iff.2 ((nodupKeysB_iff.1 (nodupKeysB_canonFields hv.1)).perm
          ((sortFields_perm (canonFields fs)).map Prod.fst).symm)
      · rw [wfFields_iff_forall]
        intro p hp
        have hp' := (sortFields_perm (canonFields fs)).subset hp
        rcases mem_canonFields hp' with ⟨v0, hv0, hpv⟩
        rw [hpv]
        exact wfFields_canon hv.2 _ hv0
  | .arr vs, hv => by
      simp only [wfV] at hv ⊢
      simp only [canon]
      rw [wfElems_iff_forall]
      intro w hw
      rcases mem_canonElems hw with ⟨v0, hv0, rfl⟩
      exact wfElems_canon hv v0 hv0

theorem wfFields_canon : ∀ {fs : List (String × Value)}, wfFields fs = true →
    ∀ (p : String × Value), p ∈ fs → wfV (canon p.2) = true
  | [], _, _, hp => absurd hp (List.not_mem_nil _)
  | (k, v) :: fs, hf, p, hp => by
      simp only [wfFields, Bool.and_eq_true] at hf
      rcases List.mem_cons.1 hp with rfl | hp2
      · exact wfV_canon hf.1
      · exact wfFields_canon hf.2 p hp2

theorem wfElems_canon : ∀ {vs : List Value}, wfElems vs = true →
    ∀ (v : Value), v ∈ vs → wfV (canon v) = true
  | [], _, _, hp => absurd hp (List.not_mem_nil _)
  | v :: vs, hv, w, hp => by
      simp only [wfElems, Bool.and_eq_true] at hv
      rcases List.mem_cons.1 hp with rfl | hp2
      · exact wfV_canon hv.1
      · exact wfElems_canon hv.2 w hp2

end

mutual

theorem serializableV_canon : ∀ {v : Value}, serializableV v = true →
    serializableV (canon v) = true
  | .null, _ => rfl
  | .nan, _ => rfl
  | .bool _, h => h
  | .num _, h => h
  | .str _, h => h
  | .ts _, h => h
  | .obj fs, hv => by
      simp only [serializableV] at hv ⊢
      simp only [canon]
      rw [serializableFields_iff_forall]
      intro p hp
      have hp' := (sortFields_perm (canonFields fs)).subset hp
      rcases mem_canonFields hp' with ⟨v0, hv0, hpv⟩
      rw [hpv]
      exact serializableFields_canon hv _ hv0
  | .arr vs, hv => by
      simp only [serializableV] at hv ⊢
      simp only [canon]
      rw [serializableElems_iff_forall]
      intro w hw
      rcases mem_canonElems hw with ⟨v0, hv0, rfl⟩
      exact serializableElems_canon hv v0 hv0

theorem serializableFields_canon : ∀ {fs : List (String × Value)},
    serializableFields fs = true →
    ∀ (p : String × Value), p ∈ fs → serializableV (canon p.2) = true
  | [], _, _, hp => absurd hp (List.not_mem_nil _)
  | (k, v) :: fs, hf, p, hp => by
      simp only [serializableFields, Bool.and_eq_true] at hf
      rcases List.mem_cons.1 hp with rfl | hp2
      · exact serializableV_canon hf.1
      · exact serializableFields_canon hf.2 p hp2

theorem serializableElems_canon : ∀ {vs : List Value}, serializableElems vs = true →
    ∀ (v : Value), v ∈ vs → serializableV (canon v) = true
  | [], _, _, hp => absurd hp (List.not_mem_nil _)
  | v :: vs, hv, w, hp => by
      simp only [serializableElems, Bool.and_eq_true] at hv
      rcases List.mem_cons.1 hp with rfl | hp2
      · exact serializableV_canon hv.1
      · exact serializableElems_canon hv.2 w hp2

end

mutual

theorem decRepV_canon : ∀ {v : Value}, decRepV v = true → decRepV (canon v) = true
  | .null, _ => rfl
  | .nan, _ => rfl
  | .bool _, h => h
  | .num _, h => h
  | .str _, h => h
  | .ts _, h => h
  | .obj fs, hv => by
      simp only [decRepV] at hv ⊢
      simp only [canon]
      rw [decRepFields_iff_forall]
      intro p hp
      have hp' := (sortFields_perm (canonFields fs)).subset hp
      rcases mem_canonFields hp' with ⟨v0, hv0, hpv⟩
      rw [hpv]
      exact decRepFields_canon hv _ hv0
  | .arr vs, hv => by
      simp only [decRepV] at hv ⊢
      simp only [canon]
      rw [decRepElems_iff_forall]
      intro w hw
      rcases mem_canonElems hw with ⟨v0, hv0, rfl⟩
      exact decRepElems_canon hv v0 hv0

theorem decRepFields_canon : ∀ {fs : List (String × Value)}, decRepFields fs = true →
    ∀ (p : String × Value), p ∈ fs → decRepV (canon p.2) = true
  | [], _, _, hp => absurd hp (List.not_mem_nil _)
  | (k, v) :: fs, hf, p, hp => by
      simp only [decRepFields, Bool.and_eq_true] at hf
      rcases List.mem_cons.1 hp with rfl | hp2
      · exact decRepV_canon hf.1
      · exact decRepFields_canon hf.2 p hp2

theorem decRepElems_canon : ∀ {vs : List Value}, decRepElems vs = true →
    ∀ (v : Value), v ∈ vs → decRepV (canon v) = true
  | [], _, _, hp => absurd hp (List.not_mem_nil _)
  | v :: vs, hv, w, hp => by
      simp only [decRepElems, Bool.and_eq_true] at hv
      rcases List.mem_cons.1 hp with rfl | hp2
      · exact decRepV_canon hv.1
      · exact decRepElems_canon hv.2 w hp2

end

theorem isDigitC_digitChar {n : Nat} (h : n < 10) : isDigitC (digitChar n) = true := by
  interval_cases n <;> decide

theorem digitVal_digitChar {n : Nat} (h : n < 10) : digitVal (digitChar n) = n := by
  interval_cases n <;> decide

theorem digitChar_ne_dash {n : Nat} (h : n < 10) : digitChar n ≠ '-' := by
  interval_cases n <;> decide

theorem parseDigits_append {ds : List Char} (hds : ∀ c ∈ ds, isDigitC c = true) :
    ∀ (acc : Nat) (rest : List Char),
      parseDigits acc (ds ++ rest) = parseDigits (ds.foldl digStep acc) rest := by
  induction ds with
  | nil => intro acc rest; rfl
  | cons c ds ih =>
      intro acc rest
      have hc := hds c (List.mem_cons_self _ _)
      simp only [List.cons_append, parseDigits, hc, if_pos]
      exact ih (fun d hd => hds d (List.mem_cons_of_mem _ hd)) _ rest

theorem parseDigits_stop {acc : Nat} : ∀ {rest : List Char},
    (∀ c cs, rest = c :: cs → isDigitC c = false) → parseDigits acc rest = (acc, rest) := by
  intro rest h
  cases rest with
  | nil => rfl
  | cons c cs => simp [parseDigits, h c cs rfl]

theorem natDigitsAux_digits : ∀ (fuel n : Nat), ∀ c ∈ natDigitsAux fuel n, isDigitC c = true := by
  intro fuel
  induction fuel with
  | zero => intro n c h; simp [natDigitsAux] at h
  | succ fuel ih =>
      intro n c h
      simp only [natDigitsAux] at h
      by_cases hn : n < 10
      · rw [if_pos hn] at h
        rcases List.mem_singleton.1 h with rfl
        exact isDigitC_digitChar hn
      · rw [if_neg hn] at h
        rcases List.mem_append.1 h with h | h
        · exact ih _ c h
        · rcases List.mem_singleton.1 h with rfl
          exact isDigitC_digitChar (Nat.mod_lt _ (by norm_num))

theorem natDigits_digits {n : Nat} : ∀ c ∈ natDigits n, isDigitC c = true :=
  natDigitsAux_digits (n + 1) n

theorem foldl_digStep_natDigitsAux : ∀ (fuel n acc : Nat), n < 10 ^ fuel →
    (natDigitsAux fuel n).foldl digStep acc =
      acc * 10 ^ (natDigitsAux fuel n).length + n := by
  intro fuel
  induction fuel with
  | zero =>
      intro n acc h
      simp only [Nat.pow_zero, Nat.lt_one_iff] at h
      subst h
      simp [natDigitsAux]
  | succ fuel ih =>
      intro n acc h
      simp only [natDigitsAux]
      by_cases hn : n < 10
      · rw [if_pos hn]
        simp [digStep, digitVal_digitChar hn]
      · rw [if_neg hn]
        have hdiv : n / 10 < 10 ^ fuel := by
          rw [Nat.div_lt_iff_lt_mul (by norm_num)]
          rw [Nat.pow_succ] at h
          omega
        rw [List.foldl_append, ih (n / 10) acc hdiv]
        simp only [List.foldl_cons, List.foldl_nil, List.length_append,
          List.length_singleton, digStep, digitVal_digitChar (Nat.mod_lt n (by norm_num))]
        rw [Nat.pow_succ]
        have hmod := Nat.div_add_mod n 10
        ring_nf
        omega

theorem natDigitsAux_ne_nil {fuel n : Nat} : natDigitsAux (fuel + 1) n ≠ [] := by
  simp only [natDigitsAux]
  by_cases hn : n < 10
  · simp [if_pos hn]
  · rw [if_neg hn]
    simp

theorem foldl_digStep_natDigits (n : Nat) :
    (natDigits n).foldl digStep 0 = n := by
  have h : n < 10 ^ (n + 1) :=
    Nat.lt_of_lt_of_le (Nat.lt_pow_self (by norm_num) n)
      (Nat.pow_le_pow_right (by norm_num) (Nat.le_succ n))
  have := foldl_digStep_natDigitsAux (n + 1) n 0 h
  simpa using this

theorem isDigitC_ne_dash {c : Char} (h : isDigitC c = true) : ¬c = '-' := by
  intro hc
  subst hc
  exact absurd h (by decide)

theorem goodRest_head {c : Char} {cs : List Char} (h : goodRestB (c :: cs) = true) :
    isDigitC c = false ∧ c ≠ 'e' := by
  simp only [goodRestB, Bool.or_eq_true, decide_eq_true_eq] at h
  rcases h with (rfl | rfl) | rfl <;> exact ⟨by decide, by decide⟩

theorem parseDigits_goodRest {acc : Nat} {rest : List Char} (h : goodRestB rest = true) :
    parseDigits acc rest = (acc, rest) := by
  apply parseDigits_stop
  intro c cs hcs
  subst hcs
  exact (goodRest_head h).1

theorem parseNumCore_natDigits {n : Nat} {rest : List Char} (hrest : goodRestB rest = true) :
    parseNumCore (natDigits n ++ rest) = some ((n : Rat), rest) := by
  obtain ⟨d, ds, hds⟩ : ∃ d ds, natDigits n = d :: ds := by
    cases h : natDigits n with
    | nil => exact absurd h natDigitsAux_ne_nil
    | cons d ds => exact ⟨d, ds, rfl⟩
  have hd : isDigitC d = true := natDigits_digits d (hds ▸ List.mem_cons_self _ _)
  have hfold : (d :: ds).foldl digStep 0 = n := hds ▸ foldl_digStep_natDigits n
  simp only [List.foldl_cons] at hfold
  have hstep : digStep 0 d = digitVal d := by simp [digStep]
  rw [hstep] at hfold
  have hdsdig : ∀ c ∈ ds, isDigitC c = true := fun c hc =>
    natDigits_digits c (hds ▸ List.mem_cons_of_mem _ hc)
  rw [hds, List.cons_append]
  simp only [parseNumCore, hd, if_pos]
  rw [parseDigits_append hdsdig, hfold, parseDigits_goodRest hrest]
  cases rest with
  | nil => rfl
  | cons c cs =>
      have := goodRest_head hrest
      simp only [goodRestB, Bool.or_eq_true, decide_eq_true_eq] at hrest
      rcases hrest with (rfl | rfl) | rfl <;> rfl

theorem parseNumCore_sci {n k : Nat} {rest : List Char} (hrest : goodRestB rest = true) :
    parseNumCore (natDigits n ++ ('e' :: '-' :: (natDigits k ++ rest))) =
      some ((n : Rat) / ((10 : Rat) ^ k), rest) := by
  obtain ⟨d, ds, hds⟩ : ∃ d ds, natDigits n = d :: ds := by
    cases h : natDigits n with
    | nil => exact absurd h natDigitsAux_ne_nil
    | cons d ds => exact ⟨d, ds, rfl⟩
  obtain ⟨e1, es, hes⟩ : ∃ e1 es, natDigits k = e1 :: es := by
    cases h : natDigits k with
    | nil => exact absurd h natDigitsAux_ne_nil
    | cons e1 es => exact ⟨e1, es, rfl⟩
  have hd : isDigitC d = true := natDigits_digits d (hds ▸ List.mem_cons_self _ _)
  have he1 : isDigitC e1 = true := natDigits_digits e1 (hes ▸ List.mem_cons_self _ _)
  have hfoldn : (d :: ds).foldl digStep 0 = n := hds ▸ foldl_digStep_natDigits n
  have hfoldk : (e1 :: es).foldl digStep 0 = k := hes ▸ foldl_digStep_natDigits k
  simp only [List.foldl_cons] at hfoldn hfoldk
  have hstepd : digStep 0 d = digitVal d := by simp [digStep]
  rw [hstepd] at hfoldn
  have hstepe : digStep 0 e1 = digitVal e1 := by simp [digStep]
  rw [hstepe] at hfoldk
  have hdsdig : ∀ c ∈ ds, isDigitC c = true := fun c hc =>
    natDigits_digits c (hds ▸ List.mem_cons_of_mem _ hc)
  have hesdig : ∀ c ∈ es, isDigitC c = true := fun c hc =>
    natDigits_digits c (hes ▸ List.mem_cons_of_mem _ hc)
  rw [hds, hes]
  simp only [List.cons_append, List.append_assoc]
  simp only [parseNumCore, hd, if_pos]
  rw [parseDigits_append hdsdig, hfoldn,
    parseDigits_stop (by intro c cs hcs; injection hcs with h1 _; subst h1; decide)]
  simp only [he1, if_pos]
  rw [parseDigits_append hesdig, hfoldk, parseDigits_goodRest hrest]

theorem parseNumber_natDigits {n : Nat} {rest : List Char} (hrest : goodRestB rest = true) :
    parseNumber (natDigits n ++ rest) = some ((n : Rat), rest) := by
  obtain ⟨d, ds, hds⟩ : ∃ d ds, natDigits n = d :: ds := by
    cases h : natDigits n with
    | nil => exact absurd h natDigitsAux_ne_nil
    | cons d ds => exact ⟨d, ds, rfl⟩
  have hd : isDigitC d = true := natDigits_digits d (hds ▸ List.mem_cons_self _ _)
  rw [hds, List.cons_append]
  simp only [parseNumber, if_neg (isDigitC_ne_dash hd)]
  rw [← List.cons_append, ← hds]
  exact parseNumCore_natDigits hrest

theorem parseNumber_intDigits {m : Int} {rest : List Char} (hrest : goodRestB rest = true) :
    parseNumber (intDigits m ++ rest) = some ((m : Rat), rest) := by
  by_cases hm : m < 0
  · simp only [intDigits, if_pos hm, List.cons_append, parseNumber, if_pos rfl]
    rw [parseNumCore_natDigits hrest]
    simp only [Option.map_some']
    have : ((m.natAbs : Nat) : Rat) = -(m : Rat) := by
      rw [Int.cast_natAbs, Int.cast_abs]
      exact abs_of_neg (by exact_mod_cast hm)
    rw [this]
    simp
  · simp only [intDigits, if_neg hm]
    rw [parseNumber_natDigits hrest]
    have : ((m.natAbs : Nat) : Rat) = (m : Rat) := by
      rw [Int.cast_natAbs, Int.cast_abs]
      exact abs_of_nonneg (by exact_mod_cast le_of_not_lt hm)
    rw [this]

theorem parseNumber_int_sci {m : Int} {k : Nat} {rest : List Char}
    (hrest : goodRestB rest = true) :
    parseNumber (intDigits m ++ ('e' :: '-' :: (natDigits k ++ rest))) =
      some ((m : Rat) / (10 : Rat) ^ k, rest) := by
  by_cases hm : m < 0
  · simp only [intDigits, if_pos hm, List.cons_append, parseNumber, if_pos rfl]
    rw [parseNumCore_sci hrest]
    simp only [Option.map_some']
    have : ((m.natAbs : Nat) : Rat) = -(m : Rat) := by
      rw [Int.cast_natAbs, Int.cast_abs]
      exact abs_of_neg (by exact_mod_cast hm)
    rw [this]
    simp [neg_div]
  · simp only [intDigits, if_neg hm]
    obtain ⟨d, ds, hds⟩ : ∃ d ds, natDigits m.natAbs = d :: ds := by
      cases h : natDigits m.natAbs with
      | nil => exact absurd h natDigitsAux_ne_nil
      | cons d ds => exact ⟨d, ds, rfl⟩
    have hd : isDigitC d = true := natDigits_digits d (hds ▸ List.mem_cons_self _ _)
    rw [hds, List.cons_append]
    simp only [parseNumber, if_neg (isDigitC_ne_dash hd)]
    rw [← List.cons_append, ← hds, parseNumCore_sci hrest]
    have : ((m.natAbs : Nat) : Rat) = (m : Rat) := by
      rw [Int.cast_natAbs, Int.cast_abs]
      exact abs_of_nonneg (by exact_mod_cast le_of_not_lt hm)
    rw [this]

theorem smooth_mantissa {q : Rat} (h1 : ¬q.den = 1) (hsm : smoothB q = true) :
    ((q.num * ((10 ^ q.den) / q.den : Nat) : Int) : Rat) / (10 : Rat) ^ q.den = q := by
  have hdpos : 0 < q.den := q.pos
  have hdvd : q.den ∣ 10 ^ q.den := by
    apply Nat.dvd_of_mod_eq_zero
    simpa [smoothB] using hsm
  have hc : ((10 ^ q.den) / q.den) * q.den = 10 ^ q.den := Nat.div_mul_cancel hdvd
  have hcpos : 0 < (10 ^ q.den) / q.den :=
    Nat.div_pos (Nat.le_of_dvd (Nat.pos_pow_of_pos _ (by norm_num)) hdvd) hdpos
  have h10 : (10 : Rat) ^ q.den = ((10 ^ q.den : Nat) : Rat) := by push_cast; ring
  have hcne : (((10 ^ q.den) / q.den : Nat) : Rat) ≠ 0 := by
    exact_mod_cast Nat.pos_iff_ne_zero.1 hcpos
  have hCD : (10 : Rat) ^ q.den =
      ((q.den : Nat) : Rat) * (((10 ^ q.den) / q.den : Nat) : Rat) := by
    conv_lhs => rw [h10, ← hc]
    rw [Nat.cast_mul]
    ring
  rw [hCD, Int.cast_mul, Int.cast_natCast]
  rw [mul_div_mul_right _ _ hcne]
  exact Rat.num_div_den q

theorem parseNumber_emitNum {q : Rat} (hsm : smoothB q = true) {rest : List Char}
    (hrest : goodRestB rest = true) :
    parseNumber (emitNum q ++ rest) = some (q, rest) := by
  by_cases h1 : q.den = 1
  · simp only [emitNum, if_pos h1]
    rw [parseNumber_intDigits hrest]
    congr 2
    exact (Rat.den_eq_one_iff q).mp h1
  · simp only [emitNum, if_neg h1]
    rw [show intDigits (q.num * ((10 ^ q.den) / q.den : Nat)) ++
          'e' :: '-' :: natDigits q.den ++ rest =
        intDigits (q.num * ((10 ^ q.den) / q.den : Nat)) ++
          ('e' :: '-' :: (natDigits q.den ++ rest)) by simp]
    rw [parseNumber_int_sci hrest]
    congr 2
    exact smooth_mantissa h1 hsm

theorem hexVal_hexChar {n : Nat} (h : n < 16) : hexVal (hexChar n) = some n := by
  interval_cases n <;> decide

theorem parseStrBody_lit {c : Char} (h1 : ¬c = '"') (h2 : ¬c = '\\') (cs : List Char) :
    parseStrBody (c :: cs) = (parseStrBody cs).map fun p => (c :: p.1, p.2) := by
  rw [parseStrBody.eq_def]
  simp [h1, h2]

theorem parseStrBody_esc {e : Char} (hu : ¬e = 'u') (cs : List Char) :
    parseStrBody ('\\' :: e :: cs) =
      match escTable e with
      | some d => (parseStrBody cs).map fun p => (d :: p.1, p.2)
      | Option.none => Option.none := by
  rw [parseStrBody.eq_def]
  simp [hu]

theorem parseStrBody_hex {h1 h2 h3 h4 : Char} {a b c3 d : Nat} (cs : List Char)
    (e1 : hexVal h1 = some a) (e2 : hexVal h2 = some b)
    (e3 : hexVal h3 = some c3) (e4 : hexVal h4 = some d) :
    parseStrBody ('\\' :: 'u' :: h1 :: h2 :: h3 :: h4 :: cs) =
      (parseStrBody cs).map fun p =>
        (Char.ofNat (((a * 16 + b) * 16 + c3) * 16 + d) :: p.1, p.2) := by
  rw [parseStrBody.eq_def]
  simp [e1, e2, e3, e4]

theorem parseStrBody_escChars : ∀ (cs rest : List Char),
    parseStrBody (escChars cs ++ '"' :: rest) = some (cs, rest)
  | [], rest => by
      rw [show escChars [] = [] from rfl, List.nil_append, parseStrBody.eq_def]
      simp
  | c :: cs, rest => by
      have ih := parseStrBody_escChars cs rest
      simp only [escChars, List.append_assoc]
      by_cases h1 : c = '"'
      · subst h1
        rw [show escChar '"' = ['\\', '"'] from rfl]
        simp only [List.cons_append, List.nil_append]
        rw [parseStrBody_esc (by decide), show escTable '"' = some '"' from rfl, ih]
        rfl
      · by_cases h2 : c = '\\'
        · subst h2
          rw [show escChar '\\' = ['\\', '\\'] from rfl]
          simp only [List.cons_append, List.nil_append]
          rw [parseStrBody_esc (by decide), show escTable '\\' = some '\\' from rfl, ih]
          rfl
        · by_cases h3 : c = '\n'
          · subst h3
            rw [show escChar '\n' = ['\\', 'n'] from rfl]
            simp only [List.cons_append, List.nil_append]
            rw [parseStrBody_esc (by decide), show escTable 'n' = some '\n' from rfl, ih]
            rfl
          · by_cases h4 : c = '\t'
            · subst h4
              rw [show escChar '\t' = ['\\', 't'] from rfl]
              simp only [List.cons_append, List.nil_append]
              rw [parseStrBody_esc (by decide), show escTable 't' = some '\t' from rfl, ih]
              rfl
            · by_cases h5 : c = '\r'
              · subst h5
                rw [show escChar '\r' = ['\\', 'r'] from rfl]
                simp only [List.cons_append, List.nil_append]
                rw [parseStrBody_esc (by decide), show escTable 'r' = some '\r' from rfl, ih]
                rfl
              · by_cases h6 : c = Char.ofNat 8
                · subst h6
                  rw [show escChar (Char.ofNat 8) = ['\\', 'b'] from by decide]
                  simp only [List.cons_append, List.nil_append]
                  rw [parseStrBody_esc (by decide),
                    show escTable 'b' = some (Char.ofNat 8) from rfl, ih]
                  rfl
                · by_cases h7 : c = Char.ofNat 12
                  · subst h7
                    rw [show escChar (Char.ofNat 12) = ['\\', 'f'] from by decide]
                    simp only [List.cons_append, List.nil_append]
                    rw [parseStrBody_esc (by decide),
                      show escTable 'f' = some (Char.ofNat 12) from rfl, ih]
                    rfl
                  · by_cases h8 : c.val.toNat < 32
                    · rw [show escChar c = ['\\', 'u', '0', '0',
                          hexChar (c.val.toNat / 16), hexChar (c.val.toNat % 16)] from by
                        simp [escChar, h1, h2, h3, h4, h5, h6, h7, h8]]
                      simp only [List.cons_append, List.nil_append]
                      rw [parseStrBody_hex _ (show hexVal '0' = some 0 from by decide)
                        (show hexVal '0' = some 0 from by decide)
                        (hexVal_hexChar (by omega))
                        (hexVal_hexChar (Nat.mod_lt _ (by norm_num))), ih]
                      have hval : ((0 * 16 + 0) * 16 + c.val.toNat / 16) * 16 +
                          c.val.toNat % 16 = c.val.toNat := by
                        have := Nat.div_add_mod c.val.toNat 16
                        omega
                      rw [hval]
                      rw [show Char.ofNat c.val.toNat = c from Char.ofNat_toNat c]
                      rfl
                    · rw [show escChar c = [c] from by
                        simp [escChar, h1, h2, h3, h4, h5, h6, h7, h8]]
                      simp only [List.cons_append, List.nil_append]
                      rw [parseStrBody_lit h1 h2, ih]
                      rfl

theorem skipWs_cons_not_ws {c : Char} {cs : List Char} (h : isWs c = false) :
    skipWs (c :: cs) = c :: cs := by
  simp [skipWs, h]

theorem skipWs_cons_ws {c : Char} {cs : List Char} (h : isWs c = true) :
    skipWs (c :: cs) = skipWs cs := by
  simp [skipWs, h]

theorem isWs_false_of_digit {c : Char} (h : isDigitC c = true) : isWs c = false := by
  cases hws : isWs c with
  | false => rfl
  | true =>
      simp only [isWs, Bool.or_eq_true, decide_eq_true_eq] at hws
      rcases hws with ((rfl | rfl) | rfl) | rfl <;> exact absurd h (by decide)

theorem numHead_facts {c : Char} (h : (isDigitC c || c = '-') = true) :
    isWs c = false ∧ ¬c = 'n' ∧ ¬c = 'N' ∧ ¬c = 't' ∧ ¬c = 'f' ∧ ¬c = '"' ∧
      ¬c = lbrace ∧ ¬c = '[' ∧ ¬c = ']' := by
  simp only [Bool.or_eq_true, decide_eq_true_eq] at h
  rcases h with h | rfl
  · refine ⟨isWs_false_of_digit h, ?_, ?_, ?_, ?_, ?_, ?_, ?_, ?_⟩ <;>
      (intro heq; subst heq; exact absurd h (by decide))
  · refine ⟨by decide, by decide, by decide, by decide, by decide, by decide,
      by decide, by decide, by decide⟩

theorem emitNum_head {q : Rat} : ∃ d ds, emitNum q = d :: ds ∧ (isDigitC d || d = '-') = true := by
  have hnat : ∀ n : Nat, ∃ d ds, natDigits n = d :: ds ∧ (isDigitC d || d = '-') = true := by
    intro n
    cases h : natDigits n with
    | nil => exact absurd h natDigitsAux_ne_nil
    | cons d ds =>
        refine ⟨d, ds, rfl, ?_⟩
        have := natDigits_digits d (h ▸ List.mem_cons_self _ _)
        simp [this]
  have hint : ∀ m : Int, ∃ d ds, intDigits m = d :: ds ∧ (isDigitC d || d = '-') = true := by
    intro m
    by_cases hm : m < 0
    · exact ⟨'-', natDigits m.natAbs, by simp [intDigits, hm], by decide⟩
    · rcases hnat m.natAbs with ⟨d, ds, h1, h2⟩
      exact ⟨d, ds, by simp [intDigits, hm, h1], h2⟩
  by_cases h1 : q.den = 1
  · rcases hint q.num with ⟨d, ds, hd, hdig⟩
    exact ⟨d, ds, by simp [emitNum, h1, hd], hdig⟩
  · rcases hint (q.num * ((10 ^ q.den) / q.den : Nat)) with ⟨d, ds, hd, hdig⟩
    refine ⟨d, ds ++ 'e' :: '-' :: natDigits q.den, ?_, hdig⟩
    simp only [emitNum, if_neg h1]
    rw [hd, List.cons_append]

theorem one_le_sizeV : ∀ (u : Value), 1 ≤ sizeV u := by
  intro u
  cases u <;> simp [sizeV] <;> omega

theorem emitFields_head : ∀ {fs : List (String × Value)}, fs ≠ [] →
    ∀ (X : List Char), ∃ tl, emitFields fs ++ X = '"' :: tl := by
  intro fs hne X
  match fs with
  | [] => exact absurd rfl hne
  | [(k, v)] =>
      refine ⟨escChars k.data ++ '"' :: ':' :: ' ' :: (emitV v ++ X), ?_⟩
      simp [emitFields, emitStr]
  | (k, v) :: p :: fs =>
      refine ⟨escChars k.data ++ '"' :: ':' :: ' ' ::
        (emitV v ++ ',' :: ' ' :: emitFields (p :: fs) ++ X), ?_⟩
      simp [emitFields, emitStr]

theorem parseV_succ (f : Nat) (cs : List Char) :
    parseV (f + 1) cs =
      match skipWs cs with
      | [] => Option.none
      | c :: cs' =>
          if c = 'n' then (expectLit ['u', 'l', 'l'] cs').map fun r => (.null, r)
          else if c = 'N' then (expectLit ['a', 'N'] cs').map fun r => (.nan, r)
          else if c = 't' then (expectLit ['r', 'u', 'e'] cs').map fun r => (.bool true, r)
          else if c = 'f' then (expectLit ['a', 'l', 's', 'e'] cs').map fun r => (.bool false, r)
          else if c = '"' then (parseStrBody cs').map fun p => (.str (String.mk p.1), p.2)
          else if c = lbrace then
            match skipWs cs' with
            | [] => Option.none
            | c2 :: cs2 =>
                if c2 = rbrace then some (.obj [], cs2)
                else parseFieldsV f (c2 :: cs2)
          else if c = '[' then
            match skipWs cs' with
            | [] => Option.none
            | c2 :: cs2 =>
                if c2 = ']' then some (.arr [], cs2)
                else (parseElemsV f (c2 :: cs2)).map fun p => (.arr p.1, p.2)
          else if isDigitC c || c = '-' then
            (parseNumber (c :: cs')).map fun p => (.num p.1, p.2)
          else Option.none := rfl

theorem parseFieldsV_succ (f : Nat) (cs : List Char) :
    parseFieldsV (f + 1) cs =
      match skipWs cs with
      | [] => Option.none
      | c :: cs' =>
          if c = '"' then
            match parseStrBody cs' with
            | Option.none => Option.none
            | some (kcs, rest1) =>
                match skipWs rest1 with
                | [] => Option.none
                | c2 :: rest2 =>
                    if c2 = ':' then
                      match parseV f rest2 with
                      | Option.none => Option.none
                      | some (v, rest3) =>
                          match skipWs rest3 with
                          | [] => Option.none
                          | c3 :: rest4 =>
                              if c3 = ',' then
                                match parseFieldsV f rest4 with
                                | some (.obj fs, rest5) =>
                                    some (.obj ((String.mk kcs, v) :: fs), rest5)
                                | _ => Option.none
                              else if c3 = rbrace then
                                some (.obj [(String.mk kcs, v)], rest4)
                              else Option.none
                    else Option.none
          else Option.none := rfl

theorem parseElemsV_succ (f : Nat) (cs : List Char) :
    parseElemsV (f + 1) cs =
      match parseV f cs with
      | Option.none => Option.none
      | some (v, rest) =>
          match skipWs rest with
          | [] => Option.none
          | c :: rest' =>
              if c = ',' then (parseElemsV f rest').map fun p => (v :: p.1, p.2)
              else if c = ']' then some ([v], rest')
              else Option.none := rfl

theorem one_le_sizeF : ∀ (fs : List (String × Value)), 1 ≤ sizeF fs
  | [] => le_refl 1
  | (k, v) :: fs => by simp [sizeF]

theorem one_le_sizeE : ∀ (vs : List Value), 1 ≤ sizeE vs
  | [] => le_refl 1
  | v :: vs => by simp [sizeE]

theorem emitV_head_not_ws : ∀ {u : Value}, serializableV u = true →
    ∃ c cs, emitV u = c :: cs ∧ isWs c = false ∧ ¬c = ']' := by
  intro u hser
  cases u with
  | null => exact ⟨'n', _, rfl, by decide, by decide⟩
  | nan => exact ⟨'N', _, rfl, by decide, by decide⟩
  | bool b => cases b
              · exact ⟨'f', _, rfl, by decide, by decide⟩
              · exact ⟨'t', _, rfl, by decide, by decide⟩
  | num q =>
      rcases @emitNum_head q with ⟨d, ds, hd, hdig⟩
      exact ⟨d, ds, hd, (numHead_facts hdig).1, (numHead_facts hdig).2.2.2.2.2.2.2.2⟩
  | str s => exact ⟨'"', _, rfl, by decide, by decide⟩
  | ts t => exact absurd hser (by simp [serializableV])
  | obj fs => exact ⟨lbrace, _, rfl, by decide, by decide⟩
  | arr vs => exact ⟨'[', _, rfl, by decide, by decide⟩

theorem skipWs_emit {u : Value} (hser : serializableV u = true) (X : List Char) :
    skipWs (emitV u ++ X) = emitV u ++ X := by
  rcases emitV_head_not_ws hser with ⟨c, cs, hc, hws, _⟩
  rw [hc, List.cons_append, skipWs_cons_not_ws hws]

theorem emitElems_head : ∀ {vs : List Value}, vs ≠ [] → serializableElems vs = true →
    ∀ (X : List Char), ∃ c tl, emitElems vs ++ X = c :: tl ∧ isWs c = false ∧ ¬c = ']' := by
  intro vs hne hser X
  match vs with
  | [] => exact absurd rfl hne
  | [v] =>
      simp only [serializableElems, Bool.and_eq_true] at hser
      rcases emitV_head_not_ws hser.1 with ⟨c, cs, hc, hws, hcb⟩
      exact ⟨c, cs ++ X, by simp [emitElems, hc], hws, hcb⟩
  | v :: w :: vs =>
      simp only [serializableElems, Bool.and_eq_true] at hser
      rcases emitV_head_not_ws hser.1 with ⟨c, cs, hc, hws, hcb⟩
      refine ⟨c, cs ++ ',' :: ' ' :: emitElems (w :: vs) ++ X, ?_, hws, hcb⟩
      simp [emitElems, hc]

theorem stringMk_data (s : String) : String.mk s.data = s := rfl

mutual

theorem parseV_emitV : ∀ (u : Value), serializableV u = true → decRepV u = true →
    ∀ (fuel : Nat) (cs rest : List Char), sizeV u ≤ fuel → goodRestB rest = true →
      skipWs cs = emitV u ++ rest → parseV fuel cs = some (u, rest)
  | .null, _, _, fuel, cs, rest, hfuel, hrest, hskip => by
      cases fuel with
      | zero => simp [sizeV] at hfuel
      | succ f =>
          rw [parseV_succ, hskip]
          rfl
  | .nan, _, _, fuel, cs, rest, hfuel, hrest, hskip => by
      cases fuel with
      | zero => simp [sizeV] at hfuel
      | succ f =>
          rw [parseV_succ, hskip]
          rfl
  | .bool true, _, _, fuel, cs, rest, hfuel, hrest, hskip => by
      cases fuel with
      | zero => simp [sizeV] at hfuel
      | succ f =>
          rw [parseV_succ, hskip]
          rfl
  | .bool false, _, _, fuel, cs, rest, hfuel, hrest, hskip => by
      cases fuel with
      | zero => simp [sizeV] at hfuel
      | succ f =>
          rw [parseV_succ, hskip]
          rfl
  | .num q, hser, hdec, fuel, cs, rest, hfuel, hrest, hskip => by
      cases fuel with
      | zero => simp [sizeV] at hfuel
      | succ f =>
          rcases @emitNum_head q with ⟨d, ds, hd, hdig⟩
          rcases numHead_facts hdig with ⟨hws, hn, hN, ht, hf2, hq2, hlb, hbr, hrb2⟩
          rw [parseV_succ, hskip, show emitV (.num q) = d :: ds from hd,
            List.cons_append]
          simp only [if_neg hn, if_neg hN, if_neg ht, if_neg hf2, if_neg hq2,
            if_neg hlb, if_neg hbr, hdig, if_pos]
          rw [← List.cons_append, ← hd,
            parseNumber_emitNum (by simpa [decRepV] using hdec) hrest]
          rfl
  | .str s, _, _, fuel, cs, rest, hfuel, hrest, hskip => by
      cases fuel with
      | zero => simp [sizeV] at hfuel
      | succ f =>
          rw [parseV_succ, hskip,
            show emitV (.str s) ++ rest = '"' :: (escChars s.data ++ '"' :: rest) from by
              simp [emitV, emitStr]]
          simp only [reduceIte]
          rw [parseStrBody_escChars]
          rfl
  | .obj [], _, _, fuel, cs, rest, hfuel, hrest, hskip => by
      cases fuel with
      | zero => simp [sizeV, sizeF] at hfuel
      | succ f =>
          rw [parseV_succ, hskip,
            show emitV (.obj []) ++ rest = lbrace :: (rbrace :: rest) from by
              simp [emitV, emitFields]]
          simp only [if_neg (show ¬lbrace = 'n' from by decide),
            if_neg (show ¬lbrace = 'N' from by decide),
            if_neg (show ¬lbrace = 't' from by decide),
            if_neg (show ¬lbrace = 'f' from by decide),
            if_neg (show ¬lbrace = '"' from by decide),
            if_pos (show lbrace = lbrace from rfl),
            skipWs_cons_not_ws (show isWs rbrace = false from by decide),
            if_pos (show rbrace = rbrace from rfl), if_true]
  | .obj (p :: fs), hser, hdec, fuel, cs, rest, hfuel, hrest, hskip => by
      cases fuel with
      | zero => simp [sizeV] at hfuel
      | succ f =>
          rcases emitFields_head (List.cons_ne_nil p fs) (rbrace :: rest) with ⟨tl, htl⟩
          rw [parseV_succ, hskip,
            show emitV (.obj (p :: fs)) ++ rest =
              lbrace :: (emitFields (p :: fs) ++ rbrace :: rest) from by
                simp [emitV]]
          simp only [if_neg (show ¬lbrace = 'n' from by decide),
            if_neg (show ¬lbrace = 'N' from by decide),
            if_neg (show ¬lbrace = 't' from by decide),
            if_neg (show ¬lbrace = 'f' from by decide),
            if_neg (show ¬lbrace = '"' from by decide),
            if_pos (show lbrace = lbrace from rfl)]
          rw [htl]
          simp only [skipWs_cons_not_ws (show isWs '"' = false from by decide),
            if_neg (show ¬('"' : Char) = rbrace from by decide)]
          rw [← htl]
          apply parseFieldsV_emitFields (p :: fs) (List.cons_ne_nil p fs)
            (by simpa [serializableV] using hser) (by simpa [decRepV] using hdec)
          · simp only [sizeV] at hfuel
            omega
          · exact hrest
          · rw [htl, skipWs_cons_not_ws (show isWs '"' = false from by decide)]
  | .arr [], _, _, fuel, cs, rest, hfuel, hrest, hskip => by
      cases fuel with
      | zero => simp [sizeV, sizeE] at hfuel
      | succ f =>
          rw [parseV_succ, hskip,
            show emitV (.arr []) ++ rest = '[' :: (']' :: rest) from by
              simp [emitV, emitElems]]
          simp only [if_neg (show ¬('[' : Char) = 'n' from by decide),
            if_neg (show ¬('[' : Char) = 'N' from by decide),
            if_neg (show ¬('[' : Char) = 't' from by decide),
            if_neg (show ¬('[' : Char) = 'f' from by decide),
            if_neg (show ¬('[' : Char) = '"' from by decide),
            if_neg (show ¬('[' : Char) = lbrace from by decide),
            if_pos (show ('[' : Char) = '[' from rfl),
            skipWs_cons_not_ws (show isWs ']' = false from by decide),
            if_pos (show (']' : Char) = ']' from rfl), if_true]
  | .arr (v :: vs), hser, hdec, fuel, cs, rest, hfuel, hrest, hskip => by
      cases fuel with
      | zero => simp [sizeV] at hfuel
      | succ f =>
          rcases emitElems_head (List.cons_ne_nil v vs)
            (by simpa [serializableV] using hser) (']' :: rest) with ⟨c0, tl, htl, hws0, hcne⟩
          rw [parseV_succ, hskip,
            show emitV (.arr (v :: vs)) ++ rest =
              '[' :: (emitElems (v :: vs) ++ ']' :: rest) from by
                simp [emitV]]
          simp only [if_neg (show ¬('[' : Char) = 'n' from by decide),
            if_neg (show ¬('[' : Char) = 'N' from by decide),
            if_neg (show ¬('[' : Char) = 't' from by decide),
            if_neg (show ¬('[' : Char) = 'f' from by decide),
            if_neg (show ¬('[' : Char) = '"' from by decide),
            if_neg (show ¬('[' : Char) = lbrace from by decide),
            if_pos (show ('[' : Char) = '[' from rfl)]
          rw [htl]
          simp only [skipWs_cons_not_ws hws0, if_neg hcne]
          rw [← htl,
            parseElemsV_emitElems (v :: vs) (List.cons_ne_nil v vs)
              (by simpa [serializableV] using hser) (by simpa [decRepV] using hdec)
              f (emitElems (v :: vs) ++ ']' :: rest) rest
              (by simp only [sizeV] at hfuel; omega) hrest
              (by rw [htl, skipWs_cons_not_ws hws0])]
          simp only [if_true, Option.map_some']

theorem parseFieldsV_emitFields : ∀ (fs : List (String × Value)), fs ≠ [] →
    serializableFields fs = true → decRepFields fs = true →
    ∀ (fuel : Nat) (cs rest : List Char), sizeF fs ≤ fuel → goodRestB rest = true →
      skipWs cs = emitFields fs ++ rbrace :: rest →
      parseFieldsV fuel cs = some (.obj fs, rest)
  | [], hne, _, _, _, _, _, _, _, _ => absurd rfl hne
  | [(k, v)], _, hser, hdec, fuel, cs, rest, hfuel, hrest, hskip => by
      cases fuel with
      | zero => simp [sizeF] at hfuel
      | succ f =>
          simp only [serializableFields, Bool.and_eq_true] at hser
          simp only [decRepFields, Bool.and_eq_true] at hdec
          rw [parseFieldsV_succ, hskip,
            show emitFields [(k, v)] ++ rbrace :: rest =
              '"' :: (escChars k.data ++ '"' ::
                (':' :: (' ' :: (emitV v ++ rbrace :: rest)))) from by
                  simp [emitFields, emitStr]]
          simp only [if_pos (show ('"' : Char) = '"' from rfl)]
          rw [parseStrBody_escChars]
          simp only [skipWs_cons_not_ws (show isWs ':' = false from by decide),
            if_pos (show (':' : Char) = ':' from rfl)]
          rw [parseV_emitV v hser.1 hdec.1 f (' ' :: (emitV v ++ rbrace :: rest))
            (rbrace :: rest)
            (by simp only [sizeF] at hfuel; omega)
            (by simp [goodRestB])
            (by rw [skipWs_cons_ws (show isWs ' ' = true from by decide)]
                exact skipWs_emit hser.1 (rbrace :: rest))]
          simp only [skipWs_cons_not_ws (show isWs rbrace = false from by decide),
            if_neg (show ¬rbrace = ',' from by decide),
            if_pos (show rbrace = rbrace from rfl), if_true, stringMk_data]
  | (k, v) :: p :: fs, _, hser, hdec, fuel, cs, rest, hfuel, hrest, hskip => by
      cases fuel with
      | zero => simp [sizeF] at hfuel
      | succ f =>
          simp only [serializableFields, Bool.and_eq_true] at hser
          simp only [decRepFields, Bool.and_eq_true] at hdec
          rcases emitFields_head (List.cons_ne_nil p fs) (rbrace :: rest) with ⟨tl, htl⟩
          rw [parseFieldsV_succ, hskip,
            show emitFields ((k, v) :: p :: fs) ++ rbrace :: rest =
              '"' :: (escChars k.data ++ '"' ::
                (':' :: (' ' :: (emitV v ++
                  ',' :: (' ' :: (emitFields (p :: fs) ++ rbrace :: rest)))))) from by
                  simp [emitFields, emitStr]]
          simp only [if_pos (show ('"' : Char) = '"' from rfl)]
          rw [parseStrBody_escChars]
          simp only [skipWs_cons_not_ws (show isWs ':' = false from by decide),
            if_pos (show (':' : Char) = ':' from rfl)]
          rw [parseV_emitV v hser.1 hdec.1 f
            (' ' :: (emitV v ++ ',' :: (' ' :: (emitFields (p :: fs) ++ rbrace :: rest))))
            (',' :: (' ' :: (emitFields (p :: fs) ++ rbrace :: rest)))
            (by simp only [sizeF] at hfuel; omega)
            (by simp [goodRestB])
            (by rw [skipWs_cons_ws (show isWs ' ' = true from by decide)]
                exact skipWs_emit hser.1 _)]
          simp only [skipWs_cons_not_ws (show isWs ',' = false from by decide),
            if_pos (show (',' : Char) = ',' from rfl)]
          rw [parseFieldsV_emitFields (p :: fs) (List.cons_ne_nil p fs)
            (by simp only [serializableFields, Bool.and_eq_true]; exact hser.2)
            (by simp only [decRepFields, Bool.and_eq_true]; exact hdec.2) f
            (' ' :: (emitFields (p :: fs) ++ rbrace :: rest)) rest
            (by simp only [sizeF] at hfuel ⊢; omega) hrest
            (by rw [skipWs_cons_ws (show isWs ' ' = true from by decide)]
                rw [htl, skipWs_cons_not_ws (show isWs '"' = false from by decide)])]
          simp only [if_neg (show ¬(',' : Char) = rbrace from by decide), if_true,
            stringMk_data]

theorem parseElemsV_emitElems : ∀ (vs : List Value), vs ≠ [] →
    serializableElems vs = true → decRepElems vs = true →
    ∀ (fuel : Nat) (cs rest : List Char), sizeE vs ≤ fuel → goodRestB rest = true →
      skipWs cs = emitElems vs ++ ']' :: rest →
      parseElemsV fuel cs = some (vs, rest)
  | [], hne, _, _, _, _, _, _, _, _ => absurd rfl hne
  | [v], _, hser, hdec, fuel, cs, rest, hfuel, hrest, hskip => by
      cases fuel with
      | zero => simp [sizeE] at hfuel
      | succ f =>
          simp only [serializableElems, Bool.and_eq_true] at hser
          simp only [decRepElems, Bool.and_eq_true] at hdec
          rw [parseElemsV_succ]
          rw [parseV_emitV v hser.1 hdec.1 f cs (']' :: rest)
            (by simp only [sizeE] at hfuel; omega)
            (by simp [goodRestB])
            (by rw [hskip]; simp [emitElems])]
          simp only [skipWs_cons_not_ws (show isWs ']' = false from by decide),
            if_neg (show ¬(']' : Char) = ',' from by decide),
            if_pos (show (']' : Char) = ']' from rfl), if_true]
  | v :: w :: vs, _, hser, hdec, fuel, cs, rest, hfuel, hrest, hskip => by
      cases fuel with
      | zero => simp [sizeE] at hfuel
      | succ f =>
          simp only [serializableElems, Bool.and_eq_true] at hser
          simp only [decRepElems, Bool.and_eq_true] at hdec
          rcases emitElems_head (List.cons_ne_nil w vs)
            (by simp only [serializableElems, Bool.and_eq_true]
                exact hser.2) (']' :: rest) with ⟨c0, tl, htl, hws0, hcne0⟩
          rw [parseElemsV_succ]
          rw [parseV_emitV v hser.1 hdec.1 f cs
            (',' :: (' ' :: (emitElems (w :: vs) ++ ']' :: rest)))
            (by simp only [sizeE] at hfuel; omega)
            (by simp [goodRestB])
            (by rw [hskip]
                simp [emitElems])]
          simp only [skipWs_cons_not_ws (show isWs ',' = false from by decide),
            if_pos (show (',' : Char) = ',' from rfl)]
          rw [parseElemsV_emitElems (w :: vs) (List.cons_ne_nil w vs)
            (by simp only [serializableElems, Bool.and_eq_true]; exact hser.2)
            (by simp only [decRepElems, Bool.and_eq_true]; exact hdec.2) f
            (' ' :: (emitElems (w :: vs) ++ ']' :: rest)) rest
            (by simp only [sizeE] at hfuel ⊢; omega) hrest
            (by rw [skipWs_cons_ws (show isWs ' ' = true from by decide)]
                rw [htl, skipWs_cons_not_ws hws0])]
          simp only [if_true, Option.map_some']

end

theorem one_le_emitNum_length {q : Rat} : 1 ≤ (emitNum q).length := by
  obtain ⟨d, ds, he, _⟩ := emitNum_head (q := q)
  rw [he]
  simp

mutual

theorem sizeV_le_emit : ∀ (u : Value), serializableV u = true →
    sizeV u ≤ 2 * (emitV u).length
  | .null, _ => by simp [sizeV, emitV]
  | .nan, _ => by simp [sizeV, emitV]
  | .bool true, _ => by simp [sizeV, emitV]
  | .bool false, _ => by simp [sizeV, emitV]
  | .num q, _ => by
      have := one_le_emitNum_length (q := q)
      simp only [sizeV, emitV]
      omega
  | .str s, _ => by
      simp only [sizeV, emitV, emitStr, List.length_cons, List.length_append]
      omega
  | .ts t, h => by simp [serializableV] at h
  | .obj fs, h => by
      have hf := sizeF_le_emit fs (by simpa [serializableV] using h)
      simp only [sizeV, emitV, List.length_cons, List.length_append,
        List.length_singleton]
      omega
  | .arr vs, h => by
      have he := sizeE_le_emit vs (by simpa [serializableV] using h)
      simp only [sizeV, emitV, List.length_cons, List.length_append,
        List.length_singleton]
      omega

theorem sizeF_le_emit : ∀ (fs : List (String × Value)), serializableFields fs = true →
    sizeF fs ≤ 2 * (emitFields fs).length + 2
  | [], _ => by simp [sizeF, emitFields]
  | [(k, v)], h => by
      have hv := sizeV_le_emit v (by
        simp only [serializableFields, Bool.and_eq_true] at h
        exact h.1)
      simp only [sizeF, emitFields, List.length_append, List.length_cons]
      omega
  | (k, v) :: p :: fs, h => by
      simp only [serializableFields, Bool.and_eq_true] at h
      have hv := sizeV_le_emit v h.1
      have hf := sizeF_le_emit (p :: fs) (by
        simp only [serializableFields, Bool.and_eq_true]
        exact h.2)
      simp only [sizeF, emitFields, List.length_append, List.length_cons]
      simp only [sizeF] at hf
      omega

theorem sizeE_le_emit : ∀ (vs : List Value), serializableElems vs = true →
    sizeE vs ≤ 2 * (emitElems vs).length + 2
  | [], _ => by simp [sizeE, emitElems]
  | [v], h => by
      have hv := sizeV_le_emit v (by
        simp only [serializableElems, Bool.and_eq_true] at h
        exact h.1)
      simp only [sizeE, emitElems]
      omega
  | v :: w :: vs, h => by
      simp only [serializableElems, Bool.and_eq_true] at h
      have hv := sizeV_le_emit v h.1
      have he := sizeE_le_emit (w :: vs) (by
        simp only [serializableElems, Bool.and_eq_true]
        exact h.2)
      simp only [sizeE, emitElems, List.length_append, List.length_cons]
      simp only [sizeE] at he
      omega

end

theorem jsonLoads_jsonDumps {v : Value} (hser : serializableV v = true)
    (hdec : decRepV v = true) : jsonLoads (jsonDumps v) = some (canon v) := by
  have hserc : serializableV (canon v) = true := serializableV_canon hser
  have hdecc : decRepV (canon v) = true := decRepV_canon hdec
  have hdata : (jsonDumps v).data = emitV (canon v) := rfl
  have hfuel : sizeV (canon v) ≤ 2 * (emitV (canon v)).length + 2 := by
    have := sizeV_le_emit (canon v) hserc
    omega
  have hgr : goodRestB ([] : List Char) = true := by decide
  have hsw : skipWs (emitV (canon v)) = emitV (canon v) ++ [] := by
    rw [List.append_nil]
    exact (List.append_nil (emitV (canon v))) ▸ skipWs_emit hserc []
  have hmain : parseV (2 * (emitV (canon v)).length + 2) (emitV (canon v)) =
      some (canon v, []) :=
    parseV_emitV (canon v) hserc hdecc (2 * (emitV (canon v)).length + 2)
      (emitV (canon v)) [] hfuel hgr hsw
  rw [jsonLoads, hdata, hmain]
  rfl

theorem safe_serialize_not_nested : ∀ (v : Value), (_safe_serialize v).isNested = false := by
  intro v
  unfold _safe_serialize
  by_cases h : v.isNested = true
  · rw [if_pos h]
    by_cases hs : serializableV v = true
    · rw [if_pos hs]; rfl
    · rw [if_neg hs]; rfl
  · rw [if_neg h]
    simpa using h

theorem safe_serialize_isna : ∀ (v : Value), (_safe_serialize v).isna = v.isna := by
  intro v
  unfold _safe_serialize
  by_cases h : v.isNested = true
  · rw [if_pos h]
    have hv : v.isna = false := by
      cases v <;> first | rfl | simp [Value.isNested] at h
    rw [hv]
    by_cases hs : serializableV v = true
    · rw [if_pos hs]; rfl
    · rw [if_neg hs]; rfl
  · rw [if_neg h]

theorem safe_serialize_scalar {v : Value} (h : v.isNested = false) :
    _safe_serialize v = v := by
  unfold _safe_serialize
  rw [if_neg]
  simp [h]

theorem mapRowsE_ok_forall2 {f : List Value → Except String (List Value)}
    {rs rs' : List (List Value)} (h : mapRowsE f rs = .ok rs') :
    List.Forall₂ (fun r r' => f r = .ok r') rs rs' := by
  induction rs generalizing rs' with
  | nil =>
      simp only [mapRowsE] at h
      cases h
      exact List.Forall₂.nil
  | cons r rest ih =>
      simp only [mapRowsE] at h
      cases hf : f r with
      | error e => rw [hf] at h; cases h
      | ok r1 =>
          rw [hf] at h
          cases hm : mapRowsE f rest with
          | error e => rw [hm] at h; cases h
          | ok rs1 =>
              rw [hm] at h
              cases h
              exact List.Forall₂.cons hf (ih hm)

theorem mapRowsE_error_of_mem {f : List Value → Except String (List Value)}
    {rs : List (List Value)} {r : List Value} (hmem : r ∈ rs) {e : String}
    (he : f r = .error e) : ∃ e2, mapRowsE f rs = .error e2 := by
  induction rs with
  | nil => cases hmem
  | cons a rest ih =>
      rcases List.mem_cons.1 hmem with rfl | hmem2
      · exact ⟨e, by simp [mapRowsE, he]⟩
      · cases ha : f a with
        | error e2 => exact ⟨e2, by simp [mapRowsE, ha]⟩
        | ok r1 =>
            rcases ih hmem2 with ⟨e2, he2⟩
            exact ⟨e2, by simp [mapRowsE, ha, he2]⟩

theorem allScalarB_iff {t : Table} : allScalarB t = true ↔
    ∀ r ∈ t.rows, ∀ v ∈ r, v.isNested = false := by
  simp only [allScalarB, List.all_eq_true, Bool.not_eq_true', List.any_eq_false]
  constructor
  · intro h r hr v hv
    simpa using h r hr v hv
  · intro h r hr v hv
    simpa using h r hr v hv

theorem noNullsB_iff {t : Table} : noNullsB t = true ↔
    ∀ r ∈ t.rows, ∀ v ∈ r, v.isna = false := by
  simp only [noNullsB, List.all_eq_true, Bool.not_eq_true', List.any_eq_false]
  constructor
  · intro h r hr v hv
    simpa using h r hr v hv
  · intro h r hr v hv
    simpa using h r hr v hv

theorem wfTableB_iff {t : Table} : wfTableB t = true ↔
    ∀ r ∈ t.rows, r.length = t.cols.length := by
  simp only [wfTableB, List.all_eq_true, beq_iff_eq]

theorem drop_duplicatesT_ok_of_allScalar {t : Table} (h : allScalarB t = true) :
    drop_duplicatesT t = .ok ⟨t.cols, dedupKeepFirst t.rows⟩ := by
  unfold drop_duplicatesT
  rw [if_neg]
  intro hc
  rcases List.any_eq_true.1 hc with ⟨r, hr, hany⟩
  rcases List.any_eq_true.1 hany with ⟨v, hv, hnest⟩
  rw [allScalarB_iff.1 h r hr v hv] at hnest
  cases hnest

theorem drop_duplicatesT_ok_inv {t u : Table} (h : drop_duplicatesT t = .ok u) :
    u.cols = t.cols ∧ u.rows = dedupKeepFirst t.rows ∧ allScalarB t = true := by
  unfold drop_duplicatesT at h
  by_cases hc : (t.rows.any fun r => r.any Value.isNested) = true
  · rw [if_pos hc] at h; cases h
  · rw [if_neg hc] at h
    cases h
    refine ⟨rfl, rfl, allScalarB_iff.2 ?_⟩
    intro r hr v hv
    by_contra hne
    rw [Bool.not_eq_false] at hne
    exact hc (List.any_eq_true.2 ⟨r, hr, List.any_eq_true.2 ⟨v, hv, hne⟩⟩)

theorem noNullsB_dropnaT (t : Table) : noNullsB (dropnaT t) = true := by
  rw [noNullsB_iff]
  intro r hr v hv
  have h2 := (List.mem_filter.1 hr).2
  rw [Bool.not_eq_true', List.any_eq_false] at h2
  simpa using h2 v hv

theorem mem_dropnaT {t : Table} {r : List Value} (h : r ∈ (dropnaT t).rows) :
    r ∈ t.rows := (List.mem_filter.1 h).1

theorem noDupRowsP_dropnaT {t : Table} (h : noDupRowsP t) : noDupRowsP (dropnaT t) :=
  List.Pairwise.filter _ h

theorem clean_customers_eq {t u : Table} (h : clean_customers t = .ok u) :
    u = dropnaT ⟨t.cols, dedupKeepFirst t.rows⟩ ∧ allScalarB t = true := by
  unfold clean_customers at h
  cases hd : drop_duplicatesT t with
  | error e => rw [hd] at h; cases h
  | ok c =>
      rw [hd] at h
      cases h
      obtain ⟨h1, h2, h3⟩ := drop_duplicatesT_ok_inv hd
      refine ⟨?_, h3⟩
      have : c = ⟨t.cols, dedupKeepFirst t.rows⟩ := by
        cases c
        simp only at h1 h2
        rw [h1, h2]
      rw [this]

theorem clean_customers_invariants {t u : Table} (h : clean_customers t = .ok u) :
    noDupRowsP u ∧ noNullsB u = true ∧ allScalarB u = true := by
  obtain ⟨hu, hsc⟩ := clean_customers_eq h
  subst hu
  refine ⟨noDupRowsP_dropnaT (nodup_dedupKeepFirst _), noNullsB_dropnaT _, ?_⟩
  rw [allScalarB_iff]
  intro r hr v hv
  have hr2 : r ∈ t.rows := mem_dedupKeepFirst.1 (mem_dropnaT hr)
  exact allScalarB_iff.1 hsc r hr2 v hv

theorem allScalarB_applymapT (t : Table) :
    allScalarB (applymapT _safe_serialize t) = true := by
  rw [allScalarB_iff]
  intro r hr v hv
  rcases List.mem_map.1 hr with ⟨r0, _, rfl⟩
  rcases List.mem_map.1 hv with ⟨v0, _, rfl⟩
  exact safe_serialize_not_nested v0

theorem allScalarB_astypeStrColT {t : Table} (h : allScalarB t = true) (c : String) :
    allScalarB (astypeStrColT t c) = true := by
  unfold astypeStrColT
  cases hc : colIdx c t.cols with
  | none => exact h
  | some i =>
      rw [allScalarB_iff]
      intro r hr v hv
      rcases List.mem_map.1 hr with ⟨r0, hr0, rfl⟩
      rcases List.mem_or_eq_of_mem_set hv with hv0 | rfl
      · exact allScalarB_iff.1 h r0 hr0 v hv0
      · rfl

theorem allScalarB_ticketsStage (t : Table) : allScalarB (ticketsStage t) = true := by
  unfold ticketsStage
  by_cases h : "tags" ∈ (applymapT _safe_serialize t).cols
  · rw [if_pos h]
    exact allScalarB_astypeStrColT (allScalarB_applymapT t) "tags"
  · rw [if_neg h]
    exact allScalarB_applymapT t

theorem clean_tickets_eq (t : Table) : clean_tickets t =
    .ok (dropnaT ⟨(ticketsStage t).cols, dedupKeepFirst (ticketsStage t).rows⟩) := by
  have hstep : clean_tickets t = match drop_duplicatesT (ticketsStage t) with
    | .error e => .error e
    | .ok t2 => .ok (dropnaT t2) := rfl
  rw [hstep, drop_duplicatesT_ok_of_allScalar (allScalarB_ticketsStage t)]

theorem clean_tickets_invariants {t u : Table} (h : clean_tickets t = .ok u) :
    noDupRowsP u ∧ noNullsB u = true ∧ allScalarB u = true := by
  rw [clean_tickets_eq t] at h
  cases h
  refine ⟨noDupRowsP_dropnaT (nodup_dedupKeepFirst _), noNullsB_dropnaT _, ?_⟩
  rw [allScalarB_iff]
  intro r hr v hv
  have hr2 : r ∈ (ticketsStage t).rows := mem_dedupKeepFirst.1 (mem_dropnaT hr)
  exact allScalarB_iff.1 (allScalarB_ticketsStage t) r hr2 v hv

theorem ordersStage1_not_id (t : Table) : "id" ∉ (ordersStage1 t).cols := by
  unfold ordersStage1
  by_cases h : "id" ∈ t.cols
  · rw [if_pos h]
    intro hmem
    rcases List.mem_map.1 hmem with ⟨c, _, hc⟩
    by_cases hcid : c = "id"
    · rw [if_pos hcid] at hc
      exact absurd hc (by decide)
    · rw [if_neg hcid] at hc
      exact hcid hc
  · rw [if_neg h]
    exact h

theorem ordersStage1_order_id {t : Table} (h : "id" ∈ t.cols) :
    "order_id" ∈ (ordersStage1 t).cols := by
  unfold ordersStage1
  rw [if_pos h]
  exact List.mem_map.2 ⟨"id", h, by rw [if_pos rfl]⟩

theorem ordersStage1_rows (t : Table) : (ordersStage1 t).rows = t.rows := by
  unfold ordersStage1
  by_cases h : "id" ∈ t.cols
  · rw [if_pos h]; rfl
  · rw [if_neg h]

theorem ordersStage1_cols_length (t : Table) :
    (ordersStage1 t).cols.length = t.cols.length := by
  unfold ordersStage1
  by_cases h : "id" ∈ t.cols
  · rw [if_pos h]
    exact List.length_map _ _
  · rw [if_neg h]

theorem clean_orders_eq (t : Table) : clean_orders t =
    match drop_duplicatesT (ordersStage1 t) with
    | .error e => .error e
    | .ok o => to_datetimeColT (dropnaT o) "ordered_at" := rfl

theorem to_datetimeVal_ok_ts {v w : Value} (h : to_datetimeVal v = .ok w) :
    ∃ o, w = .ts o := by
  cases v with
  | str s =>
      simp only [to_datetimeVal] at h
      by_cases he : s.data.isEmpty = true
      · rw [if_pos he] at h
        cases h
        exact ⟨Option.none, rfl⟩
      · rw [if_neg he] at h
        cases hp : parseDate s.data with
        | error e => rw [hp] at h; cases h
        | ok ts0 =>
            rw [hp] at h
            cases h
            exact ⟨some ts0, rfl⟩
  | ts o => cases h; exact ⟨o, rfl⟩
  | null => cases h; exact ⟨Option.none, rfl⟩
  | nan => cases h; exact ⟨Option.none, rfl⟩
  | bool b => cases h
  | num q => cases h
  | obj fs => cases h
  | arr vs => cases h

theorem to_datetimeColT_ok_inv {t u : Table} {c : String}
    (h : to_datetimeColT t c = .ok u) :
    u.cols = t.cols ∧ ∃ i, colIdx c t.cols = some i ∧
      List.Forall₂ (fun r r2 => ∃ v, to_datetimeVal (getCell r i) = .ok v ∧
        r2 = r.set i v) t.rows u.rows := by
  unfold to_datetimeColT at h
  cases hc : colIdx c t.cols with
  | none => rw [hc] at h; cases h
  | some i =>
      simp only [hc] at h
      cases hm : mapRowsE (fun r => (to_datetimeVal (getCell r i)).map fun v => r.set i v) t.rows with
      | error e => rw [hm] at h; cases h
      | ok rs =>
          rw [hm] at h
          cases h
          refine ⟨rfl, i, rfl, ?_⟩
          have h2 := mapRowsE_ok_forall2 hm
          refine h2.imp ?_
          intro r r2 hr
          cases hv : to_datetimeVal (getCell r i) with
          | error e => rw [hv] at hr; cases hr
          | ok v =>
              rw [hv] at hr
              cases hr
              exact ⟨v, rfl, rfl⟩

theorem forall2_mem_right {α β : Type} {R : α → β → Prop} : ∀ {l1 : List α}
    {l2 : List β}, List.Forall₂ R l1 l2 → ∀ {b : β}, b ∈ l2 → ∃ a ∈ l1, R a b := by
  intro l1 l2 h
  induction h with
  | nil => intro b hb; cases hb
  | cons hr hrest ih =>
      intro b hb
      rcases List.mem_cons.1 hb with rfl | hb2
      · exact ⟨_, List.mem_cons_self _ _, hr⟩
      · rcases ih hb2 with ⟨a, ha, hab⟩
        exact ⟨a, List.mem_cons_of_mem _ ha, hab⟩

theorem to_datetimeColT_error_of_cell {t : Table} {c : String} {i : Nat}
    (hi : colIdx c t.cols = some i) {r : List Value} (hmem : r ∈ t.rows) {e : String}
    (he : to_datetimeVal (getCell r i) = .error e) :
    ∃ e2, to_datetimeColT t c = .error e2 := by
  have hcell : ((to_datetimeVal (getCell r i)).map fun v => r.set i v) = .error e := by
    rw [he]; rfl
  rcases @mapRowsE_error_of_mem (fun r2 => (to_datetimeVal (getCell r2 i)).map fun v => r2.set i v)
    t.rows r hmem e hcell with ⟨e2, he2⟩
  refine ⟨e2, ?_⟩
  unfold to_datetimeColT
  simp only [hi, he2]

theorem clean_orders_ok_inv {t u : Table} (h : clean_orders t = .ok u) :
    ∃ o, drop_duplicatesT (ordersStage1 t) = .ok o ∧
      to_datetimeColT (dropnaT o) "ordered_at" = .ok u := by
  rw [clean_orders_eq] at h
  cases hd : drop_duplicatesT (ordersStage1 t) with
  | error e => rw [hd] at h; cases h
  | ok o =>
      rw [hd] at h
      exact ⟨o, rfl, h⟩

theorem clean_orders_cols {t u : Table} (h : clean_orders t = .ok u) :
    u.cols = (ordersStage1 t).cols := by
  rcases clean_orders_ok_inv h with ⟨o, hd, hp⟩
  obtain ⟨hcols, _, _⟩ := drop_duplicatesT_ok_inv hd
  rw [(to_datetimeColT_ok_inv hp).1]
  exact hcols

theorem clean_orders_no_id {t u : Table} (h : clean_orders t = .ok u) :
    "id" ∉ u.cols := by
  rw [clean_orders_cols h]
  exact ordersStage1_not_id t

theorem clean_orders_order_id {t u : Table} (hid : "id" ∈ t.cols)
    (h : clean_orders t = .ok u) : "order_id" ∈ u.cols := by
  rw [clean_orders_cols h]
  exact ordersStage1_order_id hid

theorem getCell_set_self {r : List Value} {i : Nat} (h : i < r.length) (v : Value) :
    getCell (r.set i v) i = v := by
  unfold getCell
  have h2 : i < (r.set i v).length := by
    rw [List.length_set]
    exact h
  rw [List.getD_eq_getElem _ _ h2]
  exact List.getElem_set_eq h2

theorem clean_orders_ordered_at_ts {t u : Table} (hwf : wfTableB t = true)
    (h : clean_orders t = .ok u) {i : Nat}
    (hi : colIdx "ordered_at" u.cols = some i) :
    ∀ r ∈ u.rows, ∃ o, getCell r i = .ts o := by
  rcases clean_orders_ok_inv h with ⟨o, hd, hp⟩
  obtain ⟨hcols, hrows, _⟩ := drop_duplicatesT_ok_inv hd
  obtain ⟨hcols2, i2, hi2, hfa⟩ := to_datetimeColT_ok_inv hp
  have hii : i2 = i := by
    rw [hcols2, hi2] at hi
    exact Option.some.inj hi
  rw [← hii]
  intro r hr
  rcases forall2_mem_right hfa hr with ⟨r0, hr0, v, hv, rfl⟩
  have hlen : r0.length = t.cols.length := by
    have hm1 : r0 ∈ o.rows := mem_dropnaT hr0
    rw [hrows] at hm1
    have hm2 : r0 ∈ t.rows := by
      rw [← ordersStage1_rows t]
      exact mem_dedupKeepFirst.1 hm1
    exact wfTableB_iff.1 hwf r0 hm2
  have hi3 : colIdx "ordered_at" (ordersStage1 t).cols = some i2 := by
    rw [← hcols]
    exact hi2
  have hilt : i2 < r0.length := by
    rw [hlen, ← ordersStage1_cols_length t]
    exact colIdx_lt_length hi3
  rcases to_datetimeVal_ok_ts hv with ⟨ts0, rfl⟩
  exact ⟨ts0, getCell_set_self hilt _⟩

theorem clean_orders_allScalar {t u : Table} (h : clean_orders t = .ok u) :
    allScalarB u = true := by
  rcases clean_orders_ok_inv h with ⟨o, hd, hp⟩
  obtain ⟨hcols, hrows, hsc⟩ := drop_duplicatesT_ok_inv hd
  obtain ⟨_, i, hi, hfa⟩ := to_datetimeColT_ok_inv hp
  rw [allScalarB_iff]
  intro r hr v hv
  rcases forall2_mem_right hfa hr with ⟨r0, hr0, w, hw, rfl⟩
  rcases to_datetimeVal_ok_ts hw with ⟨ts0, rfl⟩
  rcases List.mem_or_eq_of_mem_set hv with hv0 | rfl
  · have hm1 : r0 ∈ o.rows := mem_dropnaT hr0
    rw [hrows] at hm1
    have hm2 : r0 ∈ t.rows := by
      rw [← ordersStage1_rows t]
      exact mem_dedupKeepFirst.1 hm1
    have hsc2 : allScalarB (ordersStage1 t) = true := hsc
    rw [allScalarB_iff] at hsc2
    exact hsc2 r0 (by rw [ordersStage1_rows]; exact hm2) v hv0
  · rfl

theorem readRef_append {s : Store} {q : Nat} (h : q < s.length) (l : List Table) :
    readRef (s ++ l) q = readRef s q := by
  unfold readRef
  exact List.getD_append s l _ q h

theorem readRef_writeRef_ne {s : Store} {q r : Nat} (h : r ≠ q) (t : Table) :
    readRef (writeRef s r t) q = readRef s q := by
  unfold readRef writeRef
  unfold List.getD
  rw [List.get?_set_ne t s h]

theorem clean_ticketsProg_frame {r : Nat} {s : Store} (hr : r < s.length)
    {p : Nat × Store} (h : clean_ticketsProg r s = .ok p) :
    readRef p.2 r = readRef s r := by
  unfold clean_ticketsProg at h
  set s1 := s ++ [applymapT _safe_serialize (readRef s r)] with hs1
  have hlen : s.length ≠ r := Nat.ne_of_gt hr
  have hread1 : readRef s1 r = readRef s r := readRef_append hr _
  set s2 := if "tags" ∈ (readRef s1 s.length).cols
    then writeRef s1 s.length (astypeStrColT (readRef s1 s.length) "tags") else s1 with hs2
  have hread2 : readRef s2 r = readRef s r := by
    rw [hs2]
    by_cases hc : "tags" ∈ (readRef s1 s.length).cols
    · rw [if_pos hc, readRef_writeRef_ne hlen, hread1]
    · rw [if_neg hc, hread1]
  simp only [allocRef] at h
  cases hd : drop_duplicatesT (readRef s2 s.length) with
  | error e =>
      rw [show (s ++ [applymapT _safe_serialize (readRef s r)]) = s1 from rfl] at h
      rw [← hs2] at h
      rw [hd] at h
      cases h
  | ok t2 =>
      rw [show (s ++ [applymapT _safe_serialize (readRef s r)]) = s1 from rfl] at h
      rw [← hs2] at h
      rw [hd] at h
      cases h
      simp only
      rw [readRef_writeRef_ne hlen, readRef_writeRef_ne hlen, hread2]

theorem create_average_order_valueProg_frame {r q : Nat} {s : Store} (hq : q < s.length)
    {p : Nat × Store} (h : create_average_order_valueProg r s = .ok p) :
    readRef p.2 q = readRef s q := by
  unfold create_average_order_valueProg at h
  cases hv : create_average_order_value (readRef s r) with
  | error e => rw [hv] at h; cases h
  | ok t =>
      rw [hv] at h
      cases h
      exact readRef_append hq _

theorem create_total_revenueProg_frame {r q : Nat} {s : Store} (hq : q < s.length)
    {p : Nat × Store} (h : create_total_revenueProg r s = .ok p) :
    readRef p.2 q = readRef s q := by
  unfold create_total_revenueProg at h
  cases hv : create_total_revenue (readRef s r) with
  | error e => rw [hv] at h; cases h
  | ok t =>
      rw [hv] at h
      cases h
      exact readRef_append hq _

theorem create_tickets_per_orderProg_frame {ro rt q : Nat} {s : Store} (hq : q < s.length)
    {p : Nat × Store} (h : create_tickets_per_orderProg ro rt s = .ok p) :
    readRef p.2 q = readRef s q := by
  unfold create_tickets_per_orderProg at h
  cases hm : mergeT (readRef s ro) (readRef s rt) "order_id" with
  | error e => rw [hm] at h; cases h
  | ok ot =>
      rw [hm] at h
      simp only [allocRef] at h
      cases hg : groupbyCountT (readRef (s ++ [ot]) s.length) "order_id" "ticket_id" with
      | error e => rw [hg] at h; cases h
      | ok g =>
          rw [hg] at h
          cases h
          simp only
          have hq1 : q < (s ++ [ot]).length := by
            rw [List.length_append]
            omega
          have hne : (s ++ [ot]).length ≠ q := by
            rw [List.length_append]
            omega
          rw [readRef_writeRef_ne hne, readRef_append hq1, readRef_append hq]

theorem insertSortedV_perm (a : Value) (l : List Value) :
    (insertSortedV a l).Perm (a :: l) := by
  induction l with
  | nil => exact List.Perm.refl _
  | cons b l ih =>
      unfold insertSortedV
      by_cases h : valueLe a b = true
      · rw [if_pos h]
      · rw [if_neg h]
        exact (ih.cons b).trans (List.Perm.swap a b l)

theorem sortValues_perm (l : List Value) : (sortValues l).Perm l := by
  induction l with
  | nil => exact List.Perm.refl _
  | cons a l ih =>
      have hstep : sortValues (a :: l) = insertSortedV a (sortValues l) := rfl
      rw [hstep]
      exact (insertSortedV_perm a _).trans (ih.cons a)

theorem mem_sortValues {l : List Value} {a : Value} : a ∈ sortValues l ↔ a ∈ l :=
  (sortValues_perm l).mem_iff

theorem nodup_sortValues {l : List Value} (h : l.Nodup) : (sortValues l).Nodup :=
  ((sortValues_perm l).nodup_iff).2 h

theorem getCell_append_left {rl : List Value} (x : List Value) {i : Nat}
    (h : i < rl.length) : getCell (rl ++ x) i = getCell rl i := by
  unfold getCell
  exact List.getD_append rl x _ i h

theorem getCell_append_right (rl x : List Value) (j : Nat) :
    getCell (rl ++ x) (rl.length + j) = getCell x j := by
  induction rl with
  | nil => show getCell x (0 + j) = getCell x j; rw [Nat.zero_add]
  | cons a rl ih =>
      show getCell (a :: (rl ++ x)) (rl.length + 1 + j) = getCell x j
      have heq : rl.length + 1 + j = (rl.length + j) + 1 := by omega
      rw [heq]
      show (rl ++ x).getD (rl.length + j) .null = getCell x j
      exact ih

theorem suffixCols_eq_self {own other : List String} {key suf : String}
    (h : ∀ c ∈ own, c ≠ key → c ∉ other) :
    suffixCols own other key suf = own := by
  induction own with
  | nil => rfl
  | cons c cs ih =>
      unfold suffixCols
      simp only [List.map_cons]
      have hcond : (decide (c ≠ key) && other.contains c) = false := by
        by_cases hk : c = key
        · simp [hk]
        · have := h c (List.mem_cons_self _ _) hk
          simp [hk, this]
      rw [if_neg (by rw [hcond]; exact Bool.false_ne_true)]
      have ihh : suffixCols cs other key suf = cs :=
        ih fun d hd => h d (List.mem_cons_of_mem _ hd)
      unfold suffixCols at ihh
      rw [ihh]

theorem not_mem_eraseIdx_of_colIdx : ∀ {cols : List String} {key : String} {ir : Nat},
    cols.Nodup → colIdx key cols = some ir → key ∉ cols.eraseIdx ir := by
  intro cols
  induction cols with
  | nil => intro key ir _ hc; simp [colIdx] at hc
  | cons c cs ih =>
      intro key ir hnd hc
      simp only [colIdx] at hc
      by_cases hk : key = c
      · simp only [if_pos hk, Option.some.injEq] at hc
        subst hc
        subst hk
        simpa [List.eraseIdx] using (List.nodup_cons.1 hnd).1
      · simp only [if_neg hk, Option.map_eq_some'] at hc
        rcases hc with ⟨j, hj, rfl⟩
        have := ih (List.nodup_cons.1 hnd).2 hj
        simp only [List.eraseIdx, List.mem_cons, not_or]
        exact ⟨hk, this⟩

theorem mem_eraseIdx_of_ne : ∀ {cols : List String} {key a : String} {ir : Nat},
    colIdx key cols = some ir → a ∈ cols → a ≠ key → a ∈ cols.eraseIdx ir := by
  intro cols
  induction cols with
  | nil => intro key a ir hc; simp [colIdx] at hc
  | cons c cs ih =>
      intro key a ir hc ha hne
      simp only [colIdx] at hc
      by_cases hk : key = c
      · simp only [if_pos hk, Option.some.injEq] at hc
        subst hc
        subst hk
        simp only [List.eraseIdx]
        rcases List.mem_cons.1 ha with rfl | ha2
        · exact absurd rfl hne
        · exact ha2
      · simp only [if_neg hk, Option.map_eq_some'] at hc
        rcases hc with ⟨j, hj, rfl⟩
        simp only [List.eraseIdx, List.mem_cons]
        rcases List.mem_cons.1 ha with rfl | ha2
        · exact Or.inl rfl
        · exact Or.inr (ih hj ha2 hne)

theorem length_filter_flatMap_eq {α β : Type} (l : List α) (f : α → List β) (p : β → Bool) :
    ((l.flatMap f).filter p).length = (l.map fun a => ((f a).filter p).length).sum := by
  rw [List.filter_flatMap, List.length_flatMap]
  simp [Function.comp_def]

theorem filter_map_comm {α β : Type} (l : List α) (g : α → β) (p : β → Bool) :
    (l.map g).filter p = (l.filter fun a => p (g a)).map g := by
  simp [List.filter_map]
  rfl

theorem sum_ite_count {α : Type} (l : List α) (key : α → Value) (k : Value) (m : Nat) :
    (l.map fun a => if key a = k then m else 0).sum = (l.map key).count k * m := by
  induction l with
  | nil => simp
  | cons a l ih =>
      simp only [List.map_cons, List.sum_cons, List.count_cons, ih]
      by_cases h : key a = k
      · have hb : (key a == k) = true := by
          rw [beq_iff_eq]
          exact h
        rw [if_pos h, hb]
        simp
        ring
      · have hb : (key a == k) = false := by
          rw [beq_eq_false_iff_ne]
          exact h
        rw [if_neg h, hb]
        simp

theorem mergeT_eq {orders tickets : Table} {il ir : Nat}
    (hil : colIdx "order_id" orders.cols = some il)
    (hir : colIdx "order_id" tickets.cols = some ir)
    (hndt : tickets.cols.Nodup)
    (hshared : ∀ c ∈ orders.cols, c ∈ tickets.cols → c = "order_id") :
    mergeT orders tickets "order_id" = .ok
      ⟨orders.cols ++ tickets.cols.eraseIdx ir,
       orders.rows.flatMap fun rl =>
         (tickets.rows.filter fun rr => getCell rr ir == getCell rl il).map
           fun rr => rl ++ rr.eraseIdx ir⟩ := by
  have hsl : suffixCols orders.cols (tickets.cols.eraseIdx ir) "order_id" "_x" =
      orders.cols := by
    apply suffixCols_eq_self
    intro c hc hne hmem
    exact hne (hshared c hc ((List.eraseIdx_sublist _ _).mem hmem))
  have hsr : suffixCols (tickets.cols.eraseIdx ir) orders.cols "order_id" "_y" =
      tickets.cols.eraseIdx ir := by
    apply suffixCols_eq_self
    intro c hc hne hmem
    have hco : c = "order_id" :=
      hshared c hmem ((List.eraseIdx_sublist _ _).mem hc)
    subst hco
    exact not_mem_eraseIdx_of_colIdx hndt hir hc
  unfold mergeT
  rw [hil, hir]
  show Except.ok (Table.mk
      (suffixCols orders.cols (tickets.cols.eraseIdx ir) "order_id" "_x" ++
       suffixCols (tickets.cols.eraseIdx ir) orders.cols "order_id" "_y")
      (orders.rows.flatMap fun rl =>
        (tickets.rows.filter fun rr => getCell rr ir == getCell rl il).map
          fun rr => rl ++ rr.eraseIdx ir)) = _
  rw [hsl, hsr]

theorem tickets_per_order_spec {orders tickets : Table} {il ir : Nat}
    (hil : colIdx "order_id" orders.cols = some il)
    (hir : colIdx "order_id" tickets.cols = some ir)
    (hwo : wfTableB orders = true)
    (hwt : wfTableB tickets = true)
    (hndt : tickets.cols.Nodup)
    (hshared : ∀ c ∈ orders.cols, c ∈ tickets.cols → c = "order_id")
    (htid : "ticket_id" ∈ tickets.cols)
    (hknd : (keyCells orders il).Nodup)
    (hkna : ∀ v ∈ keyCells orders il, v.isna = false)
    (htna : noNullsB tickets = true) :
    ∃ out, create_tickets_per_order orders tickets = .ok out ∧
      out.cols = ["order_id", "number_of_tickets"] ∧
      (∀ row ∈ out.rows, ∃ k, k ∈ keyCells orders il ∧ k ∈ keyCells tickets ir ∧
          row = [k, .num (matchCount tickets ir k)]) ∧
      (∀ k, k ∈ keyCells orders il → k ∈ keyCells tickets ir →
          [k, .num (matchCount tickets ir k)] ∈ out.rows) ∧
      (out.rows.map fun row => getCell row 0).Nodup := by
  have hilL : il < orders.cols.length := colIdx_lt_length hil
  have hirL : ir < tickets.cols.length := colIdx_lt_length hir
  -- the merged table
  set Mrows : List (List Value) := orders.rows.flatMap fun rl =>
    (tickets.rows.filter fun rr => getCell rr ir == getCell rl il).map
      fun rr => rl ++ rr.eraseIdx ir with hMrows
  set Mcols : List String := orders.cols ++ tickets.cols.eraseIdx ir with hMcols
  have hmerge : mergeT orders tickets "order_id" = .ok ⟨Mcols, Mrows⟩ :=
    mergeT_eq hil hir hndt hshared
  -- column positions in the merged table
  have hikM : colIdx "order_id" Mcols = some il := colIdx_append_left hil
  have htidO : "ticket_id" ∉ orders.cols := by
    intro h
    have := hshared "ticket_id" h htid
    exact absurd this (by decide)
  have htidE : "ticket_id" ∈ tickets.cols.eraseIdx ir :=
    mem_eraseIdx_of_ne hir htid (by decide)
  rcases Option.isSome_iff_exists.1 (colIdx_isSome_of_mem htidE) with ⟨jc, hjc⟩
  have hicM : colIdx "ticket_id" Mcols = some (jc + orders.cols.length) := by
    rw [hMcols, colIdx_append_right htidO, hjc]
    rfl
  have hjcL : jc < (tickets.cols.eraseIdx ir).length := colIdx_lt_length hjc
  have heraseL : (tickets.cols.eraseIdx ir).length = tickets.cols.length - 1 := by
    rw [List.length_eraseIdx]
    rw [if_pos hirL]
  -- a merged row decomposes into its left and right parents
  have hrowlen : ∀ rl ∈ orders.rows, rl.length = orders.cols.length :=
    wfTableB_iff.1 hwo
  have htrowlen : ∀ rr ∈ tickets.rows, rr.length = tickets.cols.length :=
    wfTableB_iff.1 hwt
  have hMdec : ∀ row ∈ Mrows, ∃ rl ∈ orders.rows, ∃ rr ∈ tickets.rows,
      getCell rr ir = getCell rl il ∧ row = rl ++ rr.eraseIdx ir := by
    intro row hrow
    rw [hMrows] at hrow
    rcases List.mem_flatMap.1 hrow with ⟨rl, hrl, hin⟩
    rcases List.mem_map.1 hin with ⟨rr, hrr, rfl⟩
    have h1 := (List.mem_filter.1 hrr).1
    have h2 := beq_iff_eq.1 (List.mem_filter.1 hrr).2
    exact ⟨rl, hrl, rr, h1, h2, rfl⟩
  have hMkey : ∀ rl ∈ orders.rows, ∀ (x : List Value),
      getCell (rl ++ x) il = getCell rl il := by
    intro rl hrl x
    exact getCell_append_left x (by rw [hrowlen rl hrl]; exact hilL)
  -- the ticket_id cell of a merged row is never missing
  have hticketCell : ∀ rl ∈ orders.rows, ∀ rr ∈ tickets.rows,
      (getCell (rl ++ rr.eraseIdx ir) (jc + orders.cols.length)).isna = false := by
    intro rl hrl rr hrr
    have hL : jc + orders.cols.length = rl.length + jc := by
      rw [hrowlen rl hrl]
      omega
    rw [hL, getCell_append_right]
    have hjr : jc < (rr.eraseIdx ir).length := by
      rw [List.length_eraseIdx]
      rw [if_pos (by rw [htrowlen rr hrr]; exact hirL)]
      rw [htrowlen rr hrr]
      omega
    have hcell : getCell (rr.eraseIdx ir) jc ∈ rr.eraseIdx ir := by
      unfold getCell
      rw [List.getD_eq_getElem _ _ hjr]
      exact List.getElem_mem hjr
    have hmem : getCell (rr.eraseIdx ir) jc ∈ rr :=
      (List.eraseIdx_sublist _ _).mem hcell
    exact noNullsB_iff.1 htna rr hrr _ hmem
  -- merged keys are exactly the orders keys with at least one ticket
  have hmergedKeys : ∀ k, k ∈ Mrows.map (fun row => getCell row il) ↔
      (k ∈ keyCells orders il ∧ k ∈ keyCells tickets ir) := by
    intro k
    constructor
    · intro hk
      rcases List.mem_map.1 hk with ⟨row, hrow, rfl⟩
      rcases hMdec row hrow with ⟨rl, hrl, rr, hrr, hkey, rfl⟩
      rw [hMkey rl hrl]
      constructor
      · exact List.mem_map.2 ⟨rl, hrl, rfl⟩
      · exact List.mem_map.2 ⟨rr, hrr, hkey⟩
    · rintro ⟨hko, hkt⟩
      rcases List.mem_map.1 hko with ⟨rl, hrl, rfl⟩
      rcases List.mem_map.1 hkt with ⟨rr, hrr, hkey⟩
      refine List.mem_map.2 ⟨rl ++ rr.eraseIdx ir, ?_, hMkey rl hrl _⟩
      rw [hMrows]
      refine List.mem_flatMap.2 ⟨rl, hrl, ?_⟩
      refine List.mem_map.2 ⟨rr, ?_, rfl⟩
      exact List.mem_filter.2 ⟨hrr, beq_iff_eq.2 hkey⟩
  -- missing-key filtering is the identity here
  have hfilterKeys : (Mrows.map fun row => getCell row il).filter
      (fun v => !v.isna) = Mrows.map fun row => getCell row il := by
    apply List.filter_eq_self.2
    intro v hv
    have hvo := ((hmergedKeys v).1 hv).1
    rw [hkna v hvo]
    rfl
  -- the group count of a key equals its ticket match count
  have hcount : ∀ k ∈ keyCells orders il,
      (Mrows.filter fun row => getCell row il == k &&
        !(getCell row (jc + orders.cols.length)).isna).length =
      matchCount tickets ir k := by
    intro k hk
    rw [hMrows, length_filter_flatMap_eq]
    have hinner : ∀ rl ∈ orders.rows,
        ((((tickets.rows.filter fun rr => getCell rr ir == getCell rl il).map
            fun rr => rl ++ rr.eraseIdx ir).filter fun row =>
          getCell row il == k &&
            !(getCell row (jc + orders.cols.length)).isna).length) =
        if getCell rl il = k then matchCount tickets ir k else 0 := by
      intro rl hrl
      rw [filter_map_comm, List.length_map]
      have hpred : ∀ rr ∈ tickets.rows.filter
          (fun rr => getCell rr ir == getCell rl il),
          ((fun row => getCell row il == k &&
              !(getCell row (jc + orders.cols.length)).isna)
            ((fun rr => rl ++ rr.eraseIdx ir) rr)) =
          (getCell rl il == k) := by
        intro rr hrr
        show (getCell (rl ++ rr.eraseIdx ir) il == k &&
            !(getCell (rl ++ rr.eraseIdx ir) (jc + orders.cols.length)).isna) = _
        rw [hMkey rl hrl, hticketCell rl hrl rr (List.mem_filter.1 hrr).1]
        rw [Bool.not_false, Bool.and_true]
      rw [List.filter_congr hpred]
      by_cases hkl : getCell rl il = k
      · rw [if_pos hkl]
        have hb : (getCell rl il == k) = true := beq_iff_eq.2 hkl
        rw [hb, List.filter_true]
        unfold matchCount
        congr 1
        apply List.filter_congr
        intro rr _
        rw [hkl]
      · rw [if_neg hkl]
        have hb : (getCell rl il == k) = false := beq_eq_false_iff_ne.2 hkl
        rw [hb]
        rw [List.filter_false, List.length_nil]
    rw [List.map_congr_left hinner, sum_ite_count]
    have hone : (keyCells orders il).count k = 1 :=
      List.count_eq_one_of_mem hknd hk
    have : (orders.rows.map fun rl => getCell rl il) = keyCells orders il := rfl
    rw [this, hone, Nat.one_mul]
  -- evaluate the groupby step
  have hgroup : groupbyCountT ⟨Mcols, Mrows⟩ "order_id" "ticket_id" =
      .ok ⟨["order_id", "ticket_id"],
        (sortValues (dedupKeepFirst
            ((Mrows.map fun r => getCell r il).filter fun v => !v.isna))).map
          fun k => [k, .num ((Mrows.filter fun r =>
              getCell r il == k && !(getCell r (jc + orders.cols.length)).isna).length : Nat)]⟩ := by
    unfold groupbyCountT
    rw [show (⟨Mcols, Mrows⟩ : Table).cols = Mcols from rfl, hikM, hicM]
  have hout : create_tickets_per_order orders tickets = .ok
      ⟨["order_id", "number_of_tickets"],
        (sortValues (dedupKeepFirst
            ((Mrows.map fun r => getCell r il).filter fun v => !v.isna))).map
          fun k => [k, .num ((Mrows.filter fun r =>
              getCell r il == k && !(getCell r (jc + orders.cols.length)).isna).length : Nat)]⟩ := by
    unfold create_tickets_per_order
    rw [hmerge]
    show (match groupbyCountT ⟨Mcols, Mrows⟩ "order_id" "ticket_id" with
      | Except.error e => (Except.error e : Except String Table)
      | Except.ok tpo => Except.ok (renameColT tpo "ticket_id" "number_of_tickets")) = _
    rw [hgroup]
    rfl
  -- the sorted distinct key list
  set K : List Value := sortValues (dedupKeepFirst
      ((Mrows.map fun r => getCell r il).filter fun v => !v.isna)) with hK
  have hKmem : ∀ k, k ∈ K ↔ (k ∈ keyCells orders il ∧ k ∈ keyCells tickets ir) := by
    intro k
    rw [hK, mem_sortValues, mem_dedupKeepFirst, hfilterKeys]
    exact hmergedKeys k
  have hKnd : K.Nodup := by
    rw [hK]
    exact nodup_sortValues (nodup_dedupKeepFirst _)
  refine ⟨_, hout, rfl, ?_, ?_, ?_⟩
  · intro row hrow
    rcases List.mem_map.1 hrow with ⟨k, hkK, rfl⟩
    have hk2 := (hKmem k).1 hkK
    refine ⟨k, hk2.1, hk2.2, ?_⟩
    rw [hcount k hk2.1]
  · intro k hko hkt
    have hkK : k ∈ K := (hKmem k).2 ⟨hko, hkt⟩
    refine List.mem_map.2 ⟨k, hkK, ?_⟩
    rw [hcount k hko]
  · rw [List.map_map]
    have heq : ((fun row => getCell row 0) ∘ fun k =>
        ([k, Value.num ((Mrows.filter fun r =>
          getCell r il == k && !(getCell r (jc + orders.cols.length)).isna).length : Nat)] :
            List Value)) = id := by
      funext k
      rfl
    rw [heq, List.map_id]
    exact hKnd

theorem list_set_getElem_self {α : Type} (l : List α) (i : Nat) (h : i < l.length) :
    l.set i l[i] = l := by
  apply List.ext_getElem
  · simp
  · intro n h1 h2
    by_cases hn : i = n
    · subst hn
      simp
    · rw [List.getElem_set_ne hn]

theorem isNested_of_pyEq {u v : Value} (h : pyEq u v = true) :
    u.isNested = v.isNested := by
  cases u <;> cases v <;> first
    | rfl
    | (exfalso; revert h; simp [pyEq, Value.beq])

theorem jsonDumps_eq_of_pyEq {u v : Value} (hwu : wfV u = true) (hwv : wfV v = true)
    (hpe : pyEq u v = true) : jsonDumps u = jsonDumps v := by
  unfold jsonDumps
  rw [canon_eq_of_pyEq hwu hwv hpe]

theorem safe_serialize_eq_of_pyEq {u v : Value} (hnu : u.isNested = true)
    (hwu : wfV u = true) (hwv : wfV v = true) (hsu : serializableV u = true)
    (hsv : serializableV v = true) (hpe : pyEq u v = true) :
    _safe_serialize u = _safe_serialize v := by
  have hnv : v.isNested = true := by
    rw [← isNested_of_pyEq hpe]
    exact hnu
  unfold _safe_serialize
  rw [if_pos hnu, if_pos hnv, if_pos hsu, if_pos hsv,
    jsonDumps_eq_of_pyEq hwu hwv hpe]

theorem stageRow_eq_of_map_eq {cols : List String} {r1 r2 : List Value}
    (h : r1.map _safe_serialize = r2.map _safe_serialize) :
    stageRow cols r1 = stageRow cols r2 := by
  unfold stageRow
  cases colIdx "tags" cols with
  | none => exact h
  | some i => rw [h]

theorem map_safe_serialize_set {r : List Value} {it : Nat} (hit : it < r.length)
    {u v : Value} (hu : getCell r it = u)
    (hfeq : _safe_serialize v = _safe_serialize u) :
    (r.set it v).map _safe_serialize = r.map _safe_serialize := by
  rw [List.map_set, hfeq]
  have hit2 : it < (r.map _safe_serialize).length := by
    rw [List.length_map]
    exact hit
  have hcell : r[it] = u := by
    rw [← hu]
    unfold getCell
    rw [List.getD_eq_getElem _ _ hit]
  have hmapcell : (r.map _safe_serialize)[it] = _safe_serialize u := by
    rw [List.getElem_map, hcell]
  rw [← hmapcell]
  exact list_set_getElem_self _ _ hit2

theorem ticketsStage_mk (cols : List String) (rows : List (List Value)) :
    ticketsStage ⟨cols, rows⟩ = ⟨cols, rows.map (stageRow cols)⟩ := by
  unfold ticketsStage
  by_cases hmem : "tags" ∈ cols
  · have hmem2 : "tags" ∈ (applymapT _safe_serialize ⟨cols, rows⟩).cols := hmem
    rw [if_pos hmem2]
    rcases Option.isSome_iff_exists.1 (colIdx_isSome_of_mem hmem) with ⟨i, hi⟩
    show astypeStrColT ⟨cols, rows.map fun r => r.map _safe_serialize⟩ "tags" = _
    unfold astypeStrColT
    simp only [hi]
    rw [List.map_map]
    congr 1
    apply List.map_congr_left
    intro r _
    simp only [Function.comp_apply, stageRow, hi]
  · have hmem2 : "tags" ∉ (applymapT _safe_serialize ⟨cols, rows⟩).cols := hmem
    rw [if_neg hmem2]
    unfold applymapT
    congr 1
    have hi := colIdx_none_of_not_mem hmem
    apply List.map_congr_left
    intro r _
    simp only [stageRow, hi]

theorem getCell_map (f : Value → Value) {r : List Value} {i : Nat} (h : i < r.length) :
    getCell (r.map f) i = f (getCell r i) := by
  unfold getCell
  rw [List.getD_eq_getElem _ _ (by rw [List.length_map]; exact h),
    List.getD_eq_getElem _ _ h, List.getElem_map]

theorem stageRow_getCell_tags {cols : List String} {r : List Value} {it : Nat}
    (hi : colIdx "tags" cols = some it) (hit : it < r.length) :
    getCell (stageRow cols r) it =
      .str (pyStr (_safe_serialize (getCell r it))) := by
  unfold stageRow
  simp only [hi]
  have hlen : it < (r.map _safe_serialize).length := by
    rw [List.length_map]
    exact hit
  rw [getCell_set_self hlen, getCell_map _ hit]

theorem stageRow_no_na {cols : List String} {r : List Value} {it : Nat}
    (hi : colIdx "tags" cols = some it) (hit : it < r.length)
    (hothers : ∀ j, j < r.length → j ≠ it → (getCell r j).isna = false) :
    (stageRow cols r).any Value.isna = false := by
  apply List.any_eq_false.2
  intro cell hcell
  unfold stageRow at hcell
  simp only [hi] at hcell
  rcases List.mem_iff_getElem.1 hcell with ⟨j, hj, rfl⟩
  have hj2 : j < r.length := by
    rw [List.length_set, List.length_map] at hj
    exact hj
  by_cases hji : it = j
  · subst hji
    rw [List.getElem_set_eq hj]
    simp [Value.isna]
  · rw [List.getElem_set_ne hji, List.getElem_map]
    have hcellj : r[j] = getCell r j := by
      unfold getCell
      rw [List.getD_eq_getElem _ _ hj2]
    rw [hcellj]
    intro hna
    rw [safe_serialize_isna] at hna
    rw [hothers j hj2 (fun he => hji he.symm)] at hna
    cases hna

theorem clean_tickets_collapse {cols : List String} {r : List Value} {it : Nat}
    (hit : it < r.length) {u v : Value} (hu : getCell r it = u)
    (hnu : u.isNested = true) (hwu : wfV u = true) (hwv : wfV v = true)
    (hsu : serializableV u = true) (hsv : serializableV v = true)
    (hpe : pyEq u v = true) :
    clean_tickets ⟨cols, [r, r.set it v]⟩ = clean_tickets ⟨cols, [r]⟩ := by
  have hfeq : _safe_serialize v = _safe_serialize u :=
    (safe_serialize_eq_of_pyEq hnu hwu hwv hsu hsv hpe).symm
  have hmap := map_safe_serialize_set hit hu hfeq
  have hs : stageRow cols (r.set it v) = stageRow cols r := stageRow_eq_of_map_eq hmap
  rw [clean_tickets_eq, clean_tickets_eq, ticketsStage_mk, ticketsStage_mk]
  simp only [List.map_cons, List.map_nil, hs]
  have hd : dedupKeepFirst [stageRow cols r, stageRow cols r] =
      dedupKeepFirst [stageRow cols r] := by
    simp [dedupKeepFirst, dedupAux]
  rw [hd]

theorem clean_tickets_single_row {cols : List String} {r : List Value}
    (hna : (stageRow cols r).any Value.isna = false) :
    clean_tickets ⟨cols, [r]⟩ = .ok ⟨cols, [stageRow cols r]⟩ := by
  rw [clean_tickets_eq, ticketsStage_mk]
  simp only [List.map_cons, List.map_nil]
  have hd : dedupKeepFirst [stageRow cols r] = [stageRow cols r] := by
    simp [dedupKeepFirst, dedupAux]
  rw [hd]
  unfold dropnaT
  simp [hna]

theorem clean_tickets_tags_na_survives {t : Table} {r : List Value} {it : Nat}
    (hwf : wfTableB t = true) (hmem : r ∈ t.rows)
    (hi : colIdx "tags" t.cols = some it)
    (hothers : ∀ j, j < r.length → j ≠ it → (getCell r j).isna = false)
    {u : Table} (h : clean_tickets t = .ok u) :
    stageRow t.cols r ∈ u.rows ∧
      getCell (stageRow t.cols r) it =
        .str (pyStr (_safe_serialize (getCell r it))) := by
  have hit : it < r.length := by
    rw [wfTableB_iff.1 hwf r hmem]
    exact colIdx_lt_length hi
  rw [clean_tickets_eq] at h
  cases h
  have hrows : (ticketsStage t).rows = t.rows.map (stageRow t.cols) := by
    have := ticketsStage_mk t.cols t.rows
    rw [show (⟨t.cols, t.rows⟩ : Table) = t from rfl] at this
    rw [this]
  constructor
  · apply List.mem_filter.2
    constructor
    · apply mem_dedupKeepFirst.2
      rw [hrows]
      exact List.mem_map.2 ⟨r, hmem, rfl⟩
    · rw [stageRow_no_na hi hit hothers]
      rfl
  · exact stageRow_getCell_tags hi hit

theorem isna_false_of_isNested {v : Value} (h : v.isNested = true) :
    v.isna = false := by
  cases v <;> first | rfl | (exfalso; revert h; simp [Value.isNested])

theorem stageRow_no_na_nested {cols : List String} {r : List Value} {it : Nat}
    (hit : it < r.length) (hu : (getCell r it).isNested = true)
    (hothers : ∀ j, j < r.length → j ≠ it → (getCell r j).isna = false) :
    (stageRow cols r).any Value.isna = false := by
  have hcell : ∀ j, j < r.length → (getCell r j).isna = false := by
    intro j hj
    by_cases hji : j = it
    · subst hji
      exact isna_false_of_isNested hu
    · exact hothers j hj hji
  apply List.any_eq_false.2
  intro cell hcl
  unfold stageRow at hcl
  cases hcol : colIdx "tags" cols with
  | none =>
      rw [hcol] at hcl
      rcases List.mem_iff_getElem.1 hcl with ⟨j, hj, rfl⟩
      have hj2 : j < r.length := by
        rw [List.length_map] at hj
        exact hj
      rw [List.getElem_map]
      have hcellj : r[j] = getCell r j := by
        unfold getCell
        rw [List.getD_eq_getElem _ _ hj2]
      rw [hcellj]
      intro hna
      rw [safe_serialize_isna, hcell j hj2] at hna
      cases hna
  | some itags =>
      rw [hcol] at hcl
      rcases List.mem_iff_getElem.1 hcl with ⟨j, hj, rfl⟩
      have hj2 : j < r.length := by
        rw [List.length_set, List.length_map] at hj
        exact hj
      by_cases hji : itags = j
      · subst hji
        rw [List.getElem_set_eq hj]
        simp [Value.isna]
      · rw [List.getElem_set_ne hji, List.getElem_map]
        have hcellj : r[j] = getCell r j := by
          unfold getCell
          rw [List.getD_eq_getElem _ _ hj2]
        rw [hcellj]
        intro hna
        rw [safe_serialize_isna, hcell j hj2] at hna
        cases hna

theorem clean_orders_preParse {t t1 : Table} (h : ordersPreParse t = .ok t1) :
    clean_orders t = to_datetimeColT t1 "ordered_at" := by
  unfold ordersPreParse at h
  rw [clean_orders_eq]
  cases hd : drop_duplicatesT (ordersStage1 t) with
  | error e => rw [hd] at h; cases h
  | ok o =>
      rw [hd] at h
      cases h
      rfl

theorem ordersPreParse_rows_of_ok {t u t1 : Table} (h : clean_orders t = .ok u)
    (h1 : ordersPreParse t = .ok t1) : u.rows.length = t1.rows.length := by
  rw [clean_orders_preParse h1] at h
  obtain ⟨_, i, _, hfa⟩ := to_datetimeColT_ok_inv h
  exact hfa.length_eq.symm

/-- C1: the spec claims every cleaned table has pairwise-distinct rows, no
missing values, and only scalar cells.  Corrected: the claim holds in full
for `clean_customers` and `clean_tickets`, but for `clean_orders` only the
all-scalar part survives — parsing `ordered_at` after the dedup and
null-drop steps can merge previously distinct rows (see `C1_cex`) and can
reintroduce missing values from empty strings. -/
theorem C1_amended :
    (∀ t u : Table, clean_customers t = .ok u →
      noDupRowsP u ∧ noNullsB u = true ∧ allScalarB u = true) ∧
    (∀ t u : Table, clean_tickets t = .ok u →
      noDupRowsP u ∧ noNullsB u = true ∧ allScalarB u = true) ∧
    (∀ t u : Table, clean_orders t = .ok u → allScalarB u = true) :=
  ⟨fun _ _ h => clean_customers_invariants h,
   fun _ _ h => clean_tickets_invariants h,
   fun _ _ h => clean_orders_allScalar h⟩

/-- C1 witness: `C1_amended` applied to a concrete customers table with a
duplicate row and a missing value. -/
theorem C1_witness :
    noDupRowsP (⟨["id"], [[Value.str "a"]]⟩ : Table) ∧
    noNullsB (⟨["id"], [[Value.str "a"]]⟩ : Table) = true ∧
    allScalarB (⟨["id"], [[Value.str "a"]]⟩ : Table) = true :=
  C1_amended.1 ⟨["id"], [[.str "a"], [.str "a"], [.null]]⟩ ⟨["id"], [[.str "a"]]⟩ rfl

/-- C1 counterexample: `clean_orders` on two distinct raw rows whose
`ordered_at` strings denote the same instant returns a table with two
exactly equal rows, violating the claimed row-distinctness invariant. -/
theorem C1_cex : clean_orders c1OrdersIn = .ok c1OrdersOut ∧
    ¬ noDupRowsP c1OrdersOut :=
  ⟨rfl, fun h => (List.pairwise_cons.1 h).1 _ (List.mem_cons_self _ _) rfl⟩

/-- C2: the spec claims the serializer sends structurally-equal nested
values (regardless of key order) to byte-identical canonical strings with
sorted keys, and passes scalars through unchanged.  Corrected: this holds
when `json.dumps` succeeds on the value; when a leaf is not JSON
serializable the `str(x)` fallback preserves insertion order and breaks
byte-identity (see `C2_cex`). -/
theorem C2_amended :
    (∀ u v : Value, u.isNested = true → wfV u = true → wfV v = true →
      serializableV u = true → serializableV v = true → pyEq u v = true →
      _safe_serialize u = _safe_serialize v) ∧
    (∀ fs : List (String × Value), ∃ gs, canon (.obj fs) = .obj gs ∧
      gs.Pairwise (fun a b => strLe a.1 b.1 = true)) ∧
    (∀ v : Value, v.isNested = false → _safe_serialize v = v) :=
  ⟨fun _ _ h1 h2 h3 h4 h5 h6 => safe_serialize_eq_of_pyEq h1 h2 h3 h4 h5 h6,
   fun fs => ⟨sortFields (canonFields fs), rfl, sortFields_sorted _⟩,
   fun _ h => safe_serialize_scalar h⟩

/-- C2 witness: `C2_amended` applied to a serializable mapping given in
two different key orders, and to a scalar. -/
theorem C2_witness :
    _safe_serialize (.obj [("a", .num 1), ("b", .arr [.str "x"])]) =
      _safe_serialize (.obj [("b", .arr [.str "x"]), ("a", .num 1)]) ∧
    _safe_serialize (.str "s") = .str "s" :=
  ⟨C2_amended.1 (.obj [("a", .num 1), ("b", .arr [.str "x"])])
      (.obj [("b", .arr [.str "x"]), ("a", .num 1)])
      rfl (by decide) (by decide) (by decide) (by decide) (by decide),
   C2_amended.2.2 (.str "s") rfl⟩

/-- C2 counterexample: two structurally-equal mappings holding a timestamp
leaf (so `json.dumps` raises and the `str(x)` fallback runs) serialize to
different strings depending on key-insertion order. -/
theorem C2_cex : pyEq c2Fallback1 c2Fallback2 = true ∧
    c2Fallback1.isNested = true ∧
    _safe_serialize c2Fallback1 ≠ _safe_serialize c2Fallback2 :=
  ⟨by decide, rfl, by decide⟩

/-- C3: the spec claims two ticket rows equal everywhere except for
key-order of their structurally-equal nested `tags` collapse to one row,
with an all-scalar output.  Corrected: the collapse holds when the nested
value is JSON-serializable; with a non-serializable leaf the `str(x)`
fallback keeps the two rows distinct (see `C3_cex`).  The all-scalar part
holds unconditionally (it is the tickets conjunct of `C1_amended`; here
the output of the collapsed table is computed explicitly). -/
theorem C3_amended : ∀ (cols : List String) (r : List Value) (it : Nat)
    (u v : Value), it < r.length → getCell r it = u → u.isNested = true →
    wfV u = true → wfV v = true → serializableV u = true →
    serializableV v = true → pyEq u v = true →
    (∀ j, j < r.length → j ≠ it → (getCell r j).isna = false) →
    clean_tickets ⟨cols, [r, r.set it v]⟩ = clean_tickets ⟨cols, [r]⟩ ∧
    clean_tickets ⟨cols, [r, r.set it v]⟩ = .ok ⟨cols, [stageRow cols r]⟩ ∧
    allScalarB (⟨cols, [stageRow cols r]⟩ : Table) = true := by
  intro cols r it u v hit hu hnu hwu hwv hsu hsv hpe hothers
  have hcol := @clean_tickets_collapse cols r it hit u v hu hnu hwu hwv hsu hsv hpe
  have hna : (stageRow cols r).any Value.isna = false :=
    stageRow_no_na_nested hit (by rw [hu]; exact hnu) hothers
  have hone := clean_tickets_single_row hna
  refine ⟨hcol, hcol.trans hone, ?_⟩
  rw [allScalarB_iff]
  intro row hrow cell hcell
  rcases List.mem_cons.1 hrow with rfl | h0
  · unfold stageRow at hcell
    cases hcol2 : colIdx "tags" cols with
    | none =>
        rw [hcol2] at hcell
        rcases List.mem_map.1 hcell with ⟨c, _, rfl⟩
        exact safe_serialize_not_nested c
    | some i =>
        rw [hcol2] at hcell
        rcases List.mem_or_eq_of_mem_set hcell with hc | rfl
        · rcases List.mem_map.1 hc with ⟨c, _, rfl⟩
          exact safe_serialize_not_nested c
        · rfl
  · exact absurd h0 (List.not_mem_nil _)

/-- C3 witness: `C3_amended` applied to the serializable variant of the
two-row tickets table, whose rows do collapse. -/
theorem C3_witness :
    clean_tickets c3TicketsW = clean_tickets ⟨["ticket_id", "tags"],
      [[.str "TCK-001", .obj [("a", .num 1), ("b", .arr [.str "x"])]]]⟩ ∧
    clean_tickets c3TicketsW = .ok ⟨["ticket_id", "tags"],
      [stageRow ["ticket_id", "tags"]
        [.str "TCK-001", .obj [("a", .num 1), ("b", .arr [.str "x"])]]]⟩ ∧
    allScalarB (⟨["ticket_id", "tags"],
      [stageRow ["ticket_id", "tags"]
        [.str "TCK-001", .obj [("a", .num 1), ("b", .arr [.str "x"])]]]⟩ : Table) = true :=
  C3_amended ["ticket_id", "tags"]
    [.str "TCK-001", .obj [("a", .num 1), ("b", .arr [.str "x"])]] 1
    (.obj [("a", .num 1), ("b", .arr [.str "x"])])
    (.obj [("b", .arr [.str "x"]), ("a", .num 1)])
    (by decide) rfl rfl (by decide) (by decide) (by decide) (by decide)
    (by decide) (by decide)

/-- C3 counterexample: when the structurally-equal `tags` mappings hold a
timestamp leaf, `clean_tickets` keeps both rows — the fallback strings
differ — so no collapse happens. -/
theorem C3_cex : pyEq c2Fallback1 c2Fallback2 = true ∧
    clean_tickets c3TicketsIn = .ok ⟨["ticket_id", "tags"],
      [[.str "TCK-001", .str (pyStr c2Fallback1)],
       [.str "TCK-001", .str (pyStr c2Fallback2)]]⟩ ∧
    Value.str (pyStr c2Fallback1) ≠ .str (pyStr c2Fallback2) :=
  ⟨by decide, rfl, by decide⟩

/-- C4: the spec claims encoding a nested value and decoding the result as
JSON yields the original structure.  Corrected: when `json.dumps` fails,
the `str(x)` fallback output is not valid JSON at all (see `C4_cex`); for
serializable nested values with exact-decimal numeric leaves the round
trip holds, yielding the canonical form of the value, which is equal to
the original under Python `==`. -/
theorem C4_amended : ∀ v : Value, v.isNested = true → wfV v = true →
    serializableV v = true → decRepV v = true →
    _safe_serialize v = .str (jsonDumps v) ∧
    jsonLoads (jsonDumps v) = some (canon v) ∧ pyEq (canon v) v = true := by
  intro v hn hw hs hd
  refine ⟨?_, jsonLoads_jsonDumps hs hd, pyEq_canon_self hw⟩
  unfold _safe_serialize
  rw [if_pos hn, if_pos hs]

/-- C4 witness: `C4_amended` applied to a concrete serializable nested
value. -/
theorem C4_witness :
    _safe_serialize (.obj [("b", .arr [.str "x"]), ("a", .num 1)]) =
      .str (jsonDumps (.obj [("b", .arr [.str "x"]), ("a", .num 1)])) ∧
    jsonLoads (jsonDumps (.obj [("b", .arr [.str "x"]), ("a", .num 1)])) =
      some (canon (.obj [("b", .arr [.str "x"]), ("a", .num 1)])) ∧
    pyEq (canon (.obj [("b", .arr [.str "x"]), ("a", .num 1)]))
      (.obj [("b", .arr [.str "x"]), ("a", .num 1)]) = true :=
  C4_amended (.obj [("b", .arr [.str "x"]), ("a", .num 1)])
    rfl (by decide) (by decide) (by decide)

/-- C4 counterexample: a nested value with a timestamp leaf is encoded by
the `str(x)` fallback, and that string does not decode as JSON. -/
theorem C4_cex : c2Fallback1.isNested = true ∧
    serializableV c2Fallback1 = false ∧
    _safe_serialize c2Fallback1 = .str (pyStr c2Fallback1) ∧
    jsonLoads (pyStr c2Fallback1) = Option.none :=
  ⟨rfl, by decide, rfl, by decide⟩

/-- C5: the spec claims no transform mutates the caller's table object.
Corrected: `clean_tickets` and the three analytics transforms indeed leave
every existing reference unchanged (they rebind or allocate fresh
objects), but `clean_customers` and `clean_orders` run
`drop_duplicates/dropna(inplace=True)` directly on the caller's object and
do mutate it (see `C5_cex`). -/
theorem C5_amended :
    (∀ (r : Nat) (s : Store) (p : Nat × Store), r < s.length →
      clean_ticketsProg r s = .ok p → readRef p.2 r = readRef s r) ∧
    (∀ (r q : Nat) (s : Store) (p : Nat × Store), q < s.length →
      create_average_order_valueProg r s = .ok p → readRef p.2 q = readRef s q) ∧
    (∀ (ro rt q : Nat) (s : Store) (p : Nat × Store), q < s.length →
      create_tickets_per_orderProg ro rt s = .ok p → readRef p.2 q = readRef s q) ∧
    (∀ (r q : Nat) (s : Store) (p : Nat × Store), q < s.length →
      create_total_revenueProg r s = .ok p → readRef p.2 q = readRef s q) :=
  ⟨fun _ _ _ hr h => clean_ticketsProg_frame hr h,
   fun _ _ _ _ hq h => create_average_order_valueProg_frame hq h,
   fun _ _ _ _ _ hq h => create_tickets_per_orderProg_frame hq h,
   fun _ _ _ _ hq h => create_total_revenueProg_frame hq h⟩

/-- C5 witness: `C5_amended` applied to `clean_tickets` on a one-table
store: the caller's reference still reads the original table. -/
theorem C5_witness :
    readRef [c10TicketsIn,
      (⟨["ticket_id", "tags"], [[.str "TCK-001", .str "nan"]]⟩ : Table)] 0 =
    readRef [c10TicketsIn] 0 :=
  C5_amended.1 0 [c10TicketsIn]
    (1, [c10TicketsIn, ⟨["ticket_id", "tags"], [[.str "TCK-001", .str "nan"]]⟩])
    (by decide) rfl

/-- C5 counterexample: after `clean_customers` runs on the caller's
object, the caller's reference reads the deduplicated, null-dropped table,
not the original. -/
theorem C5_cex : clean_customersProg 0 [c5CustomersIn] =
      .ok (0, [⟨["id", "name"], [[.num 1, .str "Alice"]]⟩]) ∧
    (⟨["id", "name"], [[Value.num 1, Value.str "Alice"]]⟩ : Table) ≠ c5CustomersIn :=
  ⟨rfl, by decide⟩

/-- C6: the spec claims any `ordered_at` value that fails to parse is a
fatal error for the whole table, never silently dropped or coerced.
Corrected: a genuinely unparseable string does raise for the whole table,
and on success no row is dropped; but the empty string (and missing
markers) are silently coerced to `NaT` instead of raising (see
`C6_cex`). -/
theorem C6_amended :
    (∀ (t t1 : Table) (i : Nat) (r : List Value) (e : String),
      ordersPreParse t = .ok t1 → colIdx "ordered_at" t1.cols = some i →
      r ∈ t1.rows → to_datetimeVal (getCell r i) = .error e →
      ∃ e2, clean_orders t = .error e2) ∧
    (∀ t u t1 : Table, clean_orders t = .ok u → ordersPreParse t = .ok t1 →
      u.rows.length = t1.rows.length) := by
  constructor
  · intro t t1 i r e h1 hi hr he
    rw [clean_orders_preParse h1]
    exact to_datetimeColT_error_of_cell hi hr he
  · intro t u t1 h h1
    exact ordersPreParse_rows_of_ok h h1

/-- C6 witness: `C6_amended` applied to a table whose `ordered_at` holds
an unparseable non-empty string: the whole transform errors. -/
theorem C6_witness : ∃ e2,
    clean_orders ⟨["ordered_at"], [[.str "bogus"]]⟩ = .error e2 :=
  C6_amended.1 ⟨["ordered_at"], [[.str "bogus"]]⟩
    ⟨["ordered_at"], [[.str "bogus"]]⟩ 0 [.str "bogus"]
    "to_datetime: unparseable" rfl rfl (by decide) rfl

/-- C6 counterexample: an empty `ordered_at` string is coerced to `NaT`
and the transform succeeds, leaving a missing value in the output instead
of raising. -/
theorem C6_cex : clean_orders c6OrdersIn = .ok ⟨["order_id", "ordered_at"],
      [[.str "ORD-001", .ts Option.none]]⟩ ∧
    noNullsB ⟨["order_id", "ordered_at"],
      [[.str "ORD-001", .ts Option.none]]⟩ = false :=
  ⟨rfl, by decide⟩

/-- C7: the spec claims `clean_orders` output always has `order_id`, never
has `id`, and has a timestamp-typed `ordered_at`.  Corrected: `id` is
indeed never present, and `order_id` is guaranteed when the input had an
`id` column, and every `ordered_at` cell of a successful output is a
timestamp; but an input with neither column yields an output without
`order_id` (see `C7_cex`) — the rename is conditional on `id` being
present. -/
theorem C7_amended :
    (∀ t u : Table, clean_orders t = .ok u → "id" ∉ u.cols) ∧
    (∀ t u : Table, "id" ∈ t.cols → clean_orders t = .ok u →
      "order_id" ∈ u.cols) ∧
    (∀ (t u : Table) (i : Nat), wfTableB t = true → clean_orders t = .ok u →
      colIdx "ordered_at" u.cols = some i →
      ∀ r ∈ u.rows, ∃ o, getCell r i = .ts o) :=
  ⟨fun _ _ h => clean_orders_no_id h,
   fun _ _ hid h => clean_orders_order_id hid h,
   fun _ _ _ hwf h hi => clean_orders_ordered_at_ts hwf h hi⟩

/-- C7 witness: `C7_amended` applied to the two-row orders table with an
`id` column. -/
theorem C7_witness : "id" ∉ c1OrdersOut.cols ∧ "order_id" ∈ c1OrdersOut.cols :=
  ⟨C7_amended.1 c1OrdersIn c1OrdersOut rfl,
   C7_amended.2.1 c1OrdersIn c1OrdersOut (by decide) rfl⟩

/-- C7 counterexample: an orders table with no `id` column cleans
successfully to an output with no `order_id` column. -/
theorem C7_cex : clean_orders c7OrdersIn = .ok ⟨["ordered_at"],
      [[.ts (some ⟨2024, 1, 1, 0, 0, 0⟩)]]⟩ ∧
    "order_id" ∉ (⟨["ordered_at"],
      [[Value.ts (some ⟨2024, 1, 1, 0, 0, 0⟩)]]⟩ : Table).cols :=
  ⟨rfl, by decide⟩

/-- C8: the spec claims tickets_per_order returns, per order_id present in
both tables, one row counting the matching ticket rows, with no zero-count
rows and the two declared columns even when empty.  Corrected: this holds
when the orders keys are distinct (plus shape side conditions); with a
duplicated orders key the inner join multiplies rows and the reported
count exceeds the number of matching tickets (see `C8_cex`). -/
theorem C8_amended {orders tickets : Table} {il ir : Nat}
    (hil : colIdx "order_id" orders.cols = some il)
    (hir : colIdx "order_id" tickets.cols = some ir)
    (hwo : wfTableB orders = true) (hwt : wfTableB tickets = true)
    (hndt : tickets.cols.Nodup)
    (hshared : ∀ c ∈ orders.cols, c ∈ tickets.cols → c = "order_id")
    (htid : "ticket_id" ∈ tickets.cols)
    (hknd : (keyCells orders il).Nodup)
    (hkna : ∀ v ∈ keyCells orders il, v.isna = false)
    (htna : noNullsB tickets = true) :
    ∃ out, create_tickets_per_order orders tickets = .ok out ∧
      out.cols = ["order_id", "number_of_tickets"] ∧
      (∀ row ∈ out.rows, ∃ k, k ∈ keyCells orders il ∧
          k ∈ keyCells tickets ir ∧
          row = [k, .num (matchCount tickets ir k)]) ∧
      (∀ k, k ∈ keyCells orders il → k ∈ keyCells tickets ir →
          [k, .num (matchCount tickets ir k)] ∈ out.rows) ∧
      (out.rows.map fun row => getCell row 0).Nodup :=
  tickets_per_order_spec hil hir hwo hwt hndt hshared htid hknd hkna htna

/-- C8 witness: `C8_amended` applied to concrete tables where one order
has a ticket and another does not. -/
theorem C8_witness :
    ∃ out, create_tickets_per_order ⟨["order_id"], [[.str "O1"], [.str "O2"]]⟩
        c8TicketsIn = .ok out ∧
      out.cols = ["order_id", "number_of_tickets"] ∧
      (∀ row ∈ out.rows, ∃ k,
          k ∈ keyCells ⟨["order_id"], [[.str "O1"], [.str "O2"]]⟩ 0 ∧
          k ∈ keyCells c8TicketsIn 0 ∧
          row = [k, .num (matchCount c8TicketsIn 0 k)]) ∧
      (∀ k, k ∈ keyCells ⟨["order_id"], [[.str "O1"], [.str "O2"]]⟩ 0 →
          k ∈ keyCells c8TicketsIn 0 →
          [k, .num (matchCount c8TicketsIn 0 k)] ∈ out.rows) ∧
      (out.rows.map fun row => getCell row 0).Nodup :=
  @C8_amended ⟨["order_id"], [[.str "O1"], [.str "O2"]]⟩ c8TicketsIn 0 0
    rfl rfl (by decide) (by decide) (by decide) (by decide) (by decide)
    (by decide) (by decide) (by decide)

/-- C8 counterexample: with a duplicated `order_id` in the orders table,
the output reports two tickets for an order that has exactly one matching
ticket row. -/
theorem C8_cex : create_tickets_per_order c8OrdersIn c8TicketsIn =
      .ok ⟨["order_id", "number_of_tickets"],
        [[.str "O1", .num ((2 : Nat) : Rat)]]⟩ ∧
    matchCount c8TicketsIn 0 (.str "O1") = 1 ∧ (2 : Nat) ≠ 1 :=
  ⟨rfl, by decide, by decide⟩

/-- C9: on a zero-row orders table, `create_average_order_value` returns
one row holding the not-a-number marker and `create_total_revenue` returns
one row holding `0`; neither raises.  Confirmed. -/
theorem C9_thm : ∀ t : Table, "subtotal" ∈ t.cols → t.rows = [] →
    create_average_order_value t = .ok ⟨["average_order_value"], [[.nan]]⟩ ∧
    create_total_revenue t = .ok ⟨["total_revenue"], [[.num 0]]⟩ := by
  intro t hsub hempty
  rcases Option.isSome_iff_exists.1 (colIdx_isSome_of_mem hsub) with ⟨i, hi⟩
  unfold create_average_order_value create_total_revenue colValues
  rw [hi, hempty]
  exact ⟨rfl, rfl⟩

/-- C9 witness: `C9_thm` applied to the empty orders table. -/
theorem C9_witness :
    create_average_order_value ⟨["subtotal"], []⟩ =
      .ok ⟨["average_order_value"], [[.nan]]⟩ ∧
    create_total_revenue ⟨["subtotal"], []⟩ =
      .ok ⟨["total_revenue"], [[.num 0]]⟩ :=
  C9_thm ⟨["subtotal"], []⟩ (by decide) rfl

/-- C10: a tickets row whose only missing value sits in `tags` is not
removed by `clean_tickets`: the `astype(str)` coercion of `tags` runs
before `dropna` and replaces the missing marker by its string rendering,
so the row survives with that string.  Confirmed. -/
theorem C10_thm : ∀ (t : Table) (r : List Value) (it : Nat) (u : Table),
    wfTableB t = true → r ∈ t.rows → colIdx "tags" t.cols = some it →
    (getCell r it).isna = true →
    (∀ j, j < r.length → j ≠ it → (getCell r j).isna = false) →
    clean_tickets t = .ok u →
    stageRow t.cols r ∈ u.rows ∧
      getCell (stageRow t.cols r) it = .str (pyStr (getCell r it)) ∧
      (getCell (stageRow t.cols r) it).isna = false := by
  intro t r it u hwf hmem hi hna hothers h
  obtain ⟨h1, h2⟩ := clean_tickets_tags_na_survives hwf hmem hi hothers h
  have hscal : _safe_serialize (getCell r it) = getCell r it := by
    apply safe_serialize_scalar
    cases hc : getCell r it <;>
      first
        | rfl
        | (exfalso; rw [hc] at hna; simp [Value.isna] at hna)
  refine ⟨h1, ?_, ?_⟩
  · rw [h2, hscal]
  · rw [h2]
    rfl

/-- C10 witness: `C10_thm` applied to the one-row tickets table whose
`tags` is `NaN`: the row survives with the string rendering `"nan"`. -/
theorem C10_witness :
    stageRow c10TicketsIn.cols [Value.str "TCK-001", Value.nan] ∈
      (⟨["ticket_id", "tags"],
        [[Value.str "TCK-001", Value.str "nan"]]⟩ : Table).rows ∧
    getCell (stageRow c10TicketsIn.cols [Value.str "TCK-001", Value.nan]) 1 =
      .str (pyStr (getCell [Value.str "TCK-001", Value.nan] 1)) ∧
    (getCell (stageRow c10TicketsIn.cols
      [Value.str "TCK-001", Value.nan]) 1).isna = false :=
  C10_thm c10TicketsIn [Value.str "TCK-001", Value.nan] 1
    ⟨["ticket_id", "tags"], [[Value.str "TCK-001", Value.str "nan"]]⟩
    (by decide) (by decide) rfl rfl (by decide) rfl
